import Mathlib

/-!
Verification of the priority tree implementation (priority/priority.py).

The source implements an HTTP/2 stream priority tree: `Stream` objects hold a
weight, an active flag, a parent reference, a list of children and a priority
queue of `(virtual_time, child)` pairs; `PriorityTree` owns all streams in a
dict keyed by stream id and exposes insert_stream / reprioritize /
remove_stream / block / unblock / next.

The embedding below represents the object graph as an association list from
stream id to node record (the source compares, orders and removes streams by
`stream_id` alone, via the custom `__eq__` / `__lt__`, so identifying a node
with its id is faithful as long as at most one live object per id is
reachable; the states quantified over in the theorems keep that property).
Python exceptions are explicit `PyErr` values, and each operation returns the
state at the moment it raised, because Python's exceptions leave all prior
mutations in place.  `Stream.schedule`, which is recursive and re-entrant
through the child queue, is modelled by fuel-indexed mutual recursion, where
the fuel only bounds the recursion depth (one unit per tree level) and a
separate loop counter bounds the pop loop of one frame, so a `fuelOut` result
can only occur when the fuel is smaller than the depth actually explored.
-/

namespace Priority

/-- Python exceptions observable from the source: the four errors the module
defines plus the built-in exceptions its code can raise.  `badRef` is an
artefact of the id-keyed embedding: it marks a dereference of an id that is
not in the map, which in Python would follow a stale object reference. -/
inductive PyErr where
  | deadlock
  | duplicateStream
  | missingStream
  | keyError
  | priorityLoop
  | zeroDivision
  | assertionFailed
  | attributeError
  | badRef
deriving DecidableEq, Repr

/-- One stream node, mirroring `Stream.__init__`: weight, ordered list of
children (by id), parent back-reference, the priority queue as a list of
`(virtual_time, child_id)` pairs in insertion order, the active flag, the
virtual-time cursor `last_weight` and the division remainder `_deficit`
(named `deficit` here). -/
structure Stream where
  stream_id : Nat
  weight : Nat
  children : List Nat
  parent : Option Nat
  child_queue : List (Nat × Nat)
  active : Bool
  last_weight : Nat
  deficit : Nat
deriving DecidableEq, Repr

/-- The whole tree state: the `_streams` dict as an association list. -/
abbrev Streams := List (Nat × Stream)

/-- Fresh stream as built by `Stream.__init__(stream_id, weight)`. -/
def mkStream (stream_id weight : Nat) : Stream :=
  { stream_id := stream_id, weight := weight, children := [], parent := none,
    child_queue := [], active := true, last_weight := 0, deficit := 0 }

/-- Dict lookup (first matching key). -/
def getNode : Streams → Nat → Option Stream
  | [], _ => none
  | (i, n) :: rest, id => if i = id then some n else getNode rest id

/-- Update the node stored under an id in place; no effect on a missing id. -/
def updNode : Streams → Nat → (Stream → Stream) → Streams
  | [], _, _ => []
  | (i, n) :: rest, id, f =>
      if i = id then (i, f n) :: rest else (i, n) :: updNode rest id f

/-- Dict insertion of a fresh key (appended, like dict insertion order). -/
def putNode (s : Streams) (id : Nat) (n : Stream) : Streams := s ++ [(id, n)]

/-- Dict `pop`: remove the entry for an id. -/
def eraseNode : Streams → Nat → Streams
  | [], _ => []
  | (i, n) :: rest, id => if i = id then rest else (i, n) :: eraseNode rest id

/-- The ids present in the dict. -/
def keys (s : Streams) : List Nat := s.map Prod.fst

/-- Strict lexicographic order on `(virtual_time, stream_id)` pairs: this is
exactly how `queue.PriorityQueue` orders the `(level, stream)` tuples, since
tuple comparison falls through to `Stream.__lt__`, which compares ids. -/
def qlt (a b : Nat × Nat) : Bool :=
  a.1 < b.1 || (a.1 == b.1 && a.2 < b.2)

/-- Least entry of the queue under `qlt` (first occurrence among equals). -/
def qmin : List (Nat × Nat) → Option (Nat × Nat)
  | [] => none
  | x :: xs => some (xs.foldl (fun m y => if qlt y m then y else m) x)

/-- Model of `PriorityQueue.get(block=False)`: remove and return the least
entry, or fail on an empty queue. -/
def qget (q : List (Nat × Nat)) : Option ((Nat × Nat) × List (Nat × Nat)) :=
  match qmin q with
  | none => none
  | some m => some (m, q.erase m)

/-- Drain a queue in priority order; the counter is the queue length, which
bounds the number of pops exactly. -/
def qdrainAux : Nat → List (Nat × Nat) → List (Nat × Nat)
  | 0, _ => []
  | k + 1, q =>
      match qget q with
      | none => []
      | some (m, q') => m :: qdrainAux k q'

/-- All entries of a queue in the order `get` would deliver them. -/
def qdrain (q : List (Nat × Nat)) : List (Nat × Nat) := qdrainAux q.length q

/-- Model of `Stream.add_child(child)`: set the child's parent reference, then
append the child to `children` and put `(last_weight, child)` on the queue. -/
def add_child (s : Streams) (pid cid : Nat) : Streams :=
  updNode (updNode s cid fun n => { n with parent := some pid }) pid fun p =>
    { p with children := p.children ++ [cid],
             child_queue := p.child_queue ++ [(p.last_weight, cid)] }

/-- Model of `Stream.add_child_exclusive(child)`: snapshot the children,
reset children, queue and `last_weight`, add the new child, then re-add every
old child beneath the new one.  (In the source the snapshot is the old list
object, unaffected by the rebinding of `self.children`.) -/
def add_child_exclusive (s : Streams) (pid cid : Nat) : Streams :=
  match getNode s pid with
  | none => s
  | some p =>
      p.children.foldl (fun acc oc => add_child acc cid oc)
        (add_child
          (updNode s pid fun n =>
            { n with children := [], child_queue := [], last_weight := 0 })
          pid cid)

/-- The in-place part of `Stream.remove_child`: drop the child id from the
`children` list (list `remove`, which compares streams by id) and rebuild the
queue by draining it in priority order and re-putting every entry whose
stream is not the child. -/
def remove_child_core (s : Streams) (pid cid : Nat) : Streams :=
  updNode s pid fun p =>
    { p with children := p.children.erase cid,
             child_queue := (qdrain p.child_queue).filter fun e => e.2 ≠ cid }

/-- Model of `Stream.remove_child(child, strip_children)`.  The child is
passed as a record, like the object reference in the source (`remove_stream`
calls it after the child has already been popped from the dict).  With
`strip_children` the child's own children are re-added to this node. -/
def remove_child (s : Streams) (pid : Nat) (child : Stream) (strip_children : Bool) :
    Streams :=
  match getNode s pid with
  | none => s
  | some _ =>
      if strip_children then
        child.children.foldl (fun acc gc => add_child acc pid gc)
          (remove_child_core s pid child.stream_id)
      else remove_child_core s pid child.stream_id

/-- Result of one `schedule` call. -/
inductive SchedResult where
  | found (sid : Nat)
  | empty
  | err (e : PyErr)
  | fuelOut
deriving DecidableEq, Repr

/-- The `finally` block of `Stream.schedule`: for each popped `(level, child)`
pair in pop order, set the parent's `last_weight` to the popped level, advance
the level by `(256 + deficit) // weight`, store the remainder as the child's
new deficit and re-put the entry.  Division by a zero weight raises
`ZeroDivisionError` there, after `last_weight` was already written, aborting
the remaining re-insertions exactly as an exception in a `finally` block
would. -/
def requeue (s : Streams) (sid : Nat) : List (Nat × Nat) → Streams × Option PyErr
  | [] => (s, none)
  | (level, cid) :: rest =>
      let s₁ := updNode s sid fun n => { n with last_weight := level }
      match getNode s₁ cid with
      | none => (s₁, some .badRef)
      | some c =>
          if c.weight = 0 then (s₁, some .zeroDivision)
          else
            let newLevel := level + (256 + c.deficit) / c.weight
            let s₂ := updNode s₁ cid fun m =>
              { m with deficit := (256 + m.deficit) % m.weight }
            let s₃ := updNode s₂ sid fun n =>
              { n with child_queue := n.child_queue ++ [(newLevel, cid)] }
            requeue s₃ sid rest

/-- The pop loop of `Stream.schedule`, parameterised by the recursive call
used on inactive children (`recur` is `schedule` at one fuel level lower).
Returns the result, the list of entries popped by this frame in pop order,
and the state after the loop (the popped entries not yet re-inserted).  The
last argument counts down from the queue length at frame entry; recursive
child calls never touch this node's queue in well-formed states, so the
counter only runs out (yielding `fuelOut`) on malformed graphs. -/
def schedLoop (recur : Streams → Nat → SchedResult × Streams) :
    Streams → Nat → Nat → SchedResult × List (Nat × Nat) × Streams
  | s, sid, 0 =>
      match getNode s sid with
      | none => (.err .badRef, [], s)
      | some n =>
          match qget n.child_queue with
          | none => (.empty, [], s)
          | some _ => (.fuelOut, [], s)
  | s, sid, lf + 1 =>
      match getNode s sid with
      | none => (.err .badRef, [], s)
      | some n =>
          match qget n.child_queue with
          | none => (.empty, [], s)
          | some ((level, cid), q') =>
              match getNode (updNode s sid fun m => { m with child_queue := q' }) cid with
              | none => (.err .badRef, [(level, cid)],
                  updNode s sid fun m => { m with child_queue := q' })
              | some c =>
                  if c.active then (.found cid, [(level, cid)],
                    updNode s sid fun m => { m with child_queue := q' })
                  else
                    match recur (updNode s sid fun m => { m with child_queue := q' }) cid with
                    | (.found k, s₂) => (.found k, [(level, cid)], s₂)
                    | (.empty, s₂) =>
                        match schedLoop recur s₂ sid lf with
                        | (res, popped, s₃) =>
                            (res, (level, cid) :: popped, s₃)
                    | (.err e, s₂) => (.err e, [(level, cid)], s₂)
                    | (.fuelOut, s₂) => (.fuelOut, [(level, cid)], s₂)

/-- Model of `Stream.schedule()`: assert the node is not active, spin popping
the least entry of the child queue looking for an active stream (recursing
into inactive children and treating their `queue.Empty` as "keep looking"),
and on every exit re-put all popped entries with advanced virtual times.  The
fuel decreases by one per recursion level, so it only bounds the depth. -/
def schedule : Nat → Streams → Nat → SchedResult × Streams
  | 0, s, _ => (.fuelOut, s)
  | fuel + 1, s, sid =>
      match getNode s sid with
      | none => (.err .badRef, s)
      | some n =>
          if n.active then (.err .assertionFailed, s)
          else
            match schedLoop (schedule fuel) s sid n.child_queue.length with
            | (res, popped, s₁) =>
                match requeue s₁ sid popped with
                | (s₂, some e) => (.err e, s₂)
                | (s₂, none) => (res, s₂)

/-- The state built by `PriorityTree.__init__`: a synthetic root stream with
id 0 and weight 1, marked inactive. -/
def initTree : Streams :=
  [(0, { mkStream 0 1 with active := false })]

/-- Model of `PriorityTree.insert_stream`.  Duplicate ids fail first; the
exclusive path asserts `depends_on is not None` and looks the parent up with
a bare dict access (a missing parent therefore raises the built-in
`KeyError`, not `MissingStreamError`); the non-exclusive path maps a missing
or zero `depends_on` to the root and also uses a bare dict access.  The fresh
node is placed in the map before `add_child` runs so that the id-keyed
updates can reach it; the source instead assigns `self._streams[stream_id]`
after `add_child`, with the same resulting state, since `add_child` never
consults the dict. -/
def insert_stream (s : Streams) (stream_id : Nat) (depends_on : Option Nat)
    (weight : Nat) (exclusive : Bool) : Streams × Option PyErr :=
  if (getNode s stream_id).isSome then (s, some .duplicateStream)
  else
    let stream := mkStream stream_id weight
    if exclusive then
      match depends_on with
      | none => (s, some .assertionFailed)
      | some dep =>
          match getNode s dep with
          | none => (s, some .keyError)
          | some _ =>
              let s₁ := putNode s stream_id stream
              (add_child_exclusive s₁ dep stream_id, none)
    else
      let dep := match depends_on with
        | none => 0
        | some d => d
      match getNode s dep with
      | none => (s, some .keyError)
      | some _ =>
          let s₁ := putNode s stream_id stream
          (add_child s₁ dep stream_id, none)

/-- One upward hop of the ancestor walk in `reprioritize.stream_cycle`; the
counter is the hard-coded `range(100)` bound of the source.  Each step moves
to the current node's parent and reports a cycle if that parent is the
reprioritised stream, no cycle if it is the root, and `PriorityLoop` when the
bound is exhausted.  A node without a parent reference would raise
`AttributeError` in Python. -/
def streamCycleGo (s : Streams) (current : Nat) : Nat → Nat → Except PyErr Bool
  | 0, _ => .error .priorityLoop
  | k + 1, pid =>
      match getNode s pid with
      | none => .error .badRef
      | some pn =>
          match pn.parent with
          | none => .error .attributeError
          | some pp =>
              if pp = current then .ok true
              else if pp = 0 then .ok false
              else streamCycleGo s current k pp

/-- Model of `reprioritize.stream_cycle(new_parent, current)`. -/
def stream_cycle (s : Streams) (new_parent current : Nat) : Except PyErr Bool :=
  streamCycleGo s current 100 new_parent

/-- The tail of `PriorityTree.reprioritize` after validation, weight update
and cycle repair: detach the stream from its current parent keeping its own
children, then reattach it beneath the new parent, exclusively or not. -/
def reprioFinish (s : Streams) (stream_id npid : Nat) (exclusive : Bool) :
    Streams × Option PyErr :=
  match getNode s stream_id with
  | none => (s, some .badRef)
  | some cur =>
      match cur.parent with
      | none => (s, some .attributeError)
      | some cp =>
          let s₁ := remove_child s cp cur false
          if exclusive then (add_child_exclusive s₁ npid stream_id, none)
          else (add_child s₁ npid stream_id, none)

/-- Model of `PriorityTree.reprioritize`.  A missing target raises
`MissingStreamError`; a non-zero `depends_on` is looked up with a bare dict
access (`KeyError` when absent) and then checked for a cycle; the weight is
written before any restructuring; when the move is cyclic the new parent is
first reattached under the stream's current parent (its own children being
stripped up a level by `remove_child`'s default), per RFC 7540 §5.3.3. -/
def reprioritize (s : Streams) (stream_id : Nat) (depends_on : Option Nat)
    (weight : Nat) (exclusive : Bool) : Streams × Option PyErr :=
  match getNode s stream_id with
  | none => (s, some .missingStream)
  | some _ =>
      let depRes : Except PyErr (Nat × Bool) :=
        match depends_on with
        | some d =>
            if d = 0 then .ok (0, false)
            else
              match getNode s d with
              | none => .error .keyError
              | some _ => (stream_cycle s d stream_id).map fun c => (d, c)
        | none => .ok (0, false)
      match depRes with
      | .error e => (s, some e)
      | .ok (npid, cycle) =>
          let s₁ := updNode s stream_id fun n => { n with weight := weight }
          if cycle then
            match getNode s₁ npid with
            | none => (s₁, some .badRef)
            | some np =>
                match np.parent with
                | none => (s₁, some .attributeError)
                | some pnp =>
                    let s₂ := remove_child s₁ pnp np true
                    match getNode s₂ stream_id with
                    | none => (s₂, some .badRef)
                    | some cur =>
                        match cur.parent with
                        | none => (s₂, some .attributeError)
                        | some cp =>
                            let s₃ := add_child s₂ cp npid
                            reprioFinish s₃ stream_id npid exclusive
          else reprioFinish s₁ stream_id npid exclusive

/-- Model of `PriorityTree.remove_stream`: pop the node from the dict
(`MissingStreamError` when absent) and remove it from its parent with the
default `strip_children=True`, transplanting its children upward.  The root
has no parent reference, so removing it pops it and then raises
`AttributeError`. -/
def remove_stream (s : Streams) (stream_id : Nat) : Streams × Option PyErr :=
  match getNode s stream_id with
  | none => (s, some .missingStream)
  | some child =>
      let s₁ := eraseNode s stream_id
      match child.parent with
      | none => (s₁, some .attributeError)
      | some pid => (remove_child s₁ pid child true, none)

/-- Model of `PriorityTree.block`: clear the active flag. -/
def block (s : Streams) (stream_id : Nat) : Streams × Option PyErr :=
  match getNode s stream_id with
  | none => (s, some .missingStream)
  | some _ => (updNode s stream_id (fun n => { n with active := false }), none)

/-- Model of `PriorityTree.unblock`: set the active flag. -/
def unblock (s : Streams) (stream_id : Nat) : Streams × Option PyErr :=
  match getNode s stream_id with
  | none => (s, some .missingStream)
  | some _ => (updNode s stream_id (fun n => { n with active := true }), none)

/-- Model of `PriorityTree.__next__`: schedule from the root and turn
`queue.Empty` into `DeadlockError`. -/
def pnext (fuel : Nat) (s : Streams) : SchedResult × Streams :=
  match schedule fuel s 0 with
  | (.empty, s') => (.err .deadlock, s')
  | r => r

/-- Run `next()` a number of times, collecting the results. -/
def runNext (fuel : Nat) : Nat → Streams → List SchedResult × Streams
  | 0, s => ([], s)
  | k + 1, s =>
      let (r, s₁) := pnext fuel s
      let (rs, s₂) := runNext fuel k s₁
      (r :: rs, s₂)

/-! ### Derived observations on a tree state -/

/-- Parent id of a stream, observed through the map. -/
def parentOf (s : Streams) (i : Nat) : Option Nat :=
  match getNode s i with
  | some n => n.parent
  | none => none

/-- Active flag of a stream (false for an id not in the map). -/
def activeOf (s : Streams) (i : Nat) : Bool :=
  match getNode s i with
  | some n => n.active
  | none => false

/-- Children list of a stream. -/
def childIds (s : Streams) (i : Nat) : List Nat :=
  match getNode s i with
  | some n => n.children
  | none => []

/-- Stream ids currently on a node's child queue. -/
def queueIds (s : Streams) (i : Nat) : List Nat :=
  match getNode s i with
  | some n => n.child_queue.map Prod.snd
  | none => []

/-- Every stream in the map (the root included) has a positive weight.  This
is the precondition under which the scheduler's divisions are safe; the
constructor `insert_stream` does not enforce it. -/
def WeightsOK (s : Streams) : Prop := ∀ p ∈ s, 1 ≤ p.2.weight

/-- No stream other than the root is active. -/
def noNonRootActive (s : Streams) : Prop := ∀ p ∈ s, p.1 ≠ 0 → p.2.active = false

instance (s : Streams) : Decidable (noNonRootActive s) := by
  unfold noNonRootActive; infer_instance

instance (s : Streams) : Decidable (WeightsOK s) := by
  unfold WeightsOK; infer_instance

/-- Whether following parent references from an id reaches the root within
the given number of hops. -/
def rootedWithin (s : Streams) : Nat → Nat → Bool
  | 0, i => i == 0
  | k + 1, i =>
      i == 0 ||
        match getNode s i with
        | none => false
        | some n =>
            match n.parent with
            | none => false
            | some p => rootedWithin s k p

/-- The virtual-time advance applied to a popped `(level, child)` entry by
the `finally` block of `Stream.schedule`: the level grows by
`(256 + deficit) // weight` of the child as recorded in the given state. -/
def stepEntry (s : Streams) (e : Nat × Nat) : Nat × Nat :=
  match getNode s e.2 with
  | some c => (e.1 + (256 + c.deficit) / c.weight, e.2)
  | none => e

/-! ### Concrete states used by the scenario claims -/

/-- Tree with a single default stream 1 under the root. -/
def treeOne : Streams := (insert_stream initTree 1 none 16 false).1

/-- Scenario state for weighted sharing: streams 1 (weight 16) and 3
(weight 32) directly under the root. -/
def treeC3 : Streams :=
  (insert_stream ((insert_stream initTree 1 none 16 false).1) 3 none 32 false).1

/-- Scenario state for the RFC 7540 cycle case: the chain 0 → 1 → 3 → 5 → 7
built by four dependent inserts. -/
def treeC4 : Streams :=
  (insert_stream
    ((insert_stream
      ((insert_stream
        ((insert_stream initTree 1 (some 0) 16 false).1)
        3 (some 1) 16 false).1)
      5 (some 3) 16 false).1)
    7 (some 5) 16 false).1

/-- State after `reprioritise(1, depends_on=7, exclusive=false)` on the
chain. -/
def treeC4R : Streams := (reprioritize treeC4 1 (some 7) 16 false).1

/-- A dependency chain 0 → 1 → 2 → ... → n of default-weight streams. -/
def chainTree (n : Nat) : Streams :=
  (List.range n).foldl
    (fun s i => (insert_stream s (i + 1) (some i) 16 false).1) initTree

/-- Tree containing a stream inserted with the illegal weight 0. -/
def treeW0 : Streams := (insert_stream initTree 1 none 0 false).1

/-- The state `treeOne` after the root's single queue entry `(0, 1)` has been
popped by the scheduling loop (used to witness the requeue discipline). -/
def treeOnePopped : Streams :=
  [(0, { stream_id := 0, weight := 1, children := [1], parent := none,
         child_queue := [], active := false, last_weight := 0, deficit := 0 }),
   (1, { stream_id := 1, weight := 16, children := [], parent := some 0,
         child_queue := [], active := true, last_weight := 0, deficit := 0 })]

/-! ### Reachability under the public API

`ReachS` is reachability by arbitrary public calls, except that the
degenerate calls that target the reserved root id 0 (`reprioritize`,
`remove_stream`, `unblock`) or make a stream depend on itself are excluded:
stream 0 is the synthetic connection stream of HTTP/2 and a stream may not
depend on itself (RFC 7540 §5.3.1), and the source does not guard against
either, so those calls corrupt the tree (see the counterexamples for C2 and
C8).  `ReachQ` further restricts to spec-legal weights (≥ 1, §3 invariant 5)
and excludes the reprioritise calls whose RFC 7540 §5.3.3 cycle repair
relocates a new parent that still has children of its own: the source's
`remove_child` does not clear the relocated node's own child list or queue,
leaving stale references (the spec's §9 notes this divergence from the RFC),
after which queue contents and children disagree. -/

/-- Whether `reprioritize s stream_id depends_on _ _` would run the cycle
repair on a new parent that still has children (the stale-reference case
excluded from `ReachQ`). -/
def repairStale (s : Streams) (stream_id : Nat) (depends_on : Option Nat) : Bool :=
  match getNode s stream_id with
  | none => false
  | some _ =>
      match depends_on with
      | none => false
      | some d =>
          if d = 0 then false
          else
            match getNode s d with
            | none => false
            | some np =>
                match stream_cycle s d stream_id with
                | .ok true => !np.children.isEmpty
                | _ => false

/-- States reachable by public operations that never target the reserved
root id, never make a stream depend on itself, and never trigger the
stale-reference cycle repair (`remove_child` does not clear the relocated
parent's own child list, and the stale entries it leaves can later re-parent
a live stream onto itself and orphan it from the root — see the reason
recorded for C8). -/
inductive ReachS : Streams → Prop where
  | init : ReachS initTree
  | insert (s id dep w ex) : ReachS s → ReachS (insert_stream s id dep w ex).1
  | reprio (s id dep w ex) : ReachS s → id ≠ 0 → dep ≠ some id →
      repairStale s id dep = false → ReachS (reprioritize s id dep w ex).1
  | remove (s id) : ReachS s → id ≠ 0 → ReachS (remove_stream s id).1
  | block (s id) : ReachS s → ReachS (block s id).1
  | unblock (s id) : ReachS s → id ≠ 0 → ReachS (unblock s id).1
  | next (s fuel) : ReachS s → ReachS (pnext fuel s).2

/-- States reachable as in `ReachS`, but additionally with spec-legal
weights (≥ 1, §3 invariant 5) on insertion and reprioritisation, so that the
scheduler's divisions are safe. -/
inductive ReachQ : Streams → Prop where
  | init : ReachQ initTree
  | insert (s id dep w ex) : ReachQ s → 1 ≤ w → ReachQ (insert_stream s id dep w ex).1
  | reprio (s id dep w ex) : ReachQ s → id ≠ 0 → dep ≠ some id → 1 ≤ w →
      repairStale s id dep = false → ReachQ (reprioritize s id dep w ex).1
  | remove (s id) : ReachQ s → id ≠ 0 → ReachQ (remove_stream s id).1
  | block (s id) : ReachQ s → ReachQ (block s id).1
  | unblock (s id) : ReachQ s → id ≠ 0 → ReachQ (unblock s id).1
  | next (s fuel) : ReachQ s → ReachQ (pnext fuel s).2

/-! ### Ancestor chains and the tree invariants -/

/-- The id reached from `i` by following `k` parent references (`none` when
the chain runs off a node without parent or out of the map). -/
def parIter (s : Streams) : Nat → Nat → Option Nat
  | 0, i => some i
  | k + 1, i =>
      match parentOf s i with
      | none => none
      | some p => parIter s k p

/-- The root is an ancestor of `i`: some number of parent hops reaches 0. -/
def rooted (s : Streams) (i : Nat) : Prop := ∃ k, parIter s k i = some 0

/-- The fields of a node that scheduling never changes: everything except
the child queue, the virtual-time cursor and the deficit. -/
def nodeSkel (n : Stream) : Nat × Option Nat × List Nat × Bool × Nat :=
  (n.stream_id, n.parent, n.children, n.active, n.weight)

/-- Structural invariant of reachable trees (what C8 needs): keys are unique
and match the stored `stream_id`s; the root is present, parentless and
inactive; children lists hold distinct, non-root, live streams whose parent
reference points back; every non-root stream's parent is live and lists it
as a child; and every stream's parent chain reaches the root. -/
structure CInv (s : Streams) : Prop where
  nodup : (keys s).Nodup
  ids : ∀ p ∈ s, p.2.stream_id = p.1
  root0 : ∃ r, getNode s 0 = some r ∧ r.parent = none ∧ r.active = false
  childMem : ∀ p ∈ s, ∀ c ∈ p.2.children,
    c ≠ 0 ∧ ∃ cn, getNode s c = some cn ∧ cn.parent = some p.1
  childNodup : ∀ p ∈ s, p.2.children.Nodup
  plink : ∀ p ∈ s, p.1 ≠ 0 →
    ∃ q nq, p.2.parent = some q ∧ getNode s q = some nq ∧ p.1 ∈ nq.children
  rootedAll : ∀ p ∈ s, rooted s p.1

/-- Scheduling invariant of reachable trees (what C2 needs on top of the
structural invariant): every child queue holds exactly the children (as a
multiset) and every weight is at least 1. -/
structure QInv (s : Streams) : Prop where
  str : CInv s
  queuePerm : ∀ p ∈ s, (p.2.child_queue.map Prod.snd).Perm p.2.children
  weights : ∀ p ∈ s, 1 ≤ p.2.weight

/-- `j` is a strict descendant of `a`: at least one parent hop from `j`
reaches `a`. -/
def Desc (s : Streams) (a j : Nat) : Prop :=
  ∃ m, 1 ≤ m ∧ parIter s m j = some a

/-- Functional correctness of `Stream.schedule` at one fuel level: on a
structurally sound tree with positive weights whose child queues (at the
scheduled node and below) agree with the children lists, a `schedule` call
restores every queue up to permutation, touches only the scheduled node and
its strict descendants, raises no exception, returns only active strict
descendants, reports `queue.Empty` only when the whole subtree is inactive,
and does not run out of fuel when the fuel covers the tree size. -/
def SchedSpec (fuel : Nat) : Prop :=
  ∀ (s : Streams) (sid : Nat) (n : Stream),
    CInv s → (∀ p ∈ s, 1 ≤ p.2.weight) →
    getNode s sid = some n → n.active = false →
    (∀ j, (j = sid ∨ Desc s sid j) → (queueIds s j).Perm (childIds s j)) →
    (∀ j, (queueIds (schedule fuel s sid).2 j).Perm (queueIds s j)) ∧
    (∀ j, j ≠ sid → ¬ Desc s sid j →
      getNode (schedule fuel s sid).2 j = getNode s j) ∧
    (∀ e, (schedule fuel s sid).1 ≠ .err e) ∧
    (∀ cid, (schedule fuel s sid).1 = .found cid →
      Desc s sid cid ∧ activeOf s cid = true) ∧
    ((schedule fuel s sid).1 = .empty →
      ∀ j, Desc s sid j → activeOf s j = false) ∧
    (∀ k, parIter s k sid = some 0 → (keys s).length ≤ fuel + k →
      (schedule fuel s sid).1 ≠ .fuelOut)

/-! ### Basic lemmas about the id-keyed map -/

theorem getNode_eq_some_mem {s : Streams} {i : Nat} {n : Stream}
    (h : getNode s i = some n) : (i, n) ∈ s := by
  induction s with
  | nil => simp [getNode] at h
  | cons p rest ih =>
      obtain ⟨j, m⟩ := p
      by_cases hj : j = i
      · subst hj
        simp [getNode] at h
        simp [h]
      · simp [getNode, hj] at h
        exact List.mem_cons_of_mem _ (ih h)

theorem getNode_mem_keys {s : Streams} {i : Nat} {n : Stream}
    (h : getNode s i = some n) : i ∈ keys s := by
  have := getNode_eq_some_mem h
  exact List.mem_map.mpr ⟨(i, n), this, rfl⟩

theorem getNode_eq_none_of_not_mem {s : Streams} {i : Nat}
    (h : i ∉ keys s) : getNode s i = none := by
  induction s with
  | nil => rfl
  | cons p rest ih =>
      obtain ⟨j, m⟩ := p
      have hj : j ≠ i := by
        intro hji
        exact h (by simp [keys, hji])
      have hr : i ∉ keys rest := by
        intro hm
        exact h (by simp [keys] at hm ⊢; exact Or.inr hm)
      simp [getNode, hj, ih hr]

theorem mem_keys_of_getNode_isSome {s : Streams} {i : Nat}
    (h : (getNode s i).isSome) : i ∈ keys s := by
  cases hg : getNode s i with
  | none => rw [hg] at h; simp at h
  | some n => exact getNode_mem_keys hg

theorem getNode_updNode_self (s : Streams) (id : Nat) (f : Stream → Stream) :
    getNode (updNode s id f) id = (getNode s id).map f := by
  induction s with
  | nil => rfl
  | cons p rest ih =>
      obtain ⟨j, m⟩ := p
      by_cases hj : j = id
      · subst hj; simp [updNode, getNode]
      · simp [updNode, getNode, hj, ih]

theorem getNode_updNode_ne (s : Streams) {id j : Nat} (f : Stream → Stream)
    (h : j ≠ id) : getNode (updNode s id f) j = getNode s j := by
  induction s with
  | nil => rfl
  | cons p rest ih =>
      obtain ⟨k, m⟩ := p
      by_cases hk : k = id
      · subst hk
        simp [updNode, getNode, Ne.symm h]
      · by_cases hkj : k = j
        · subst hkj; simp [updNode, getNode, hk]
        · simp [updNode, getNode, hk, hkj, ih]

theorem keys_updNode (s : Streams) (id : Nat) (f : Stream → Stream) :
    keys (updNode s id f) = keys s := by
  induction s with
  | nil => rfl
  | cons p rest ih =>
      obtain ⟨k, m⟩ := p
      by_cases hk : k = id
      · subst hk; simp [updNode, keys]
      · simp [updNode, keys, hk] at ih ⊢; exact ih

theorem getNode_append (s t : Streams) (i : Nat) :
    getNode (s ++ t) i = ((getNode s i).or (getNode t i)) := by
  induction s with
  | nil => simp [getNode]
  | cons p rest ih =>
      obtain ⟨j, m⟩ := p
      by_cases hj : j = i
      · subst hj; simp [getNode]
      · simp [getNode, hj, ih]

theorem getNode_putNode_self {s : Streams} {id : Nat} (n : Stream)
    (h : id ∉ keys s) : getNode (putNode s id n) id = some n := by
  rw [putNode, getNode_append, getNode_eq_none_of_not_mem h]
  simp [getNode]

theorem getNode_putNode_ne (s : Streams) {id j : Nat} (n : Stream)
    (h : j ≠ id) : getNode (putNode s id n) j = getNode s j := by
  rw [putNode, getNode_append]
  cases hg : getNode s j with
  | some m => rfl
  | none => simp [getNode, Ne.symm h]

theorem keys_putNode (s : Streams) (id : Nat) (n : Stream) :
    keys (putNode s id n) = keys s ++ [id] := by
  simp [keys, putNode]

theorem getNode_eraseNode_ne (s : Streams) {id j : Nat} (h : j ≠ id) :
    getNode (eraseNode s id) j = getNode s j := by
  induction s with
  | nil => rfl
  | cons p rest ih =>
      obtain ⟨k, m⟩ := p
      by_cases hk : k = id
      · subst hk; simp [eraseNode, getNode, Ne.symm h]
      · simp [eraseNode, getNode, hk, ih]

theorem keys_eraseNode (s : Streams) (id : Nat) :
    keys (eraseNode s id) = (keys s).erase id := by
  induction s with
  | nil => rfl
  | cons p rest ih =>
      obtain ⟨k, m⟩ := p
      by_cases hk : k = id
      · subst hk; simp [eraseNode, keys, List.erase_cons]
      · simp [eraseNode, keys, List.erase_cons, hk] at ih ⊢
        exact ih

theorem getNode_eraseNode_self {s : Streams} {id : Nat}
    (h : (keys s).Nodup) : getNode (eraseNode s id) id = none := by
  apply getNode_eq_none_of_not_mem
  rw [keys_eraseNode]
  exact (h.mem_erase_iff).not.mpr (by simp)

theorem mem_updNode {s : Streams} {id : Nat} {f : Stream → Stream}
    {q : Nat × Stream} (h : q ∈ updNode s id f) :
    q ∈ s ∨ ∃ n, (id, n) ∈ s ∧ q = (id, f n) := by
  induction s with
  | nil => simp [updNode] at h
  | cons p rest ih =>
      obtain ⟨k, m⟩ := p
      by_cases hk : k = id
      · subst hk
        simp [updNode] at h
        rcases h with h | h
        · exact Or.inr ⟨m, by simp [h]⟩
        · exact Or.inl (List.mem_cons_of_mem _ h)
      · simp [updNode, hk] at h
        rcases h with h | h
        · exact Or.inl (by simp [h])
        · rcases ih h with h' | ⟨n, hn, hq⟩
          · exact Or.inl (List.mem_cons_of_mem _ h')
          · exact Or.inr ⟨n, List.mem_cons_of_mem _ hn, hq⟩

theorem mem_eraseNode {s : Streams} {id : Nat} {q : Nat × Stream}
    (h : q ∈ eraseNode s id) : q ∈ s := by
  induction s with
  | nil => simp [eraseNode] at h
  | cons p rest ih =>
      obtain ⟨k, m⟩ := p
      by_cases hk : k = id
      · subst hk
        simp [eraseNode] at h
        exact List.mem_cons_of_mem _ h
      · simp [eraseNode, hk] at h
        rcases h with h | h
        · exact (by simp [h])
        · exact List.mem_cons_of_mem _ (ih h)

/-! ### Scenario claims -/

set_option maxRecDepth 40000

/-- C3: starting from the empty tree, after inserting stream 1 with weight 16
and stream 3 with weight 32 under the root (both active, no further
mutation), the first `next()` returns 1, and over exactly 48 `next()` calls
stream 1 is returned exactly 16 times and stream 3 exactly 32 times.  All 48
calls succeed (the counts cover the whole list). -/
theorem c3_weighted_sharing :
    (runNext 5 48 treeC3).1.head? = some (.found 1) ∧
    (runNext 5 48 treeC3).1.length = 48 ∧
    (runNext 5 48 treeC3).1.count (.found 1) = 16 ∧
    (runNext 5 48 treeC3).1.count (.found 3) = 32 := by decide

/-- C4: on the chain 0 → 1 → 3 → 5 → 7, `reprioritise(1, depends_on=7,
exclusive=false)` succeeds and produces the chain 0 → 7 → 1 → 3 → 5: the
cyclic move is repaired by first pulling 7 up under 1's former parent 0 and
then placing 1 (keeping 3 and 5 beneath it) under 7. -/
theorem c4_reprioritize_to_descendant :
    (reprioritize treeC4 1 (some 7) 16 false).2 = none ∧
    parentOf treeC4R 7 = some 0 ∧ parentOf treeC4R 1 = some 7 ∧
    parentOf treeC4R 3 = some 1 ∧ parentOf treeC4R 5 = some 3 := by decide

/-- C5: the ancestor walk of `reprioritize.stream_cycle` uses the hard-coded
bound `range(100)`, not the size of `streams`.  On the well-formed chain
0 → 1 → ... → 101 the cyclic move `reprioritise(1, depends_on=101)` is still
classified within the bound, but on the one-longer chain 0 → 1 → ... → 102
(103 streams in the tree, so the claimed `|streams|` bound is 103) the walk
needs 101 hops and the code instead raises `PriorityLoop`, leaving the tree
unchanged.  This is the divergence the spec's design notes flag as a latent
defect. -/
theorem c5_cycle_walk_bound_is_100 :
    (chainTree 102).length = 103 ∧
    (reprioritize (chainTree 101) 1 (some 101) 16 false).2 = none ∧
    reprioritize (chainTree 102) 1 (some 102) 16 false =
      (chainTree 102, some .priorityLoop) := by decide

/-- C2, counterexample: the state after the single public call `unblock(0)`
is reachable, has no active node other than the root (indeed no node other
than the root at all), yet `next()` raises `AssertionError` — it neither
returns a stream id nor raises deadlock, contradicting the claimed
dichotomy. -/
theorem c2_counterexample_unblock_root :
    (pnext 5 (unblock initTree 0).1).1 = .err .assertionFailed ∧
    (pnext 5 (unblock initTree 0).1).1 ≠ .err .deadlock ∧
    noNonRootActive (pnext 5 (unblock initTree 0).1).2 := by decide

/-- C8, counterexample: after the single public call `remove_stream(0)` the
dict is empty — `streams[0]` no longer exists, so the root is not "never
removed" (the call does raise `AttributeError`, but only after the root has
been popped). -/
theorem c8_counterexample_remove_root :
    (remove_stream initTree 0).1 = [] ∧
    getNode (remove_stream initTree 0).1 0 = none := by decide

/-- C6, counterexample: inserting under an unknown parent fails with the
built-in `KeyError` of the bare dict access, not with the module's
`MissingStreamError` subclass, though it does leave the tree unchanged. -/
theorem c6_counterexample_bare_keyerror :
    insert_stream initTree 5 (some 3) 16 false = (initTree, some .keyError) ∧
    PyErr.keyError ≠ PyErr.missingStream := by decide

/-! ### Field-preservation lemmas -/

theorem WeightsOK_updNode {s : Streams} {id : Nat} {f : Stream → Stream}
    (hf : ∀ n, (f n).weight = n.weight) (hw : WeightsOK s) :
    WeightsOK (updNode s id f) := by
  intro p hp
  rcases mem_updNode hp with h | ⟨n, hn, hq⟩
  · exact hw p h
  · have := hw (id, n) hn
    simpa [hq, hf] using this

theorem weight_pos_of_getNode {s : Streams} {i : Nat} {n : Stream}
    (hw : WeightsOK s) (h : getNode s i = some n) : 1 ≤ n.weight :=
  hw (i, n) (getNode_eq_some_mem h)

theorem activeOf_updNode {s : Streams} {id : Nat} {f : Stream → Stream}
    (hf : ∀ n, (f n).active = n.active) (i : Nat) :
    activeOf (updNode s id f) i = activeOf s i := by
  unfold activeOf
  by_cases hi : i = id
  · subst hi
    rw [getNode_updNode_self]
    cases getNode s i <;> simp [hf]
  · rw [getNode_updNode_ne _ _ hi]

theorem getNode_isSome_of_mem_keys {s : Streams} {i : Nat}
    (h : i ∈ keys s) : (getNode s i).isSome := by
  induction s with
  | nil => simp [keys] at h
  | cons p rest ih =>
      obtain ⟨j, m⟩ := p
      by_cases hj : j = i
      · subst hj; simp [getNode]
      · have h' : i ∈ keys rest := by
          simp [keys, Ne.symm hj] at h
          simpa [keys] using h
        simp [getNode, hj]
        exact ih h'

theorem activeOf_add_child (s : Streams) (pid cid i : Nat) :
    activeOf (add_child s pid cid) i = activeOf s i := by
  unfold add_child
  refine (activeOf_updNode ?_ i).trans (activeOf_updNode ?_ i) <;> intro n <;> rfl

theorem activeOf_foldl_add_child (l : List Nat) (cid i : Nat) :
    ∀ s : Streams,
      activeOf (l.foldl (fun acc oc => add_child acc cid oc) s) i = activeOf s i := by
  induction l with
  | nil => intro s; rfl
  | cons x xs ih =>
      intro s
      rw [List.foldl_cons, ih, activeOf_add_child]

theorem activeOf_add_child_exclusive (s : Streams) (pid cid i : Nat) :
    activeOf (add_child_exclusive s pid cid) i = activeOf s i := by
  unfold add_child_exclusive
  cases getNode s pid with
  | none => rfl
  | some p =>
      refine (activeOf_foldl_add_child p.children cid i _).trans
        ((activeOf_add_child _ pid cid i).trans (activeOf_updNode ?_ i))
      intro n; rfl

/-! ### C10: streams are created active -/

/-- C10: a successful `insert_stream` always leaves the fresh stream with
`active = true` — `Stream.__init__` sets the flag and no step of either
insertion path clears it — so a newly inserted stream is immediately
eligible to be returned by `next()` without any prior `unblock`. -/
theorem c10_inserted_stream_is_active :
    ∀ (s : Streams) (id : Nat) (dep : Option Nat) (w : Nat) (ex : Bool)
      (s' : Streams),
      insert_stream s id dep w ex = (s', none) → activeOf s' id = true := by
  intro s id dep w ex s' h
  cases hg : getNode s id with
  | some n => simp [insert_stream, hg] at h
  | none =>
      have hid : id ∉ keys s := by
        intro hm
        have := getNode_isSome_of_mem_keys hm
        rw [hg] at this
        simp at this
      have hbase : activeOf (putNode s id (mkStream id w)) id = true := by
        unfold activeOf
        rw [getNode_putNode_self _ hid]
        rfl
      cases ex with
      | true =>
          cases dep with
          | none => simp [insert_stream, hg] at h
          | some d =>
              cases hgd : getNode s d with
              | none => simp [insert_stream, hg, hgd] at h
              | some pn =>
                  have hs : s' = add_child_exclusive (putNode s id (mkStream id w)) d id := by
                    simp [insert_stream, hg, hgd] at h
                    exact h.symm
                  rw [hs, activeOf_add_child_exclusive]
                  exact hbase
      | false =>
          cases dep with
          | none =>
              cases hgd : getNode s 0 with
              | none => simp [insert_stream, hg, hgd] at h
              | some pn =>
                  have hs : s' = add_child (putNode s id (mkStream id w)) 0 id := by
                    simp [insert_stream, hg, hgd] at h
                    exact h.symm
                  rw [hs, activeOf_add_child]
                  exact hbase
          | some d =>
              cases hgd : getNode s d with
              | none => simp [insert_stream, hg, hgd] at h
              | some pn =>
                  have hs : s' = add_child (putNode s id (mkStream id w)) d id := by
                    simp [insert_stream, hg, hgd] at h
                    exact h.symm
                  rw [hs, activeOf_add_child]
                  exact hbase

/-- C10, witness: inserting stream 1 into the fresh tree yields an active
stream 1. -/
theorem c10_witness : activeOf treeOne 1 = true :=
  c10_inserted_stream_is_active initTree 1 none 16 false treeOne (by decide)

/-! ### C9: division safety of the scheduler -/

theorem requeue_weightsOK :
    ∀ (P : List (Nat × Nat)) (s : Streams) (sid : Nat), WeightsOK s →
      WeightsOK (requeue s sid P).1 ∧ (requeue s sid P).2 ≠ some .zeroDivision := by
  intro P
  induction P with
  | nil =>
      intro s sid hw
      exact ⟨hw, by simp [requeue]⟩
  | cons e rest ih =>
      intro s sid hw
      obtain ⟨level, cid⟩ := e
      have hw₁ : WeightsOK (updNode s sid fun n => { n with last_weight := level }) :=
        WeightsOK_updNode (fun n => rfl) hw
      cases hg : getNode (updNode s sid fun n => { n with last_weight := level }) cid with
      | none =>
          simp only [requeue, hg]
          exact ⟨hw₁, by simp⟩
      | some c =>
          have hcw : 1 ≤ c.weight := weight_pos_of_getNode hw₁ hg
          have hcw0 : ¬ c.weight = 0 := by omega
          have hw₃ : WeightsOK (updNode (updNode
              (updNode s sid fun n => { n with last_weight := level })
              cid fun m => { m with deficit := (256 + m.deficit) % m.weight })
              sid fun n =>
                { n with child_queue :=
                    n.child_queue ++ [(level + (256 + c.deficit) / c.weight, cid)] }) :=
            WeightsOK_updNode (fun n => rfl)
              (WeightsOK_updNode (fun n => rfl) hw₁)
          simp only [requeue, hg, hcw0, if_false]
          exact ih _ _ hw₃

theorem schedLoop_weightsOK (recur : Streams → Nat → SchedResult × Streams)
    (hrec : ∀ s sid, WeightsOK s →
      WeightsOK (recur s sid).2 ∧ (recur s sid).1 ≠ .err .zeroDivision) :
    ∀ (lf : Nat) (s : Streams) (sid : Nat), WeightsOK s →
      WeightsOK (schedLoop recur s sid lf).2.2 ∧
        (schedLoop recur s sid lf).1 ≠ .err .zeroDivision := by
  intro lf
  induction lf with
  | zero =>
      intro s sid hw
      cases hg : getNode s sid with
      | none => simp only [schedLoop, hg]; exact ⟨hw, by simp⟩
      | some n =>
          cases hq : qget n.child_queue with
          | none => simp only [schedLoop, hg, hq]; exact ⟨hw, by simp⟩
          | some pr =>
              obtain ⟨⟨level, cid⟩, q'⟩ := pr
              simp only [schedLoop, hg, hq]
              exact ⟨hw, by simp⟩
  | succ lf ih =>
      intro s sid hw
      cases hg : getNode s sid with
      | none => simp only [schedLoop, hg]; exact ⟨hw, by simp⟩
      | some n =>
          cases hq : qget n.child_queue with
          | none => simp only [schedLoop, hg, hq]; exact ⟨hw, by simp⟩
          | some pr =>
              obtain ⟨⟨level, cid⟩, q'⟩ := pr
              have hw₁ : WeightsOK (updNode s sid fun m => { m with child_queue := q' }) :=
                WeightsOK_updNode (fun n => rfl) hw
              cases hgc : getNode (updNode s sid fun m => { m with child_queue := q' }) cid with
              | none =>
                  simp only [schedLoop, hg, hq, hgc]
                  exact ⟨hw₁, by simp⟩
              | some c =>
                  have hrec₁ := hrec (updNode s sid fun m => { m with child_queue := q' })
                    cid hw₁
                  cases hr : recur (updNode s sid fun m => { m with child_queue := q' }) cid with
                  | mk r₂ s₂ =>
                      rw [hr] at hrec₁
                      cases hca : c.active with
                      | true =>
                          simp only [schedLoop, hg, hq, hgc, hca, if_true]
                          exact ⟨hw₁, by simp⟩
                      | false =>
                          cases r₂ with
                          | found k =>
                              simp only [schedLoop, hg, hq, hgc, hca, hr,
                                Bool.false_eq_true, if_false]
                              exact ⟨hrec₁.1, by simp⟩
                          | empty =>
                              have hihs := ih s₂ sid hrec₁.1
                              cases hsl : schedLoop recur s₂ sid lf with
                              | mk res ps =>
                                  obtain ⟨popped, s₃⟩ := ps
                                  rw [hsl] at hihs
                                  simp only [schedLoop, hg, hq, hgc, hca, hr, hsl,
                                    Bool.false_eq_true, if_false]
                                  exact hihs
                          | err e =>
                              simp only [schedLoop, hg, hq, hgc, hca, hr,
                                Bool.false_eq_true, if_false]
                              exact ⟨hrec₁.1, hrec₁.2⟩
                          | fuelOut =>
                              simp only [schedLoop, hg, hq, hgc, hca, hr,
                                Bool.false_eq_true, if_false]
                              exact ⟨hrec₁.1, by simp⟩

theorem schedule_weightsOK :
    ∀ (fuel : Nat) (s : Streams) (sid : Nat), WeightsOK s →
      WeightsOK (schedule fuel s sid).2 ∧
        (schedule fuel s sid).1 ≠ .err .zeroDivision := by
  intro fuel
  induction fuel with
  | zero =>
      intro s sid hw
      exact ⟨hw, by simp [schedule]⟩
  | succ fuel ih =>
      intro s sid hw
      cases hg : getNode s sid with
      | none => simp only [schedule, hg]; exact ⟨hw, by simp⟩
      | some n =>
          have hl := schedLoop_weightsOK (schedule fuel) ih n.child_queue.length s sid hw
          cases hsl : schedLoop (schedule fuel) s sid n.child_queue.length with
          | mk res ps =>
              obtain ⟨popped, s₁⟩ := ps
              rw [hsl] at hl
              have hr := requeue_weightsOK popped s₁ sid hl.1
              cases hrq : requeue s₁ sid popped with
              | mk s₂ eopt =>
                  rw [hrq] at hr
                  cases hna : n.active with
                  | true =>
                      simp only [schedule, hg, hna, if_true]
                      exact ⟨hw, by simp⟩
                  | false =>
                      cases eopt with
                      | none =>
                          simp only [schedule, hg, hna, hsl, hrq,
                            Bool.false_eq_true, if_false]
                          exact ⟨hr.1, hl.2⟩
                      | some e =>
                          simp only [schedule, hg, hna, hsl, hrq,
                            Bool.false_eq_true, if_false]
                          refine ⟨hr.1, ?_⟩
                          intro hcon
                          simp only [SchedResult.err.injEq] at hcon
                          exact hr.2 (by rw [hcon])

/-- C9: the divisions `(256 + deficit) // weight` and `% weight` in
`Stream.schedule` never divide by zero as long as every stream in the tree
has weight at least 1; but `insert_stream` stores any weight unvalidated, in
particular 0, and once a zero-weight stream is in the tree a `next()` call
that schedules it raises `ZeroDivisionError`. -/
theorem c9_division_by_zero_weight :
    (∀ fuel s sid, WeightsOK s → (schedule fuel s sid).1 ≠ .err .zeroDivision) ∧
    (insert_stream initTree 1 none 0 false).2 = none ∧
    (getNode treeW0 1).map Stream.weight = some 0 ∧
    (pnext 10 treeW0).1 = .err .zeroDivision := by
  refine ⟨fun fuel s sid hw => (schedule_weightsOK fuel s sid hw).2, ?_, ?_, ?_⟩
  · decide
  · decide
  · decide

/-- C9, witness: the all-weights-positive hypothesis holds of the tree with
one default-weight stream, where scheduling indeed reports no division
error. -/
theorem c9_witness :
    WeightsOK treeOne ∧ (schedule 5 treeOne 0).1 ≠ .err .zeroDivision :=
  ⟨by decide, c9_division_by_zero_weight.1 5 treeOne 0 (by decide)⟩

/-! ### C6 and C7: error behaviour of the mutating operations -/

/-- C6 (amended): referencing an unknown, non-zero `depends_on` fails before
any mutation, but with the bare dict `KeyError` rather than the module's
`MissingStreamError` subclass: `insert_stream` (on a fresh id, both insertion
modes) and `reprioritize` (on an existing target) look the parent up with
`self._streams[depends_on]` directly.  `reprioritize` on a missing target
does raise `MissingStreamError`, also leaving the tree unchanged. -/
theorem c6_missing_parent :
    (∀ (s : Streams) (id d w : Nat) (ex : Bool), d ≠ 0 → getNode s d = none →
      getNode s id = none → insert_stream s id (some d) w ex = (s, some .keyError)) ∧
    (∀ (s : Streams) (id d w : Nat) (ex : Bool) (n : Stream), d ≠ 0 →
      getNode s d = none → getNode s id = some n →
      reprioritize s id (some d) w ex = (s, some .keyError)) ∧
    (∀ (s : Streams) (id : Nat) (dep : Option Nat) (w : Nat) (ex : Bool),
      getNode s id = none → reprioritize s id dep w ex = (s, some .missingStream)) := by
  refine ⟨?_, ?_, ?_⟩
  · intro s id d w ex hd hgd hgi
    cases ex with
    | true => simp [insert_stream, hgi, hgd]
    | false => simp [insert_stream, hgi, hgd]
  · intro s id d w ex n hd hgd hgi
    simp [reprioritize, hgi, hgd, hd]
  · intro s id dep w ex hgi
    simp [reprioritize, hgi]

/-- C6, witness: concrete applications of the three amended statements. -/
theorem c6_witness :
    insert_stream initTree 5 (some 3) 16 true = (initTree, some .keyError) ∧
    reprioritize treeOne 1 (some 3) 16 false = (treeOne, some .keyError) ∧
    reprioritize initTree 9 (some 3) 16 false = (initTree, some .missingStream) :=
  ⟨c6_missing_parent.1 initTree 5 3 16 true (by decide) (by decide) (by decide),
   c6_missing_parent.2.1 treeOne 1 3 16 false { mkStream 1 16 with parent := some 0 }
     (by decide) (by decide) (by decide),
   c6_missing_parent.2.2 initTree 9 (some 3) 16 false (by decide)⟩

theorem reprioFinish_err {s : Streams} {sid npid : Nat} {ex : Bool}
    {s' : Streams} {e : PyErr}
    (h : reprioFinish s sid npid ex = (s', some e)) :
    e = .badRef ∨ e = .attributeError := by
  unfold reprioFinish at h
  cases hg : getNode s sid with
  | none =>
      simp [hg] at h
      exact Or.inl h.2.symm
  | some cur =>
      cases hp : cur.parent with
      | none =>
          simp [hg, hp] at h
          exact Or.inr h.2.symm
      | some cp =>
          cases ex with
          | true => simp [hg, hp] at h
          | false => simp [hg, hp] at h

/-- C7: whenever `insert_stream` or `reprioritize` raises one of the errors
the spec names (duplicate-stream, missing-stream — including the bare
`KeyError` of a missing `depends_on` — or priority-loop), the tree state is
exactly the pre-call state: validation happens before any mutation.  For
`insert_stream` this holds for every error it can raise.  (The unguarded
`AttributeError` paths of `reprioritize`, reachable only by reprioritising
the root itself, are the one exception and are outside the claim's list.) -/
theorem c7_errors_leave_tree_unchanged :
    (∀ (s : Streams) (id : Nat) (dep : Option Nat) (w : Nat) (ex : Bool)
       (s' : Streams) (e : PyErr),
      insert_stream s id dep w ex = (s', some e) → s' = s) ∧
    (∀ (s : Streams) (id : Nat) (dep : Option Nat) (w : Nat) (ex : Bool)
       (s' : Streams) (e : PyErr),
      reprioritize s id dep w ex = (s', some e) →
      e = .duplicateStream ∨ e = .missingStream ∨ e = .keyError ∨ e = .priorityLoop →
      s' = s) := by
  constructor
  · intro s id dep w ex s' e h
    cases hgi : getNode s id with
    | some n => simp [insert_stream, hgi] at h; exact h.1.symm
    | none =>
        cases ex with
        | true =>
            cases dep with
            | none => simp [insert_stream, hgi] at h; exact h.1.symm
            | some d =>
                cases hgd : getNode s d with
                | none => simp [insert_stream, hgi, hgd] at h; exact h.1.symm
                | some pn => simp [insert_stream, hgi, hgd] at h
        | false =>
            cases hgd : getNode s (match dep with | none => 0 | some d => d) with
            | none =>
                cases dep with
                | none => simp [insert_stream, hgi, hgd] at h; exact h.1.symm
                | some d => simp [insert_stream, hgi] at h; rw [hgd] at h; simp at h; exact h.1.symm
            | some pn =>
                cases dep with
                | none => simp [insert_stream, hgi, hgd] at h
                | some d => simp [insert_stream, hgi] at h; rw [hgd] at h; simp at h
  · intro s id dep w ex s' e h he
    have hbad : ¬ (e = PyErr.badRef ∨ e = PyErr.attributeError) := by
      rcases he with rfl | rfl | rfl | rfl <;> simp
    cases hgi : getNode s id with
    | none => simp [reprioritize, hgi] at h; exact h.1.symm
    | some n =>
        cases dep with
        | none =>
            cases hfin : reprioFinish
                (updNode s id fun m => { m with weight := w }) id 0 ex with
            | mk sf eo =>
                cases eo with
                | none => simp [reprioritize, hgi, hfin] at h
                | some ef =>
                    simp [reprioritize, hgi, hfin] at h
                    obtain ⟨rfl, rfl⟩ := h
                    exact absurd (reprioFinish_err hfin) hbad
        | some d =>
            by_cases hd0 : d = 0
            · subst hd0
              cases hfin : reprioFinish
                  (updNode s id fun m => { m with weight := w }) id 0 ex with
              | mk sf eo =>
                  cases eo with
                  | none => simp [reprioritize, hgi, hfin] at h
                  | some ef =>
                      simp [reprioritize, hgi, hfin] at h
                      obtain ⟨rfl, rfl⟩ := h
                      exact absurd (reprioFinish_err hfin) hbad
            · cases hgd : getNode s d with
              | none => simp [reprioritize, hgi, hgd, hd0] at h; exact h.1.symm
              | some np =>
                  cases hcy : stream_cycle s d id with
                  | error ec =>
                      simp [reprioritize, Except.map, hgi, hgd, hd0, hcy] at h
                      exact h.1.symm
                  | ok cyc =>
                      cases cyc with
                      | false =>
                          cases hfin : reprioFinish
                              (updNode s id fun m => { m with weight := w }) id d ex with
                          | mk sf eo =>
                              cases eo with
                              | none => simp [reprioritize, Except.map, hgi, hgd, hd0, hcy, hfin] at h
                              | some ef =>
                                  simp [reprioritize, Except.map, hgi, hgd, hd0, hcy, hfin] at h
                                  obtain ⟨rfl, rfl⟩ := h
                                  exact absurd (reprioFinish_err hfin) hbad
                      | true =>
                          cases hgn : getNode (updNode s id fun m => { m with weight := w }) d with
                          | none =>
                              simp [reprioritize, Except.map, hgi, hgd, hd0, hcy, hgn] at h
                              obtain ⟨rfl, rfl⟩ := h
                              exact absurd (Or.inl rfl) hbad
                          | some np₁ =>
                              cases hpp : np₁.parent with
                              | none =>
                                  simp [reprioritize, Except.map, hgi, hgd, hd0, hcy, hgn, hpp] at h
                                  obtain ⟨rfl, rfl⟩ := h
                                  exact absurd (Or.inr rfl) hbad
                              | some pnp =>
                                  cases hgc : getNode (remove_child
                                      (updNode s id fun m => { m with weight := w })
                                      pnp np₁ true) id with
                                  | none =>
                                      simp [reprioritize, Except.map, hgi, hgd, hd0, hcy, hgn, hpp,
                                        hgc] at h
                                      obtain ⟨rfl, rfl⟩ := h
                                      exact absurd (Or.inl rfl) hbad
                                  | some cur =>
                                      cases hcp : cur.parent with
                                      | none =>
                                          simp [reprioritize, Except.map, hgi, hgd, hd0, hcy, hgn, hpp,
                                            hgc, hcp] at h
                                          obtain ⟨rfl, rfl⟩ := h
                                          exact absurd (Or.inr rfl) hbad
                                      | some cp =>
                                          cases hfin : reprioFinish (add_child
                                              (remove_child
                                                (updNode s id fun m => { m with weight := w })
                                                pnp np₁ true) cp d) id d ex with
                                          | mk sf eo =>
                                              cases eo with
                                              | none =>
                                                  simp [reprioritize, Except.map, hgi, hgd, hd0, hcy,
                                                    hgn, hpp, hgc, hcp, hfin] at h
                                              | some ef =>
                                                  simp [reprioritize, Except.map, hgi, hgd, hd0, hcy,
                                                    hgn, hpp, hgc, hcp, hfin] at h
                                                  obtain ⟨rfl, rfl⟩ := h
                                                  exact absurd (reprioFinish_err hfin) hbad

/-- C7, witness: a duplicate insert and a reprioritise with a missing parent
leave the tree exactly as it was. -/
theorem c7_witness :
    (insert_stream initTree 0 none 16 false).1 = initTree ∧
    (reprioritize treeOne 1 (some 3) 16 false).1 = treeOne :=
  ⟨c7_errors_leave_tree_unchanged.1 initTree 0 none 16 false
      (insert_stream initTree 0 none 16 false).1 .duplicateStream (by decide),
   c7_errors_leave_tree_unchanged.2 treeOne 1 (some 3) 16 false
      (reprioritize treeOne 1 (some 3) 16 false).1 .keyError (by decide)
      (Or.inr (Or.inr (Or.inl rfl)))⟩

/-! ### C1: the finally-block requeueing discipline -/

theorem requeue_spec :
    ∀ (P : List (Nat × Nat)) (s : Streams) (sid : Nat) (n : Stream),
      getNode s sid = some n →
      (∀ e ∈ P, ∃ c, getNode s e.2 = some c ∧ 1 ≤ c.weight) →
      (P.map Prod.snd).Nodup →
      sid ∉ P.map Prod.snd →
      ∃ n' : Stream,
        (requeue s sid P).2 = none ∧
        getNode (requeue s sid P).1 sid = some n' ∧
        n'.child_queue = n.child_queue ++ P.map (stepEntry s) ∧
        n'.children = n.children ∧
        n'.active = n.active ∧
        (P = [] → n'.last_weight = n.last_weight) ∧
        (∀ le, P.getLast? = some le → n'.last_weight = le.1) ∧
        (∀ e ∈ P, ∃ c c', getNode s e.2 = some c ∧
          getNode (requeue s sid P).1 e.2 = some c' ∧
          c'.deficit = (256 + c.deficit) % c.weight ∧ c'.weight = c.weight) ∧
        (∀ j, j ≠ sid → j ∉ P.map Prod.snd →
          getNode (requeue s sid P).1 j = getNode s j) := by
  intro P
  induction P with
  | nil =>
      intro s sid n hg hP hnd hsid
      exact ⟨n, rfl, hg, by simp, rfl, rfl, fun _ => rfl, by simp, by simp,
        fun j hj hjm => rfl⟩
  | cons e rest ih =>
      intro s sid n hg hP hnd hsid
      obtain ⟨level, cid⟩ := e
      have hscid : sid ≠ cid := by
        intro hcon
        exact hsid (by simp [hcon])
      have hsidrest : sid ∉ rest.map Prod.snd := by
        intro hcon
        exact hsid (by simp at hcon ⊢; exact Or.inr hcon)
      have hcidrest : cid ∉ rest.map Prod.snd := by
        have := hnd
        simp only [List.map_cons, List.nodup_cons] at this
        exact this.1
      have hndrest : (rest.map Prod.snd).Nodup := by
        have := hnd
        simp only [List.map_cons, List.nodup_cons] at this
        exact this.2
      have hes : ∀ e ∈ rest, e.2 ≠ sid := fun e he hcon =>
        hsidrest (hcon ▸ List.mem_map_of_mem Prod.snd he)
      have hec : ∀ e ∈ rest, e.2 ≠ cid := fun e he hcon =>
        hcidrest (hcon ▸ List.mem_map_of_mem Prod.snd he)
      obtain ⟨c, hgc, hcw⟩ := hP (level, cid) (by simp)
      have hcw0 : ¬ c.weight = 0 := by omega
      have hgc₁ :
          getNode (updNode s sid fun m => { m with last_weight := level }) cid = some c := by
        rw [getNode_updNode_ne _ _ (Ne.symm hscid)]
        exact hgc
      have hstep :
          requeue s sid ((level, cid) :: rest) =
            requeue
              (updNode
                (updNode (updNode s sid fun m => { m with last_weight := level })
                  cid fun m => { m with deficit := (256 + m.deficit) % m.weight })
                sid fun m =>
                  { m with child_queue :=
                      m.child_queue ++ [(level + (256 + c.deficit) / c.weight, cid)] })
              sid rest := by
        simp only [requeue, hgc₁, hcw0, if_false]
      have hg₃ :
          getNode
            (updNode
              (updNode (updNode s sid fun m => { m with last_weight := level })
                cid fun m => { m with deficit := (256 + m.deficit) % m.weight })
              sid fun m =>
                { m with child_queue :=
                    m.child_queue ++ [(level + (256 + c.deficit) / c.weight, cid)] })
            sid =
          some { n with last_weight := level,
                        child_queue :=
                          n.child_queue ++ [(level + (256 + c.deficit) / c.weight, cid)] } := by
        rw [getNode_updNode_self, getNode_updNode_ne _ _ hscid, getNode_updNode_self, hg]
        rfl
      have hother : ∀ j, j ≠ sid → j ≠ cid →
          getNode
            (updNode
              (updNode (updNode s sid fun m => { m with last_weight := level })
                cid fun m => { m with deficit := (256 + m.deficit) % m.weight })
              sid fun m =>
                { m with child_queue :=
                    m.child_queue ++ [(level + (256 + c.deficit) / c.weight, cid)] })
            j = getNode s j := by
        intro j hjs hjc
        rw [getNode_updNode_ne _ _ hjs, getNode_updNode_ne _ _ hjc,
          getNode_updNode_ne _ _ hjs]
      have hgcid :
          getNode
            (updNode
              (updNode (updNode s sid fun m => { m with last_weight := level })
                cid fun m => { m with deficit := (256 + m.deficit) % m.weight })
              sid fun m =>
                { m with child_queue :=
                    m.child_queue ++ [(level + (256 + c.deficit) / c.weight, cid)] })
            cid = some { c with deficit := (256 + c.deficit) % c.weight } := by
        rw [getNode_updNode_ne _ _ (Ne.symm hscid), getNode_updNode_self, hgc₁]
        rfl
      have hrest : ∀ e ∈ rest, ∃ cc, getNode
            (updNode
              (updNode (updNode s sid fun m => { m with last_weight := level })
                cid fun m => { m with deficit := (256 + m.deficit) % m.weight })
              sid fun m =>
                { m with child_queue :=
                    m.child_queue ++ [(level + (256 + c.deficit) / c.weight, cid)] })
            e.2 = some cc ∧ 1 ≤ cc.weight := by
        intro e he
        obtain ⟨cc, hgcc, hccw⟩ := hP e (by simp [he])
        refine ⟨cc, ?_, hccw⟩
        rw [hother e.2 (hes e he) (hec e he)]
        exact hgcc
      obtain ⟨n', h1, h2, h3, h4, h5, h6, h7, h8, h9⟩ :=
        ih _ sid _ hg₃ hrest hndrest hsidrest
      have hmapeq : rest.map (stepEntry
          (updNode
            (updNode (updNode s sid fun m => { m with last_weight := level })
              cid fun m => { m with deficit := (256 + m.deficit) % m.weight })
            sid fun m =>
              { m with child_queue :=
                  m.child_queue ++ [(level + (256 + c.deficit) / c.weight, cid)] })) =
          rest.map (stepEntry s) := by
        apply List.map_congr_left
        intro e he
        unfold stepEntry
        rw [hother e.2 (hes e he) (hec e he)]
      have hhead : stepEntry s (level, cid) =
          (level + (256 + c.deficit) / c.weight, cid) := by
        unfold stepEntry
        rw [hgc]
      refine ⟨n', by rw [hstep]; exact h1, by rw [hstep]; exact h2, ?_,
        by simpa using h4, by simpa using h5, ?_, ?_, ?_, ?_⟩
      · -- queue contents
        rw [h3, hmapeq]
        simp [hhead]
      · -- nonempty list
        intro hcon
        exact absurd hcon (by simp)
      · -- last popped level becomes last_weight
        intro le hle
        cases rest with
        | nil =>
            simp at hle
            rw [h6 rfl, ← hle]
        | cons r rs =>
            rw [List.getLast?_cons_cons] at hle
            exact h7 le hle
      · -- deficit updates
        intro e he
        rcases List.mem_cons.mp he with rfl | hemem
        · refine ⟨c, { c with deficit := (256 + c.deficit) % c.weight }, hgc, ?_, rfl, rfl⟩
          rw [hstep, h9 cid (Ne.symm hscid) hcidrest]
          exact hgcid
        · obtain ⟨c₃, c', hgc₃, hgc', hdef, hwt⟩ := h8 e hemem
          have hgse : getNode s e.2 = some c₃ := by
            rw [← hother e.2 (hes e hemem) (hec e hemem)]
            exact hgc₃
          refine ⟨c₃, c', hgse, ?_, hdef, hwt⟩
          rw [hstep]
          exact hgc'
      · -- frame: untouched ids
        intro j hjs hjm
        have hjc : j ≠ cid := by
          intro hcon
          exact hjm (by simp [hcon])
        have hjrest : j ∉ rest.map Prod.snd := by
          intro hcon
          exact hjm (by simp at hcon ⊢; exact Or.inr hcon)
        rw [hstep, h9 j hjs hjrest, hother j hjs hjc]


/-- C1: every `(virtual_time, child)` entry popped from the child queue
during one `schedule` frame is re-enqueued on every exit path — success
(`found`), queue-empty failure, or a propagated exception — with virtual
time advanced to `vt + (256 + deficit) div weight`, with the child's deficit
updated to `(256 + deficit) mod weight`, and with the parent's `last_weight`
set to the popped virtual time (the loop writes it once per popped entry, so
the surviving value is the last popped entry's).  The hypotheses name the
pop-loop's outcome and require the popped children to be present with
positive weight (no `ZeroDivisionError`) and pairwise distinct, which
queue/children coherence guarantees on well-formed trees. -/
theorem c1_schedule_requeues_on_every_exit :
    ∀ (fuel : Nat) (s : Streams) (sid : Nat) (n : Stream) (res : SchedResult)
      (popped : List (Nat × Nat)) (s₁ : Streams) (n₁ : Stream),
      getNode s sid = some n →
      n.active = false →
      schedLoop (schedule fuel) s sid n.child_queue.length = (res, popped, s₁) →
      getNode s₁ sid = some n₁ →
      (∀ e ∈ popped, ∃ c, getNode s₁ e.2 = some c ∧ 1 ≤ c.weight) →
      (popped.map Prod.snd).Nodup →
      sid ∉ popped.map Prod.snd →
      ∃ (s₂ : Streams) (n₂ : Stream),
        schedule (fuel + 1) s sid = (res, s₂) ∧
        getNode s₂ sid = some n₂ ∧
        n₂.child_queue = n₁.child_queue ++ popped.map (stepEntry s₁) ∧
        (∀ e ∈ popped, ∃ c c', getNode s₁ e.2 = some c ∧ getNode s₂ e.2 = some c' ∧
          c'.deficit = (256 + c.deficit) % c.weight) ∧
        (popped = [] → n₂.last_weight = n₁.last_weight) ∧
        (∀ le, popped.getLast? = some le → n₂.last_weight = le.1) := by
  intro fuel s sid n res popped s₁ n₁ hg hna hsl hg₁ hP hnd hsid
  obtain ⟨n₂, h1, h2, h3, h4, h5, h6, h7, h8, h9⟩ :=
    requeue_spec popped s₁ sid n₁ hg₁ hP hnd hsid
  refine ⟨(requeue s₁ sid popped).1, n₂, ?_, h2, h3,
    fun e he => (h8 e he).imp fun c hc => hc.imp fun c' hc' => ⟨hc'.1, hc'.2.1, hc'.2.2.1⟩,
    h6, h7⟩
  simp only [schedule, hg, hna, Bool.false_eq_true, if_false, hsl]
  cases hrq : requeue s₁ sid popped with
  | mk s₂ eo =>
      rw [hrq] at h1
      simp only at h1
      subst h1
      simp

/-- C1, witness: for the one-stream tree, the single popped entry `(0, 1)` is
re-enqueued at virtual time `0 + (256 + 0) div 16 = 16` while the call
returns stream 1, the deficit update is `(256 + 0) mod 16 = 0`, and the
root's `last_weight` becomes the popped virtual time 0. -/
theorem c1_witness :
    ∃ (s₂ : Streams) (n₂ : Stream),
      schedule 1 treeOne 0 = (.found 1, s₂) ∧
      getNode s₂ 0 = some n₂ ∧
      n₂.child_queue = [(16, 1)] ∧
      (∀ e ∈ [((0 : Nat), (1 : Nat))], ∃ c c',
        getNode treeOnePopped e.2 = some c ∧ getNode s₂ e.2 = some c' ∧
        c'.deficit = (256 + c.deficit) % c.weight) ∧
      ([((0 : Nat), (1 : Nat))] = [] → n₂.last_weight = 0) ∧
      (∀ le : Nat × Nat, [((0 : Nat), (1 : Nat))].getLast? = some le →
        n₂.last_weight = le.1) :=
  c1_schedule_requeues_on_every_exit 0 treeOne 0
    { stream_id := 0, weight := 1, children := [1], parent := none,
      child_queue := [(0, 1)], active := false, last_weight := 0, deficit := 0 }
    (.found 1) [(0, 1)] treeOnePopped
    { stream_id := 0, weight := 1, children := [1], parent := none,
      child_queue := [], active := false, last_weight := 0, deficit := 0 }
    (by decide) (by decide) (by decide) (by decide)
    (by decide) (by decide) (by decide)

/-! ### Parent-chain algebra -/

theorem parIter_zero (s : Streams) (i : Nat) : parIter s 0 i = some i := rfl

theorem parIter_succ_of_parent {s : Streams} {i p : Nat} (k : Nat)
    (h : parentOf s i = some p) : parIter s (k + 1) i = parIter s k p := by
  simp [parIter, h]

theorem parIter_succ_of_none {s : Streams} {i : Nat} (k : Nat)
    (h : parentOf s i = none) : parIter s (k + 1) i = none := by
  simp [parIter, h]

theorem parIter_add (s : Streams) :
    ∀ (m n i : Nat), parIter s (m + n) i = (parIter s m i).bind (parIter s n) := by
  intro m
  induction m with
  | zero => intro n i; simp [parIter]
  | succ m ih =>
      intro n i
      have harith : m + 1 + n = (m + n) + 1 := by omega
      rw [harith]
      cases hp : parentOf s i with
      | none =>
          rw [parIter_succ_of_none _ hp, parIter_succ_of_none _ hp]
          rfl
      | some p =>
          rw [parIter_succ_of_parent _ hp, parIter_succ_of_parent _ hp]
          exact ih n p

theorem rooted_step {s : Streams} {i p : Nat}
    (hp : parentOf s i = some p) (hr : rooted s p) : rooted s i := by
  obtain ⟨k, hk⟩ := hr
  exact ⟨k + 1, by rw [parIter_succ_of_parent _ hp]; exact hk⟩

theorem parIter_fix {s : Streams} {x : Nat} (hp : parentOf s x = some x) :
    ∀ m, parIter s m x = some x := by
  intro m
  induction m with
  | zero => rfl
  | succ m ih => rw [parIter_succ_of_parent _ hp]; exact ih

theorem parIter_mul_self {s : Streams} {x m : Nat}
    (h : parIter s m x = some x) : ∀ a, parIter s (a * m) x = some x := by
  intro a
  induction a with
  | zero => rw [Nat.zero_mul]; rfl
  | succ a ih =>
      have : (a + 1) * m = a * m + m := by ring
      rw [this, parIter_add, ih]
      exact h

theorem parIter_cycle_eq_zero {s : Streams} {i k m : Nat}
    (h0 : parentOf s 0 = none)
    (hr : parIter s k i = some 0) (hm : parIter s m i = some i) : m = 0 := by
  by_contra hm0
  have hm1 : 1 ≤ m := Nat.one_le_iff_ne_zero.mpr hm0
  have hbig : ∀ a, parIter s (a * m) i = some i := parIter_mul_self hm
  have hk1 : k + 1 ≤ (k + 1) * m := Nat.le_mul_of_pos_right _ (by omega)
  have harith : (k + 1) * m = k + (1 + ((k + 1) * m - (k + 1))) := by omega
  have hcon := hbig (k + 1)
  rw [harith, parIter_add, hr] at hcon
  have hcon2 : parIter s (1 + ((k + 1) * m - (k + 1))) 0 = some i := hcon
  rw [Nat.add_comm, parIter_succ_of_none _ h0] at hcon2
  exact Option.noConfusion hcon2

theorem anc_antisym {s : Streams} {a b : Nat} {ka m n : Nat}
    (h0 : parentOf s 0 = none) (hra : parIter s ka a = some 0)
    (hab : parIter s m a = some b) (hba : parIter s n b = some a) :
    m = 0 ∧ n = 0 := by
  have hcyc : parIter s (m + n) a = some a := by
    rw [parIter_add, hab]
    simpa using hba
  have := parIter_cycle_eq_zero h0 hra hcyc
  omega

theorem parIter_transfer_avoid {s s' : Streams} (x : Nat)
    (hpar : ∀ j, j ≠ x → parentOf s' j = parentOf s j) :
    ∀ k i, parIter s k i = some 0 → (∀ m, m ≤ k → parIter s m i ≠ some x) →
      parIter s' k i = some 0 := by
  intro k
  induction k with
  | zero => intro i h _; exact h
  | succ k ih =>
      intro i h havoid
      have hix : i ≠ x := by
        intro hcon
        exact havoid 0 (by omega) (by rw [parIter_zero, hcon])
      cases hp : parentOf s i with
      | none => rw [parIter_succ_of_none _ hp] at h; exact Option.noConfusion h
      | some p =>
          rw [parIter_succ_of_parent _ hp] at h
          have hpavoid : ∀ m, m ≤ k → parIter s m p ≠ some x := by
            intro m hm hcon
            exact havoid (m + 1) (by omega)
              (by rw [parIter_succ_of_parent _ hp]; exact hcon)
          rw [parIter_succ_of_parent _ (hpar i hix ▸ hp : parentOf s' i = some p)]
          exact ih p h hpavoid

theorem rooted_reroute {s s' : Streams} (x : Nat)
    (hpar : ∀ j, j ≠ x → parentOf s' j = parentOf s j) (hx : rooted s' x) :
    ∀ k i, parIter s k i = some 0 → rooted s' i := by
  intro k
  induction k with
  | zero =>
      intro i h
      rw [parIter_zero] at h
      cases h
      exact ⟨0, rfl⟩
  | succ k ih =>
      intro i h
      by_cases hix : i = x
      · subst hix; exact hx
      · cases hp : parentOf s i with
        | none => rw [parIter_succ_of_none _ hp] at h; exact Option.noConfusion h
        | some p =>
            rw [parIter_succ_of_parent _ hp] at h
            exact rooted_step (hpar i hix ▸ hp : parentOf s' i = some p) (ih p h)

theorem rooted_remove_transfer {s s' : Streams} {x px : Nat}
    (hx0 : x ≠ 0) (hpx : parentOf s x = some px)
    (hpar : ∀ j, j ≠ x → parentOf s j ≠ some x → parentOf s' j = parentOf s j)
    (hre : ∀ j, j ≠ x → parentOf s j = some x → parentOf s' j = some px) :
    ∀ k i, parIter s k i = some 0 → i ≠ x → rooted s' i := by
  intro k
  induction k using Nat.strong_induction_on with
  | _ k ih =>
      intro i h hix
      by_cases hi0 : i = 0
      · subst hi0; exact ⟨0, rfl⟩
      · cases k with
        | zero => rw [parIter_zero] at h; exact absurd (Option.some.inj h) hi0
        | succ k =>
            cases hp : parentOf s i with
            | none => rw [parIter_succ_of_none _ hp] at h; exact Option.noConfusion h
            | some p =>
                rw [parIter_succ_of_parent _ hp] at h
                by_cases hpxx : p = x
                · subst hpxx
                  -- the parent is the removed node; splice to px
                  have hnew : parentOf s' i = some px := hre i hix hp
                  have hpxne : px ≠ p := by
                    intro hcon
                    rw [hcon] at hpx
                    have hfix := parIter_fix hpx k
                    rw [h] at hfix
                    exact hx0 (Option.some.inj hfix.symm)
                  cases k with
                  | zero =>
                      rw [parIter_zero] at h
                      exact absurd (Option.some.inj h) hx0
                  | succ k =>
                      rw [parIter_succ_of_parent _ hpx] at h
                      exact rooted_step hnew (ih k (by omega) px h hpxne)
                · have hnew : parentOf s' i = parentOf s i :=
                    hpar i hix (by rw [hp]; simp [hpxx])
                  exact rooted_step (hnew ▸ hp : parentOf s' i = some p)
                    (ih k (by omega) p h hpxx)

theorem parIter_congr {s s' : Streams}
    (h : ∀ j, parentOf s' j = parentOf s j) :
    ∀ k i, parIter s' k i = parIter s k i := by
  intro k
  induction k with
  | zero => intro i; rfl
  | succ k ih =>
      intro i
      cases hp : parentOf s i with
      | none => rw [parIter_succ_of_none _ hp, parIter_succ_of_none _ (h i ▸ hp)]
      | some p =>
          rw [parIter_succ_of_parent _ hp, parIter_succ_of_parent _ (h i ▸ hp), ih]

/-! ### What the cycle walk proves -/

theorem parentOf_eq_parent {s : Streams} {i : Nat} {n : Stream}
    (h : getNode s i = some n) : parentOf s i = n.parent := by
  unfold parentOf
  rw [h]

theorem streamCycleGo_true {s : Streams} {current : Nat} :
    ∀ (fuel pid : Nat), streamCycleGo s current fuel pid = .ok true →
      ∃ k, 1 ≤ k ∧ parIter s k pid = some current := by
  intro fuel
  induction fuel with
  | zero => intro pid h; simp [streamCycleGo] at h
  | succ fuel ih =>
      intro pid h
      cases hg : getNode s pid with
      | none => simp [streamCycleGo, hg] at h
      | some pn =>
          cases hp : pn.parent with
          | none => simp [streamCycleGo, hg, hp] at h
          | some pp =>
              have hpar : parentOf s pid = some pp := by
                rw [parentOf_eq_parent hg, hp]
              by_cases hc : pp = current
              · exact ⟨1, le_refl 1, by rw [parIter_succ_of_parent _ hpar, hc]; rfl⟩
              · by_cases h0 : pp = 0
                · subst h0
                  simp [streamCycleGo, hg, hp, hc] at h
                · simp only [streamCycleGo, hg, hp, hc, h0, if_false] at h
                  obtain ⟨k, hk1, hk⟩ := ih pp h
                  exact ⟨k + 1, by omega,
                    by rw [parIter_succ_of_parent _ hpar]; exact hk⟩

theorem streamCycleGo_false {s : Streams} {current : Nat} :
    ∀ (fuel pid : Nat), streamCycleGo s current fuel pid = .ok false →
      ∃ k, 1 ≤ k ∧ parIter s k pid = some 0 ∧
        ∀ m, 1 ≤ m → m ≤ k → parIter s m pid ≠ some current := by
  intro fuel
  induction fuel with
  | zero => intro pid h; simp [streamCycleGo] at h
  | succ fuel ih =>
      intro pid h
      cases hg : getNode s pid with
      | none => simp [streamCycleGo, hg] at h
      | some pn =>
          cases hp : pn.parent with
          | none => simp [streamCycleGo, hg, hp] at h
          | some pp =>
              have hpar : parentOf s pid = some pp := by
                rw [parentOf_eq_parent hg, hp]
              by_cases hc : pp = current
              · simp [streamCycleGo, hg, hp, hc] at h
              · by_cases h0 : pp = 0
                · refine ⟨1, le_refl 1, ?_, ?_⟩
                  · rw [parIter_succ_of_parent _ hpar, h0]; rfl
                  · intro m hm1 hm2
                    have : m = 1 := by omega
                    subst this
                    rw [parIter_succ_of_parent _ hpar, parIter_zero]
                    intro hcon
                    exact hc (Option.some.inj hcon)
                · simp only [streamCycleGo, hg, hp, hc, h0, if_false] at h
                  obtain ⟨k, hk1, hk, havoid⟩ := ih pp h
                  refine ⟨k + 1, by omega,
                    by rw [parIter_succ_of_parent _ hpar]; exact hk, ?_⟩
                  intro m hm1 hm2
                  cases m with
                  | zero => omega
                  | succ m =>
                      rw [parIter_succ_of_parent _ hpar]
                      cases Nat.eq_zero_or_pos m with
                      | inl hm0 =>
                          subst hm0
                          rw [parIter_zero]
                          intro hcon
                          exact hc (Option.some.inj hcon)
                      | inr hmpos => exact havoid m hmpos (by omega)

/-! ### Effect lemmas for the node mutators -/

theorem keys_add_child (s : Streams) (pid cid : Nat) :
    keys (add_child s pid cid) = keys s := by
  unfold add_child
  rw [keys_updNode, keys_updNode]

theorem getNode_add_child_other (s : Streams) {pid cid j : Nat}
    (h1 : j ≠ pid) (h2 : j ≠ cid) :
    getNode (add_child s pid cid) j = getNode s j := by
  unfold add_child
  rw [getNode_updNode_ne _ _ h1, getNode_updNode_ne _ _ h2]

theorem getNode_add_child_cid (s : Streams) {pid cid : Nat} (h : cid ≠ pid) :
    getNode (add_child s pid cid) cid =
      (getNode s cid).map fun n => { n with parent := some pid } := by
  unfold add_child
  rw [getNode_updNode_ne _ _ h, getNode_updNode_self]

theorem getNode_add_child_pid (s : Streams) {pid cid : Nat} (h : cid ≠ pid) :
    getNode (add_child s pid cid) pid =
      (getNode s pid).map fun p =>
        { p with children := p.children ++ [cid],
                 child_queue := p.child_queue ++ [(p.last_weight, cid)] } := by
  unfold add_child
  rw [getNode_updNode_self, getNode_updNode_ne _ _ (Ne.symm h)]

theorem keys_foldl_add_child (l : List Nat) (pid : Nat) :
    ∀ s : Streams, keys (l.foldl (fun acc c => add_child acc pid c) s) = keys s := by
  induction l with
  | nil => intro s; rfl
  | cons c cs ih =>
      intro s
      rw [List.foldl_cons, ih, keys_add_child]

theorem getNode_foldl_add_child_other (l : List Nat) {pid j : Nat}
    (hjp : j ≠ pid) (hjl : j ∉ l) :
    ∀ s : Streams,
      getNode (l.foldl (fun acc c => add_child acc pid c) s) j = getNode s j := by
  induction l with
  | nil => intro s; rfl
  | cons c cs ih =>
      intro s
      have hjc : j ≠ c := fun hcon => hjl (by simp [hcon])
      have hjcs : j ∉ cs := fun hcon => hjl (by simp [hcon])
      rw [List.foldl_cons, ih hjcs, getNode_add_child_other _ hjp hjc]

theorem getNode_foldl_add_child_pid (l : List Nat) {pid : Nat} (hl : pid ∉ l) :
    ∀ s : Streams,
      getNode (l.foldl (fun acc c => add_child acc pid c) s) pid =
        (getNode s pid).map fun p =>
          { p with children := p.children ++ l,
                   child_queue := p.child_queue ++ l.map fun c => (p.last_weight, c) } := by
  induction l with
  | nil =>
      intro s
      cases hgx : getNode s pid <;> simp [hgx]
  | cons c cs ih =>
      intro s
      have hcp : c ≠ pid := fun hcon => hl (by simp [hcon])
      have hcs : pid ∉ cs := fun hcon => hl (by simp [hcon])
      rw [List.foldl_cons, ih hcs, getNode_add_child_pid _ hcp]
      cases hgx : getNode s pid <;> simp [hgx]

theorem getNode_foldl_add_child_mem (l : List Nat) {pid j : Nat}
    (hl : pid ∉ l) (hj : j ∈ l) (hjp : j ≠ pid) :
    ∀ s : Streams,
      getNode (l.foldl (fun acc c => add_child acc pid c) s) j =
        (getNode s j).map fun n => { n with parent := some pid } := by
  induction l with
  | nil => simp at hj
  | cons c cs ih =>
      intro s
      have hcs : pid ∉ cs := fun hcon => hl (by simp [hcon])
      rw [List.foldl_cons]
      by_cases hjc : j = c
      · subst hjc
        by_cases hjcs : j ∈ cs
        · rw [ih hcs hjcs, getNode_add_child_cid _ hjp]
          cases getNode s j <;> simp
        · rw [getNode_foldl_add_child_other cs hjp hjcs,
            getNode_add_child_cid _ hjp]
      · have hjcs : j ∈ cs := by
          rcases List.mem_cons.mp hj with hcon | hm
          · exact absurd hcon hjc
          · exact hm
        rw [ih hcs hjcs, getNode_add_child_other _ hjp hjc]

theorem keys_add_child_exclusive (s : Streams) (pid cid : Nat) :
    keys (add_child_exclusive s pid cid) = keys s := by
  unfold add_child_exclusive
  cases getNode s pid with
  | none => rfl
  | some p => rw [keys_foldl_add_child, keys_add_child, keys_updNode]

theorem getNode_add_child_exclusive_pid {s : Streams} {pid cid : Nat} {p : Stream}
    (hg : getNode s pid = some p) (hne : cid ≠ pid)
    (h1 : pid ∉ p.children) :
    getNode (add_child_exclusive s pid cid) pid =
      some { p with children := [cid], child_queue := [(0, cid)],
                    last_weight := 0 } := by
  unfold add_child_exclusive
  rw [hg]
  rw [getNode_foldl_add_child_other p.children (Ne.symm hne) h1,
    getNode_add_child_pid _ hne, getNode_updNode_self, hg]
  rfl

theorem getNode_add_child_exclusive_cid {s : Streams} {pid cid : Nat} {p : Stream}
    (hg : getNode s pid = some p) (hne : cid ≠ pid) (h2 : cid ∉ p.children) :
    getNode (add_child_exclusive s pid cid) cid =
      (getNode s cid).map fun c =>
        { c with parent := some pid,
                 children := c.children ++ p.children,
                 child_queue :=
                   c.child_queue ++ p.children.map fun oc => (c.last_weight, oc) } := by
  unfold add_child_exclusive
  rw [hg]
  rw [getNode_foldl_add_child_pid p.children h2, getNode_add_child_cid _ hne,
    getNode_updNode_ne _ _ hne]
  cases getNode s cid <;> simp

theorem getNode_add_child_exclusive_mem {s : Streams} {pid cid j : Nat} {p : Stream}
    (hg : getNode s pid = some p) (h2 : cid ∉ p.children)
    (hj : j ∈ p.children) (hjp : j ≠ pid) (hjc : j ≠ cid) :
    getNode (add_child_exclusive s pid cid) j =
      (getNode s j).map fun n => { n with parent := some cid } := by
  unfold add_child_exclusive
  rw [hg]
  rw [getNode_foldl_add_child_mem p.children h2 hj hjc,
    getNode_add_child_other _ hjp hjc, getNode_updNode_ne _ _ hjp]

theorem getNode_add_child_exclusive_other {s : Streams} {pid cid j : Nat} {p : Stream}
    (hg : getNode s pid = some p)
    (hjp : j ≠ pid) (hjc : j ≠ cid) (hjm : j ∉ p.children) :
    getNode (add_child_exclusive s pid cid) j = getNode s j := by
  unfold add_child_exclusive
  rw [hg]
  rw [getNode_foldl_add_child_other p.children hjc hjm,
    getNode_add_child_other _ hjp hjc, getNode_updNode_ne _ _ hjp]

theorem keys_remove_child_core (s : Streams) (pid cid : Nat) :
    keys (remove_child_core s pid cid) = keys s := keys_updNode ..

theorem getNode_remove_child_core_pid (s : Streams) (pid cid : Nat) :
    getNode (remove_child_core s pid cid) pid =
      (getNode s pid).map fun p =>
        { p with children := p.children.erase cid,
                 child_queue := (qdrain p.child_queue).filter fun e => e.2 ≠ cid } := by
  unfold remove_child_core
  rw [getNode_updNode_self]

theorem getNode_remove_child_core_other (s : Streams) {pid cid j : Nat}
    (h : j ≠ pid) :
    getNode (remove_child_core s pid cid) j = getNode s j := by
  unfold remove_child_core
  rw [getNode_updNode_ne _ _ h]

theorem remove_child_of_getNode {s : Streams} {pid : Nat} {pn : Stream}
    (child : Stream) (strip : Bool) (hg : getNode s pid = some pn) :
    remove_child s pid child strip =
      if strip then
        child.children.foldl (fun acc gc => add_child acc pid gc)
          (remove_child_core s pid child.stream_id)
      else remove_child_core s pid child.stream_id := by
  unfold remove_child
  rw [hg]

/-! ### Invariant transfer under skeleton-preserving maps -/

theorem getNode_of_mem_nodup {s : Streams} (hnd : (keys s).Nodup) :
    ∀ {i : Nat} {n : Stream}, (i, n) ∈ s → getNode s i = some n := by
  induction s with
  | nil => intro i n h; simp at h
  | cons p rest ih =>
      intro i n h
      obtain ⟨j, m⟩ := p
      have hcons : keys ((j, m) :: rest) = j :: keys rest := rfl
      rw [hcons, List.nodup_cons] at hnd
      have hnd' : (keys rest).Nodup := hnd.2
      have hj : j ∉ keys rest := hnd.1
      rcases List.mem_cons.mp h with heq | hmem
      · obtain ⟨h1, h2⟩ := Prod.mk.injEq .. ▸ heq
        simp [getNode, h1, h2]
      · have hij : j ≠ i := by
          intro hcon
          subst hcon
          exact hj (List.mem_map.mpr ⟨(j, n), hmem, rfl⟩)
        simp [getNode, hij]
        exact ih hnd' hmem

theorem parentOf_congr_of_skel {s s' : Streams}
    (hskel : ∀ i, (getNode s' i).map (fun n => (n.stream_id, n.parent, n.children)) =
      (getNode s i).map (fun n => (n.stream_id, n.parent, n.children))) :
    ∀ j, parentOf s' j = parentOf s j := by
  intro j
  have := hskel j
  unfold parentOf
  cases hg : getNode s j with
  | none =>
      rw [hg] at this
      cases hg' : getNode s' j with
      | none => rfl
      | some n' => rw [hg'] at this; simp at this
  | some n =>
      rw [hg] at this
      cases hg' : getNode s' j with
      | none => rw [hg'] at this; simp at this
      | some n' =>
          rw [hg'] at this
          simp at this
          simp [getNode, this.2.1]

theorem CInv_transfer {s s' : Streams}
    (hkeys : keys s' = keys s)
    (hskel : ∀ i, (getNode s' i).map (fun n => (n.stream_id, n.parent, n.children)) =
      (getNode s i).map (fun n => (n.stream_id, n.parent, n.children)))
    (hact0 : activeOf s' 0 = activeOf s 0)
    (hc : CInv s) : CInv s' := by
  have hnd' : (keys s').Nodup := hkeys ▸ hc.nodup
  have hpair : ∀ {i n'}, getNode s' i = some n' →
      ∃ n, getNode s i = some n ∧ n.stream_id = n'.stream_id ∧
        n.parent = n'.parent ∧ n.children = n'.children := by
    intro i n' hg'
    have := hskel i
    rw [hg'] at this
    cases hg : getNode s i with
    | none => rw [hg] at this; simp at this
    | some n =>
        rw [hg] at this
        simp at this
        exact ⟨n, rfl, this.1.symm, this.2.1.symm, this.2.2.symm⟩
  have hpair' : ∀ {i n}, getNode s i = some n →
      ∃ n', getNode s' i = some n' ∧ n.stream_id = n'.stream_id ∧
        n.parent = n'.parent ∧ n.children = n'.children := by
    intro i n hg
    have := hskel i
    rw [hg] at this
    cases hg' : getNode s' i with
    | none => rw [hg'] at this; simp at this
    | some n' =>
        rw [hg'] at this
        simp at this
        exact ⟨n', rfl, this.1.symm, this.2.1.symm, this.2.2.symm⟩
  refine ⟨hnd', ?_, ?_, ?_, ?_, ?_, ?_⟩
  · -- ids
    intro p hp
    have hg' : getNode s' p.1 = some p.2 := getNode_of_mem_nodup hnd' (by
      cases p; exact hp)
    obtain ⟨n, hg, hid, -, -⟩ := hpair hg'
    rw [← hid]
    exact hc.ids (p.1, n) (getNode_eq_some_mem hg)
  · -- root
    obtain ⟨r, hg, hpar, hact⟩ := hc.root0
    obtain ⟨r', hg', -, hpar', -⟩ := hpair' hg
    refine ⟨r', hg', hpar' ▸ hpar, ?_⟩
    have : activeOf s' 0 = r'.active := by unfold activeOf; rw [hg']
    have h2 : activeOf s 0 = r.active := by unfold activeOf; rw [hg]
    rw [← this, hact0, h2, hact]
  · -- childMem
    intro p hp c hcm
    have hg' : getNode s' p.1 = some p.2 := getNode_of_mem_nodup hnd' (by
      cases p; exact hp)
    obtain ⟨n, hg, -, -, hch⟩ := hpair hg'
    have hcm' : c ∈ n.children := hch ▸ hcm
    obtain ⟨hc0, cn, hgc, hcp⟩ := hc.childMem (p.1, n) (getNode_eq_some_mem hg) c hcm'
    obtain ⟨cn', hgc', -, hcp', -⟩ := hpair' hgc
    exact ⟨hc0, cn', hgc', hcp' ▸ hcp⟩
  · -- childNodup
    intro p hp
    have hg' : getNode s' p.1 = some p.2 := getNode_of_mem_nodup hnd' (by
      cases p; exact hp)
    obtain ⟨n, hg, -, -, hch⟩ := hpair hg'
    exact hch ▸ hc.childNodup (p.1, n) (getNode_eq_some_mem hg)
  · -- plink
    intro p hp hne
    have hg' : getNode s' p.1 = some p.2 := getNode_of_mem_nodup hnd' (by
      cases p; exact hp)
    obtain ⟨n, hg, -, hpar, -⟩ := hpair hg'
    obtain ⟨q, nq, hq, hgq, hmem⟩ := hc.plink (p.1, n) (getNode_eq_some_mem hg) hne
    obtain ⟨nq', hgq', -, -, hchq⟩ := hpair' hgq
    exact ⟨q, nq', hpar ▸ hq, hgq', hchq ▸ hmem⟩
  · -- rooted
    intro p hp
    have hg' : getNode s' p.1 = some p.2 := getNode_of_mem_nodup hnd' (by
      cases p; exact hp)
    obtain ⟨n, hg, -, -, -⟩ := hpair hg'
    obtain ⟨k, hk⟩ := hc.rootedAll (p.1, n) (getNode_eq_some_mem hg)
    exact ⟨k, by rw [parIter_congr (parentOf_congr_of_skel hskel)]; exact hk⟩

/-! ### Reroute lemmas for sets of rewired nodes -/

theorem parIter_transfer_avoidP {s s' : Streams} (bad : Nat → Prop)
    (hpar : ∀ j, ¬ bad j → parentOf s' j = parentOf s j) :
    ∀ k i, parIter s k i = some 0 →
      (∀ m v, m ≤ k → parIter s m i = some v → ¬ bad v) →
      parIter s' k i = some 0 := by
  intro k
  induction k with
  | zero => intro i h _; exact h
  | succ k ih =>
      intro i h havoid
      have hib : ¬ bad i := havoid 0 i (by omega) (parIter_zero s i)
      cases hp : parentOf s i with
      | none => rw [parIter_succ_of_none _ hp] at h; exact Option.noConfusion h
      | some p =>
          rw [parIter_succ_of_parent _ hp] at h
          have hpavoid : ∀ m v, m ≤ k → parIter s m p = some v → ¬ bad v := by
            intro m v hm hv
            exact havoid (m + 1) v (by omega)
              (by rw [parIter_succ_of_parent _ hp]; exact hv)
          rw [parIter_succ_of_parent _ (hpar i hib ▸ hp : parentOf s' i = some p)]
          exact ih p h hpavoid

theorem rooted_rerouteP {s s' : Streams} (bad : Nat → Prop)
    (hpar : ∀ j, ¬ bad j → parentOf s' j = parentOf s j)
    (hbad : ∀ j, bad j → rooted s' j) :
    ∀ k i, parIter s k i = some 0 → rooted s' i := by
  intro k
  induction k with
  | zero =>
      intro i h
      rw [parIter_zero] at h
      cases h
      exact ⟨0, rfl⟩
  | succ k ih =>
      intro i h
      by_cases hib : bad i
      · exact hbad i hib
      · cases hp : parentOf s i with
        | none => rw [parIter_succ_of_none _ hp] at h; exact Option.noConfusion h
        | some p =>
            rw [parIter_succ_of_parent _ hp] at h
            exact rooted_step (hpar i hib ▸ hp : parentOf s' i = some p) (ih p h)

/-- Every value on a parent chain that starts inside the map stays inside
the map (the root included) as long as the structural invariant holds. -/
theorem chain_in_keys {s : Streams} (hc : CInv s) :
    ∀ (m i v : Nat), i ∈ keys s → parIter s m i = some v → v ∈ keys s := by
  intro m
  induction m with
  | zero =>
      intro i v hi h
      rw [parIter_zero] at h
      cases h
      exact hi
  | succ m ih =>
      intro i v hi h
      cases hp : parentOf s i with
      | none => rw [parIter_succ_of_none _ hp] at h; exact Option.noConfusion h
      | some p =>
          rw [parIter_succ_of_parent _ hp] at h
          have hpk : p ∈ keys s := by
            cases hgi : getNode s i with
            | none =>
                have hcon := getNode_isSome_of_mem_keys hi
                rw [hgi] at hcon
                simp at hcon
            | some ni =>
                by_cases hi0 : i = 0
                · subst hi0
                  obtain ⟨r, hr, hrp, -⟩ := hc.root0
                  rw [parentOf_eq_parent hr, hrp] at hp
                  exact Option.noConfusion hp
                · obtain ⟨q, nq, hq, hgq, -⟩ :=
                    hc.plink (i, ni) (getNode_eq_some_mem hgi) hi0
                  rw [parentOf_eq_parent hgi, hq] at hp
                  cases hp
                  exact getNode_mem_keys hgq
          exact ih p v hpk h

/-! ### The scheduler only touches queues, cursors and deficits -/

theorem nodeSkel_updNode {s : Streams} {id : Nat} {f : Stream → Stream}
    (h : ∀ n, nodeSkel (f n) = nodeSkel n) :
    ∀ i, (getNode (updNode s id f) i).map nodeSkel = (getNode s i).map nodeSkel := by
  intro i
  by_cases hi : i = id
  · subst hi
    rw [getNode_updNode_self]
    cases getNode s i <;> simp [h]
  · rw [getNode_updNode_ne _ _ hi]

theorem requeue_nodeSkel :
    ∀ (P : List (Nat × Nat)) (s : Streams) (sid : Nat),
      (∀ i, (getNode (requeue s sid P).1 i).map nodeSkel =
        (getNode s i).map nodeSkel) ∧
      keys (requeue s sid P).1 = keys s := by
  intro P
  induction P with
  | nil => intro s sid; exact ⟨fun i => rfl, rfl⟩
  | cons e rest ih =>
      intro s sid
      obtain ⟨level, cid⟩ := e
      have hsk₁ : ∀ i,
          (getNode (updNode s sid fun n => { n with last_weight := level }) i).map
            nodeSkel = (getNode s i).map nodeSkel := by
        refine nodeSkel_updNode ?_
        intro n
        rfl
      cases hg : getNode (updNode s sid fun n => { n with last_weight := level }) cid with
      | none =>
          simp only [requeue, hg]
          exact ⟨hsk₁, keys_updNode ..⟩
      | some c =>
          by_cases hw : c.weight = 0
          · simp only [requeue, hg, hw, if_true]
            exact ⟨hsk₁, keys_updNode ..⟩
          · simp only [requeue, hg, hw, if_false]
            obtain ⟨ihsk, ihkeys⟩ := ih
              (updNode
                (updNode (updNode s sid fun n => { n with last_weight := level })
                  cid fun m => { m with deficit := (256 + m.deficit) % m.weight })
                sid fun n =>
                  { n with child_queue :=
                      n.child_queue ++ [(level + (256 + c.deficit) / c.weight, cid)] })
              sid
            refine ⟨?_, ?_⟩
            · intro i
              refine (ihsk i).trans ((nodeSkel_updNode ?_ i).trans
                ((nodeSkel_updNode ?_ i).trans (hsk₁ i))) <;> intro n <;> rfl
            · rw [ihkeys, keys_updNode, keys_updNode, keys_updNode]

theorem schedLoop_nodeSkel (recur : Streams → Nat → SchedResult × Streams)
    (hrec : ∀ s sid,
      (∀ i, (getNode (recur s sid).2 i).map nodeSkel = (getNode s i).map nodeSkel) ∧
      keys (recur s sid).2 = keys s) :
    ∀ (lf : Nat) (s : Streams) (sid : Nat),
      (∀ i, (getNode (schedLoop recur s sid lf).2.2 i).map nodeSkel =
        (getNode s i).map nodeSkel) ∧
      keys (schedLoop recur s sid lf).2.2 = keys s := by
  intro lf
  induction lf with
  | zero =>
      intro s sid
      cases hg : getNode s sid with
      | none => simp [schedLoop, hg]
      | some n =>
          cases hq : qget n.child_queue with
          | none => simp [schedLoop, hg, hq]
          | some pr =>
              obtain ⟨⟨level, cid⟩, q'⟩ := pr
              simp [schedLoop, hg, hq]
  | succ lf ih =>
      intro s sid
      cases hg : getNode s sid with
      | none => simp [schedLoop, hg]
      | some n =>
          cases hq : qget n.child_queue with
          | none => simp [schedLoop, hg, hq]
          | some pr =>
              obtain ⟨⟨level, cid⟩, q'⟩ := pr
              have hsk₁ : ∀ i,
                  (getNode (updNode s sid fun m => { m with child_queue := q' }) i).map
                    nodeSkel = (getNode s i).map nodeSkel := by
                refine nodeSkel_updNode ?_
                intro n
                rfl
              have hk₁ :
                  keys (updNode s sid fun m => { m with child_queue := q' }) = keys s :=
                keys_updNode ..
              cases hgc : getNode (updNode s sid fun m => { m with child_queue := q' })
                  cid with
              | none =>
                  simp only [schedLoop, hg, hq, hgc]
                  exact ⟨hsk₁, hk₁⟩
              | some c =>
                  obtain ⟨hrsk, hrk⟩ :=
                    hrec (updNode s sid fun m => { m with child_queue := q' }) cid
                  cases hr : recur (updNode s sid fun m => { m with child_queue := q' })
                      cid with
                  | mk r₂ s₂ =>
                      rw [hr] at hrsk hrk
                      cases hca : c.active with
                      | true =>
                          simp only [schedLoop, hg, hq, hgc, hca, if_true]
                          exact ⟨hsk₁, hk₁⟩
                      | false =>
                          cases r₂ with
                          | found k =>
                              simp only [schedLoop, hg, hq, hgc, hca, hr,
                                Bool.false_eq_true, if_false]
                              exact ⟨fun i => (hrsk i).trans (hsk₁ i), hrk.trans hk₁⟩
                          | empty =>
                              obtain ⟨ihsk, ihk⟩ := ih s₂ sid
                              cases hsl : schedLoop recur s₂ sid lf with
                              | mk res ps =>
                                  obtain ⟨popped, s₃⟩ := ps
                                  rw [hsl] at ihsk ihk
                                  simp only [schedLoop, hg, hq, hgc, hca, hr, hsl,
                                    Bool.false_eq_true, if_false]
                                  exact ⟨fun i => ((ihsk i).trans (hrsk i)).trans (hsk₁ i),
                                    (ihk.trans hrk).trans hk₁⟩
                          | err e =>
                              simp only [schedLoop, hg, hq, hgc, hca, hr,
                                Bool.false_eq_true, if_false]
                              exact ⟨fun i => (hrsk i).trans (hsk₁ i), hrk.trans hk₁⟩
                          | fuelOut =>
                              simp only [schedLoop, hg, hq, hgc, hca, hr,
                                Bool.false_eq_true, if_false]
                              exact ⟨fun i => (hrsk i).trans (hsk₁ i), hrk.trans hk₁⟩

theorem schedule_nodeSkel :
    ∀ (fuel : Nat) (s : Streams) (sid : Nat),
      (∀ i, (getNode (schedule fuel s sid).2 i).map nodeSkel =
        (getNode s i).map nodeSkel) ∧
      keys (schedule fuel s sid).2 = keys s := by
  intro fuel
  induction fuel with
  | zero => intro s sid; exact ⟨fun i => rfl, rfl⟩
  | succ fuel ih =>
      intro s sid
      cases hg : getNode s sid with
      | none => simp [schedule, hg]
      | some n =>
          obtain ⟨hlsk, hlk⟩ :=
            schedLoop_nodeSkel (schedule fuel) ih n.child_queue.length s sid
          cases hsl : schedLoop (schedule fuel) s sid n.child_queue.length with
          | mk res ps =>
              obtain ⟨popped, s₁⟩ := ps
              rw [hsl] at hlsk hlk
              obtain ⟨hrsk, hrk⟩ := requeue_nodeSkel popped s₁ sid
              cases hrq : requeue s₁ sid popped with
              | mk s₂ eo =>
                  rw [hrq] at hrsk hrk
                  cases hna : n.active with
                  | true =>
                      simp [schedule, hg, hna, if_true]
                  | false =>
                      cases eo with
                      | none =>
                          simp only [schedule, hg, hna, hsl, hrq,
                            Bool.false_eq_true, if_false]
                          exact ⟨fun i => (hrsk i).trans (hlsk i), hrk.trans hlk⟩
                      | some e =>
                          simp only [schedule, hg, hna, hsl, hrq,
                            Bool.false_eq_true, if_false]
                          exact ⟨fun i => (hrsk i).trans (hlsk i), hrk.trans hlk⟩

theorem pnext_nodeSkel (fuel : Nat) (s : Streams) :
    (∀ i, (getNode (pnext fuel s).2 i).map nodeSkel = (getNode s i).map nodeSkel) ∧
    keys (pnext fuel s).2 = keys s := by
  unfold pnext
  cases hs : schedule fuel s 0 with
  | mk r s' =>
      obtain ⟨hsk, hk⟩ := schedule_nodeSkel fuel s 0
      rw [hs] at hsk hk
      cases r <;> exact ⟨hsk, hk⟩

/-! ### Invariant preservation by the public operations -/

theorem nodeSkel_proj {s s' : Streams}
    (h : ∀ i, (getNode s' i).map nodeSkel = (getNode s i).map nodeSkel) :
    ∀ i, (getNode s' i).map (fun n => (n.stream_id, n.parent, n.children)) =
      (getNode s i).map (fun n => (n.stream_id, n.parent, n.children)) := by
  intro i
  have := h i
  cases hg : getNode s i with
  | none =>
      rw [hg] at this
      cases hg' : getNode s' i with
      | none => rfl
      | some n' => rw [hg'] at this; simp [nodeSkel] at this
  | some n =>
      rw [hg] at this
      cases hg' : getNode s' i with
      | none => rw [hg'] at this; simp [nodeSkel] at this
      | some n' =>
          rw [hg'] at this
          simp [nodeSkel] at this
          simp [this.1, this.2.1, this.2.2.1]

theorem activeOf_of_nodeSkel {s s' : Streams}
    (h : ∀ i, (getNode s' i).map nodeSkel = (getNode s i).map nodeSkel) :
    ∀ i, activeOf s' i = activeOf s i := by
  intro i
  have := h i
  unfold activeOf
  cases hg : getNode s i with
  | none =>
      rw [hg] at this
      cases hg' : getNode s' i with
      | none => rfl
      | some n' => rw [hg'] at this; simp [nodeSkel] at this
  | some n =>
      rw [hg] at this
      cases hg' : getNode s' i with
      | none => rw [hg'] at this; simp [nodeSkel] at this
      | some n' =>
          rw [hg'] at this
          simp [nodeSkel] at this
          simp [this.2.2.2.1]

theorem CInv_pnext (fuel : Nat) (s : Streams) (hc : CInv s) :
    CInv (pnext fuel s).2 := by
  obtain ⟨hsk, hk⟩ := pnext_nodeSkel fuel s
  exact CInv_transfer hk (nodeSkel_proj hsk) (activeOf_of_nodeSkel hsk 0) hc

theorem CInv_block (s : Streams) (id : Nat) (hc : CInv s) : CInv (block s id).1 := by
  unfold block
  cases hg : getNode s id with
  | none => exact hc
  | some n =>
      refine CInv_transfer (keys_updNode ..) ?_ ?_ hc
      · intro i
        by_cases hi : i = id
        · subst hi
          rw [getNode_updNode_self]
          cases getNode s i <;> simp
        · rw [getNode_updNode_ne _ _ hi]
      · by_cases h0 : id = 0
        · subst h0
          obtain ⟨r, hr, -, hra⟩ := hc.root0
          unfold activeOf
          rw [getNode_updNode_self, hr]
          simp [hra]
        · unfold activeOf
          rw [getNode_updNode_ne _ _ (Ne.symm h0)]

theorem CInv_unblock (s : Streams) (id : Nat) (hid : id ≠ 0) (hc : CInv s) :
    CInv (unblock s id).1 := by
  unfold unblock
  cases hg : getNode s id with
  | none => exact hc
  | some n =>
      refine CInv_transfer (keys_updNode ..) ?_ ?_ hc
      · intro i
        by_cases hi : i = id
        · subst hi
          rw [getNode_updNode_self]
          cases getNode s i <;> simp
        · rw [getNode_updNode_ne _ _ hi]
      · unfold activeOf
        rw [getNode_updNode_ne _ _ (Ne.symm hid)]

theorem CInv.parent0 {s : Streams} (hc : CInv s) : parentOf s 0 = none := by
  obtain ⟨r, hr, hp, -⟩ := hc.root0
  rw [parentOf_eq_parent hr, hp]

theorem CInv.rooted_of_mem {s : Streams} (hc : CInv s) {i : Nat}
    (hi : i ∈ keys s) : rooted s i := by
  cases hg : getNode s i with
  | none =>
      have := getNode_isSome_of_mem_keys hi
      rw [hg] at this
      simp at this
  | some n => exact hc.rootedAll (i, n) (getNode_eq_some_mem hg)

theorem CInv.cycle_zero {s : Streams} (hc : CInv s) {i m : Nat}
    (hi : i ∈ keys s) (h : parIter s m i = some i) : m = 0 := by
  obtain ⟨k, hk⟩ := hc.rooted_of_mem hi
  exact parIter_cycle_eq_zero hc.parent0 hk h

theorem CInv.mem_keys_zero {s : Streams} (hc : CInv s) : 0 ∈ keys s := by
  obtain ⟨r, hr, -, -⟩ := hc.root0
  exact getNode_mem_keys hr

theorem mem_eq_of_getNode {s : Streams} (hnd : (keys s).Nodup) {i : Nat}
    {n m : Stream} (hp : (i, n) ∈ s) (hg : getNode s i = some m) : n = m := by
  have := getNode_of_mem_nodup hnd hp
  rw [hg] at this
  exact (Option.some.inj this).symm

/-! ### Insertion preserves the structural invariant -/

theorem CInv_insert_plain {s : Streams} {id dep w : Nat} {pn : Stream}
    (hc : CInv s) (hgi : getNode s id = none) (hgd : getNode s dep = some pn) :
    CInv (add_child (putNode s id (mkStream id w)) dep id) := by
  have hidk : id ∉ keys s := by
    intro hm
    have := getNode_isSome_of_mem_keys hm
    rw [hgi] at this
    simp at this
  have hdk : dep ∈ keys s := getNode_mem_keys hgd
  have hdi : dep ≠ id := fun hcon => hidk (hcon ▸ hdk)
  have hid0 : id ≠ 0 := fun hcon => hidk (hcon ▸ hc.mem_keys_zero)
  have hg₀id : getNode (putNode s id (mkStream id w)) id = some (mkStream id w) :=
    getNode_putNode_self _ hidk
  have hg₀ : ∀ j, j ≠ id → getNode (putNode s id (mkStream id w)) j = getNode s j :=
    fun j hj => getNode_putNode_ne _ _ hj
  have hgid : getNode (add_child (putNode s id (mkStream id w)) dep id) id =
      some { mkStream id w with parent := some dep } := by
    rw [getNode_add_child_cid _ (Ne.symm hdi), hg₀id]
    rfl
  have hgdep : getNode (add_child (putNode s id (mkStream id w)) dep id) dep =
      some { pn with children := pn.children ++ [id],
                     child_queue := pn.child_queue ++ [(pn.last_weight, id)] } := by
    rw [getNode_add_child_pid _ (Ne.symm hdi), hg₀ dep hdi, hgd]
    rfl
  have hgoth : ∀ j, j ≠ id → j ≠ dep →
      getNode (add_child (putNode s id (mkStream id w)) dep id) j = getNode s j := by
    intro j hj1 hj2
    rw [getNode_add_child_other _ hj2 hj1, hg₀ j hj1]
  have hkeys : keys (add_child (putNode s id (mkStream id w)) dep id) =
      keys s ++ [id] := by
    rw [keys_add_child, keys_putNode]
  have hnd' : (keys (add_child (putNode s id (mkStream id w)) dep id)).Nodup := by
    rw [hkeys]
    simp [List.nodup_append, hc.nodup, hidk]
  have hpar : ∀ j, j ≠ id →
      parentOf (add_child (putNode s id (mkStream id w)) dep id) j =
        parentOf s j := by
    intro j hj
    by_cases hjd : j = dep
    · subst hjd
      rw [parentOf_eq_parent hgdep, parentOf_eq_parent hgd]
    · unfold parentOf
      rw [hgoth j hj hjd]
  have hbadr : rooted (add_child (putNode s id (mkStream id w)) dep id) id := by
    refine rooted_step (p := dep) (by rw [parentOf_eq_parent hgid]) ?_
    obtain ⟨k, hk⟩ := hc.rooted_of_mem hdk
    exact ⟨k, parIter_transfer_avoidP (fun v => v = id) (fun j hj => hpar j hj) k dep hk
      (fun m v hm hv hvb => hidk (hvb ▸ chain_in_keys hc m dep v hdk hv))⟩
  have hrootall : ∀ j, j ∈ keys s →
      rooted (add_child (putNode s id (mkStream id w)) dep id) j := by
    intro j hj
    obtain ⟨k, hk⟩ := hc.rooted_of_mem hj
    exact rooted_rerouteP (fun v => v = id) (fun j hj => hpar j hj)
      (fun j hjb => hjb ▸ hbadr) k j hk
  refine ⟨hnd', ?_, ?_, ?_, ?_, ?_, ?_⟩
  · -- ids
    intro p hp
    obtain ⟨p1, p2⟩ := p
    by_cases h1 : p1 = id
    · subst h1
      have he := mem_eq_of_getNode hnd' hp hgid
      subst he
      rfl
    · by_cases h2 : p1 = dep
      · replace h2 := h2.symm
        subst h2
        have he := mem_eq_of_getNode hnd' hp hgdep
        subst he
        exact hc.ids (dep, pn) (getNode_eq_some_mem hgd)
      · have hg' : getNode s p1 = some p2 := by
          rw [← hgoth p1 h1 h2]
          exact getNode_of_mem_nodup hnd' hp
        exact hc.ids (p1, p2) (getNode_eq_some_mem hg')
  · -- root
    obtain ⟨r, hr, hrp, hra⟩ := hc.root0
    by_cases hd0 : dep = 0
    · subst hd0
      have hrpn : pn = r := by
        rw [hgd] at hr
        exact Option.some.inj hr
      subst hrpn
      exact ⟨_, hgdep, hrp, hra⟩
    · exact ⟨r, by rw [hgoth 0 (Ne.symm hid0) (Ne.symm hd0)]; exact hr, hrp, hra⟩
  · -- childMem
    intro p hp c hcm
    obtain ⟨p1, p2⟩ := p
    have htrans : ∀ (par : Nat),
        (∃ cn, getNode s c = some cn ∧ cn.parent = some par) →
        ∃ cn, getNode (add_child (putNode s id (mkStream id w)) dep id) c = some cn ∧
          cn.parent = some par := by
      rintro par ⟨cn, hgc, hcp⟩
      have hcid : c ≠ id := fun hcon => hidk (hcon ▸ getNode_mem_keys hgc)
      by_cases hcd : c = dep
      · subst hcd
        refine ⟨_, hgdep, ?_⟩
        rw [hgd] at hgc
        cases Option.some.inj hgc
        exact hcp
      · exact ⟨cn, by rw [hgoth c hcid hcd]; exact hgc, hcp⟩
    by_cases h1 : p1 = id
    · subst h1
      have he := mem_eq_of_getNode hnd' hp hgid
      subst he
      simp [mkStream] at hcm
    · by_cases h2 : p1 = dep
      · replace h2 := h2.symm
        subst h2
        have he := mem_eq_of_getNode hnd' hp hgdep
        subst he
        simp only at hcm
        rcases List.mem_append.mp hcm with hold | hnew
        · obtain ⟨hc0, hex⟩ :=
            hc.childMem (dep, pn) (getNode_eq_some_mem hgd) c hold
          exact ⟨hc0, htrans dep hex⟩
        · have hcid : c = id := by simpa using hnew
          subst hcid
          exact ⟨hid0, _, hgid, rfl⟩
      · have hg' : getNode s p1 = some p2 := by
          rw [← hgoth p1 h1 h2]
          exact getNode_of_mem_nodup hnd' hp
        obtain ⟨hc0, hex⟩ := hc.childMem (p1, p2) (getNode_eq_some_mem hg') c hcm
        exact ⟨hc0, htrans p1 hex⟩
  · -- childNodup
    intro p hp
    obtain ⟨p1, p2⟩ := p
    by_cases h1 : p1 = id
    · subst h1
      have he := mem_eq_of_getNode hnd' hp hgid
      subst he
      simp [mkStream]
    · by_cases h2 : p1 = dep
      · replace h2 := h2.symm
        subst h2
        have he := mem_eq_of_getNode hnd' hp hgdep
        subst he
        simp only
        rw [List.nodup_append]
        refine ⟨hc.childNodup (dep, pn) (getNode_eq_some_mem hgd), by simp, ?_⟩
        intro a ha hb
        obtain ⟨cn, hgc, -⟩ :=
          (hc.childMem (dep, pn) (getNode_eq_some_mem hgd) a ha).2
        rw [List.mem_singleton] at hb
        exact hidk (hb ▸ getNode_mem_keys hgc)
      · have hg' : getNode s p1 = some p2 := by
          rw [← hgoth p1 h1 h2]
          exact getNode_of_mem_nodup hnd' hp
        exact hc.childNodup (p1, p2) (getNode_eq_some_mem hg')
  · -- plink
    intro p hp hne
    obtain ⟨p1, p2⟩ := p
    have htransq : ∀ q nq, getNode s q = some nq → p1 ∈ nq.children →
        ∃ nq', getNode (add_child (putNode s id (mkStream id w)) dep id) q = some nq' ∧
          p1 ∈ nq'.children := by
      intro q nq hgq hmem
      have hqid : q ≠ id := fun hcon => hidk (hcon ▸ getNode_mem_keys hgq)
      by_cases hqd : q = dep
      · subst hqd
        rw [hgd] at hgq
        cases Option.some.inj hgq
        exact ⟨_, hgdep, List.mem_append_left _ hmem⟩
      · exact ⟨nq, by rw [hgoth q hqid hqd]; exact hgq, hmem⟩
    by_cases h1 : p1 = id
    · subst h1
      have he := mem_eq_of_getNode hnd' hp hgid
      subst he
      exact ⟨dep, _, rfl, hgdep, by simp⟩
    · by_cases h2 : p1 = dep
      · replace h2 := h2.symm
        subst h2
        have he := mem_eq_of_getNode hnd' hp hgdep
        subst he
        obtain ⟨q, nq, hq, hgq, hmem⟩ :=
          hc.plink (dep, pn) (getNode_eq_some_mem hgd) hne
        obtain ⟨nq', hgq', hmem'⟩ := htransq q nq hgq hmem
        exact ⟨q, nq', hq, hgq', hmem'⟩
      · have hg' : getNode s p1 = some p2 := by
          rw [← hgoth p1 h1 h2]
          exact getNode_of_mem_nodup hnd' hp
        obtain ⟨q, nq, hq, hgq, hmem⟩ :=
          hc.plink (p1, p2) (getNode_eq_some_mem hg') hne
        obtain ⟨nq', hgq', hmem'⟩ := htransq q nq hgq hmem
        exact ⟨q, nq', hq, hgq', hmem'⟩
  · -- rooted
    intro p hp
    obtain ⟨p1, p2⟩ := p
    have hmem : p1 ∈ keys s ++ [id] := by
      rw [← hkeys]
      exact getNode_mem_keys (getNode_of_mem_nodup hnd' hp)
    rcases List.mem_append.mp hmem with h | h
    · exact hrootall p1 h
    · rw [List.mem_singleton] at h
      subst h
      exact hbadr

theorem CInv_insert_exclusive {s : Streams} {id dep w : Nat} {pn : Stream}
    (hc : CInv s) (hgi : getNode s id = none) (hgd : getNode s dep = some pn) :
    CInv (add_child_exclusive (putNode s id (mkStream id w)) dep id) := by
  have hidk : id ∉ keys s := by
    intro hm
    have := getNode_isSome_of_mem_keys hm
    rw [hgi] at this
    simp at this
  have hdk : dep ∈ keys s := getNode_mem_keys hgd
  have hdi : dep ≠ id := fun hcon => hidk (hcon ▸ hdk)
  have hid0 : id ≠ 0 := fun hcon => hidk (hcon ▸ hc.mem_keys_zero)
  have hg₀id : getNode (putNode s id (mkStream id w)) id = some (mkStream id w) :=
    getNode_putNode_self _ hidk
  have hg₀ : ∀ j, j ≠ id → getNode (putNode s id (mkStream id w)) j = getNode s j :=
    fun j hj => getNode_putNode_ne _ _ hj
  have hgs₀dep : getNode (putNode s id (mkStream id w)) dep = some pn := by
    rw [hg₀ dep hdi]
    exact hgd
  have hch : ∀ c ∈ pn.children,
      c ≠ 0 ∧ ∃ cn, getNode s c = some cn ∧ cn.parent = some dep :=
    fun c hm => hc.childMem (dep, pn) (getNode_eq_some_mem hgd) c hm
  have hchkeys : ∀ c ∈ pn.children, c ≠ id := by
    intro c hm hcon
    obtain ⟨-, cn, hgc, -⟩ := hch c hm
    exact hidk (hcon ▸ getNode_mem_keys hgc)
  have hdnc : dep ∉ pn.children := by
    intro hm
    obtain ⟨-, cn, hgc, hcp⟩ := hch dep hm
    have hpd : parentOf s dep = some dep := by
      rw [parentOf_eq_parent hgc, hcp]
    have hfix : parIter s 1 dep = some dep := by
      rw [parIter_succ_of_parent 0 hpd, parIter_zero]
    exact absurd (hc.cycle_zero hdk hfix) (by omega)
  have hinc : id ∉ pn.children := fun hm => (hchkeys id hm) rfl
  have hgdep' : getNode (add_child_exclusive (putNode s id (mkStream id w)) dep id)
      dep = some { pn with children := [id], child_queue := [(0, id)],
                           last_weight := 0 } :=
    getNode_add_child_exclusive_pid hgs₀dep (Ne.symm hdi) hdnc
  have hgid' : getNode (add_child_exclusive (putNode s id (mkStream id w)) dep id)
      id = some { mkStream id w with parent := some dep, children := pn.children,
                                     child_queue := (pn.children.map fun oc => (0, oc)) } := by
    rw [getNode_add_child_exclusive_cid hgs₀dep (Ne.symm hdi) hinc, hg₀id]
    rfl
  have hgmem' : ∀ j ∈ pn.children,
      getNode (add_child_exclusive (putNode s id (mkStream id w)) dep id) j =
        (getNode s j).map fun n => { n with parent := some id } := by
    intro j hm
    have hji : j ≠ id := hchkeys j hm
    have hjd : j ≠ dep := fun hcon => hdnc (hcon ▸ hm)
    rw [getNode_add_child_exclusive_mem hgs₀dep hinc hm hjd hji, hg₀ j hji]
  have hgoth : ∀ j, j ≠ id → j ≠ dep → j ∉ pn.children →
      getNode (add_child_exclusive (putNode s id (mkStream id w)) dep id) j =
        getNode s j := by
    intro j hj1 hj2 hj3
    rw [getNode_add_child_exclusive_other hgs₀dep hj2 hj1 hj3, hg₀ j hj1]
  have hkeys : keys (add_child_exclusive (putNode s id (mkStream id w)) dep id) =
      keys s ++ [id] := by
    rw [keys_add_child_exclusive, keys_putNode]
  have hnd' : (keys (add_child_exclusive (putNode s id (mkStream id w)) dep id)).Nodup := by
    rw [hkeys]
    simp [List.nodup_append, hc.nodup, hidk]
  have hpid : parentOf (add_child_exclusive (putNode s id (mkStream id w)) dep id)
      id = some dep := by
    rw [parentOf_eq_parent hgid']
  have hpdep : parentOf (add_child_exclusive (putNode s id (mkStream id w)) dep id)
      dep = parentOf s dep := by
    rw [parentOf_eq_parent hgdep', parentOf_eq_parent hgd]
  have hpmem : ∀ j ∈ pn.children,
      parentOf (add_child_exclusive (putNode s id (mkStream id w)) dep id) j =
        some id := by
    intro j hm
    obtain ⟨-, cn, hgc, -⟩ := hch j hm
    have hg' : getNode (add_child_exclusive (putNode s id (mkStream id w)) dep id) j =
        some { cn with parent := some id } := by
      rw [hgmem' j hm, hgc]; rfl
    rw [parentOf_eq_parent hg']
  have hpoth : ∀ j, j ≠ id → j ∉ pn.children →
      parentOf (add_child_exclusive (putNode s id (mkStream id w)) dep id) j =
        parentOf s j := by
    intro j hj1 hj3
    by_cases hjd : j = dep
    · subst hjd
      exact hpdep
    · unfold parentOf
      rw [hgoth j hj1 hjd hj3]
  have hpar : ∀ j, ¬ (j = id ∨ j ∈ pn.children) →
      parentOf (add_child_exclusive (putNode s id (mkStream id w)) dep id) j =
        parentOf s j :=
    fun j hj => hpoth j (fun h => hj (Or.inl h)) (fun h => hj (Or.inr h))
  have havoid : ∀ m v, parIter s m dep = some v → ¬ (v = id ∨ v ∈ pn.children) := by
    rintro m v hv (rfl | hm)
    · exact hidk (chain_in_keys hc m dep v hdk hv)
    · obtain ⟨-, cn, hgc, hcp⟩ := hch v hm
      have hpv : parentOf s v = some dep := by
        rw [parentOf_eq_parent hgc, hcp]
      have hcyc : parIter s (m + 1) dep = some dep := by
        rw [parIter_add s m 1 dep, hv]
        show parIter s 1 v = some dep
        rw [parIter_succ_of_parent 0 hpv, parIter_zero]
      exact absurd (hc.cycle_zero hdk hcyc) (by omega)
  have hrdep : rooted (add_child_exclusive (putNode s id (mkStream id w)) dep id)
      dep := by
    obtain ⟨k, hk⟩ := hc.rooted_of_mem hdk
    exact ⟨k, parIter_transfer_avoidP (fun v => v = id ∨ v ∈ pn.children) hpar k dep hk
      (fun m v hm hv => havoid m v hv)⟩
  have hrid : rooted (add_child_exclusive (putNode s id (mkStream id w)) dep id)
      id := rooted_step hpid hrdep
  have hrmem : ∀ j ∈ pn.children,
      rooted (add_child_exclusive (putNode s id (mkStream id w)) dep id) j :=
    fun j hm => rooted_step (hpmem j hm) hrid
  have hrootall : ∀ j, j ∈ keys s →
      rooted (add_child_exclusive (putNode s id (mkStream id w)) dep id) j := by
    intro j hj
    obtain ⟨k, hk⟩ := hc.rooted_of_mem hj
    refine rooted_rerouteP (fun v => v = id ∨ v ∈ pn.children) hpar ?_ k j hk
    rintro v (rfl | hm)
    · exact hrid
    · exact hrmem v hm
  refine ⟨hnd', ?_, ?_, ?_, ?_, ?_, ?_⟩
  · -- ids
    intro p hp
    obtain ⟨p1, p2⟩ := p
    by_cases h1 : id = p1
    · subst h1
      have he := mem_eq_of_getNode hnd' hp hgid'
      subst he
      rfl
    · by_cases h2 : dep = p1
      · subst h2
        have he := mem_eq_of_getNode hnd' hp hgdep'
        subst he
        exact hc.ids (dep, pn) (getNode_eq_some_mem hgd)
      · by_cases h3 : p1 ∈ pn.children
        · obtain ⟨-, cn, hgc, -⟩ := hch p1 h3
          have hg' : getNode (add_child_exclusive (putNode s id (mkStream id w))
              dep id) p1 = some { cn with parent := some id } := by
            rw [hgmem' p1 h3, hgc]; rfl
          have he := mem_eq_of_getNode hnd' hp hg'
          subst he
          exact hc.ids (p1, cn) (getNode_eq_some_mem hgc)
        · have hg' : getNode s p1 = some p2 := by
            rw [← hgoth p1 (Ne.symm h1) (Ne.symm h2) h3]
            exact getNode_of_mem_nodup hnd' hp
          exact hc.ids (p1, p2) (getNode_eq_some_mem hg')
  · -- root
    obtain ⟨r, hr, hrp, hra⟩ := hc.root0
    by_cases hd0 : dep = 0
    · subst hd0
      have hrpn : pn = r := by
        rw [hgd] at hr
        exact Option.some.inj hr
      subst hrpn
      exact ⟨_, hgdep', hrp, hra⟩
    · have h0i : (0 : Nat) ≠ id := fun hcon => hid0 hcon.symm
      have h0d : (0 : Nat) ≠ dep := fun hcon => hd0 hcon.symm
      have h0c : (0 : Nat) ∉ pn.children := fun hm => ((hch 0 hm).1) rfl
      exact ⟨r, by rw [hgoth 0 h0i h0d h0c]; exact hr, hrp, hra⟩
  · -- childMem
    intro p hp c hcm
    obtain ⟨p1, p2⟩ := p
    have htrans : ∀ (par : Nat), par ≠ dep →
        (∃ cn, getNode s c = some cn ∧ cn.parent = some par) →
        ∃ cn, getNode (add_child_exclusive (putNode s id (mkStream id w)) dep id)
          c = some cn ∧ cn.parent = some par := by
      rintro par hpd ⟨cn, hgc, hcp⟩
      have hcid : c ≠ id := fun hcon => hidk (hcon ▸ getNode_mem_keys hgc)
      have hcnc : c ∉ pn.children := by
        intro hm
        obtain ⟨-, cm, hgcm, hcmp⟩ := hch c hm
        rw [hgc] at hgcm
        cases Option.some.inj hgcm
        rw [hcp] at hcmp
        exact hpd (Option.some.inj hcmp)
      by_cases hcd : c = dep
      · subst hcd
        refine ⟨_, hgdep', ?_⟩
        rw [hgd] at hgc
        cases Option.some.inj hgc
        exact hcp
      · exact ⟨cn, by rw [hgoth c hcid hcd hcnc]; exact hgc, hcp⟩
    by_cases h1 : id = p1
    · subst h1
      have he := mem_eq_of_getNode hnd' hp hgid'
      subst he
      simp only at hcm
      obtain ⟨hc0, cn, hgc, -⟩ := hch c hcm
      have hg' : getNode (add_child_exclusive (putNode s id (mkStream id w))
          dep id) c = some { cn with parent := some id } := by
        rw [hgmem' c hcm, hgc]; rfl
      exact ⟨hc0, _, hg', rfl⟩
    · by_cases h2 : dep = p1
      · subst h2
        have he := mem_eq_of_getNode hnd' hp hgdep'
        subst he
        simp only at hcm
        rw [List.mem_singleton] at hcm
        subst hcm
        exact ⟨hid0, _, hgid', rfl⟩
      · by_cases h3 : p1 ∈ pn.children
        · obtain ⟨-, cn, hgc, -⟩ := hch p1 h3
          have hg' : getNode (add_child_exclusive (putNode s id (mkStream id w))
              dep id) p1 = some { cn with parent := some id } := by
            rw [hgmem' p1 h3, hgc]; rfl
          have he := mem_eq_of_getNode hnd' hp hg'
          subst he
          simp only at hcm
          obtain ⟨hc0, hex⟩ :=
            hc.childMem (p1, cn) (getNode_eq_some_mem hgc) c hcm
          have hp1d : p1 ≠ dep := fun hcon => hdnc (hcon ▸ h3)
          exact ⟨hc0, htrans p1 hp1d hex⟩
        · have hg' : getNode s p1 = some p2 := by
            rw [← hgoth p1 (Ne.symm h1) (Ne.symm h2) h3]
            exact getNode_of_mem_nodup hnd' hp
          obtain ⟨hc0, hex⟩ :=
            hc.childMem (p1, p2) (getNode_eq_some_mem hg') c hcm
          exact ⟨hc0, htrans p1 (Ne.symm h2) hex⟩
  · -- childNodup
    intro p hp
    obtain ⟨p1, p2⟩ := p
    by_cases h1 : id = p1
    · subst h1
      have he := mem_eq_of_getNode hnd' hp hgid'
      subst he
      simp only
      exact hc.childNodup (dep, pn) (getNode_eq_some_mem hgd)
    · by_cases h2 : dep = p1
      · subst h2
        have he := mem_eq_of_getNode hnd' hp hgdep'
        subst he
        simp
      · by_cases h3 : p1 ∈ pn.children
        · obtain ⟨-, cn, hgc, -⟩ := hch p1 h3
          have hg' : getNode (add_child_exclusive (putNode s id (mkStream id w))
              dep id) p1 = some { cn with parent := some id } := by
            rw [hgmem' p1 h3, hgc]; rfl
          have he := mem_eq_of_getNode hnd' hp hg'
          subst he
          simp only
          exact hc.childNodup (p1, cn) (getNode_eq_some_mem hgc)
        · have hg' : getNode s p1 = some p2 := by
            rw [← hgoth p1 (Ne.symm h1) (Ne.symm h2) h3]
            exact getNode_of_mem_nodup hnd' hp
          exact hc.childNodup (p1, p2) (getNode_eq_some_mem hg')
  · -- plink
    intro p hp hne
    obtain ⟨p1, p2⟩ := p
    have htmem : ∀ q nq, q ≠ dep → getNode s q = some nq → p1 ∈ nq.children →
        ∃ nq', getNode (add_child_exclusive (putNode s id (mkStream id w)) dep id)
          q = some nq' ∧ p1 ∈ nq'.children := by
      intro q nq hqd hgq hmem
      have hqid : q ≠ id := fun hcon => hidk (hcon ▸ getNode_mem_keys hgq)
      by_cases hqm : q ∈ pn.children
      · refine ⟨{ nq with parent := some id }, ?_, hmem⟩
        rw [hgmem' q hqm, hgq]; rfl
      · exact ⟨nq, by rw [hgoth q hqid hqd hqm]; exact hgq, hmem⟩
    by_cases h1 : id = p1
    · subst h1
      have he := mem_eq_of_getNode hnd' hp hgid'
      subst he
      exact ⟨dep, _, rfl, hgdep', by simp⟩
    · by_cases h2 : dep = p1
      · subst h2
        have he := mem_eq_of_getNode hnd' hp hgdep'
        subst he
        obtain ⟨q, nq, hq, hgq, hmem⟩ :=
          hc.plink (dep, pn) (getNode_eq_some_mem hgd) hne
        have hqd : q ≠ dep := by
          intro hcon
          subst hcon
          rw [hgd] at hgq
          cases Option.some.inj hgq
          exact hdnc hmem
        obtain ⟨nq', hgq', hmem'⟩ := htmem q nq hqd hgq hmem
        exact ⟨q, nq', hq, hgq', hmem'⟩
      · by_cases h3 : p1 ∈ pn.children
        · obtain ⟨-, cn, hgc, -⟩ := hch p1 h3
          have hg' : getNode (add_child_exclusive (putNode s id (mkStream id w))
              dep id) p1 = some { cn with parent := some id } := by
            rw [hgmem' p1 h3, hgc]; rfl
          have he := mem_eq_of_getNode hnd' hp hg'
          subst he
          refine ⟨id, _, rfl, hgid', ?_⟩
          simpa using h3
        · have hg' : getNode s p1 = some p2 := by
            rw [← hgoth p1 (Ne.symm h1) (Ne.symm h2) h3]
            exact getNode_of_mem_nodup hnd' hp
          obtain ⟨q, nq, hq, hgq, hmem⟩ :=
            hc.plink (p1, p2) (getNode_eq_some_mem hg') hne
          have hqd : q ≠ dep := by
            intro hcon
            subst hcon
            rw [hgd] at hgq
            cases Option.some.inj hgq
            exact h3 hmem
          obtain ⟨nq', hgq', hmem'⟩ := htmem q nq hqd hgq hmem
          exact ⟨q, nq', hq, hgq', hmem'⟩
  · -- rooted
    intro p hp
    obtain ⟨p1, p2⟩ := p
    have hmem : p1 ∈ keys s ++ [id] := by
      rw [← hkeys]
      exact getNode_mem_keys (getNode_of_mem_nodup hnd' hp)
    rcases List.mem_append.mp hmem with h | h
    · exact hrootall p1 h
    · rw [List.mem_singleton] at h
      subst h
      exact hrid

/-- `insert_stream` preserves the structural invariant whatever its inputs:
every error branch returns the state unchanged and both insertion paths are
covered by the two insertion lemmas. -/
theorem CInv_insert (s : Streams) (stream_id : Nat) (depends_on : Option Nat)
    (weight : Nat) (exclusive : Bool) (hc : CInv s) :
    CInv (insert_stream s stream_id depends_on weight exclusive).1 := by
  unfold insert_stream
  cases hgi : getNode s stream_id with
  | some n => simp only [hgi, Option.isSome_some, if_true]; exact hc
  | none =>
      simp only [hgi, Option.isSome_none, Bool.false_eq_true, if_false]
      cases exclusive with
      | true =>
          simp only [if_true]
          cases depends_on with
          | none => exact hc
          | some d =>
              show CInv (match getNode s d with
                | none => (s, some PyErr.keyError)
                | some _ =>
                    (add_child_exclusive (putNode s stream_id
                      (mkStream stream_id weight)) d stream_id, none)).1
              cases hgd : getNode s d with
              | none => exact hc
              | some pn => exact CInv_insert_exclusive hc hgi hgd
      | false =>
          simp only [Bool.false_eq_true, if_false]
          cases depends_on with
          | none =>
              show CInv (match getNode s 0 with
                | none => (s, some PyErr.keyError)
                | some _ =>
                    (add_child (putNode s stream_id
                      (mkStream stream_id weight)) 0 stream_id, none)).1
              cases hg0 : getNode s 0 with
              | none => exact hc
              | some pn => exact CInv_insert_plain hc hgi hg0
          | some d =>
              show CInv (match getNode s d with
                | none => (s, some PyErr.keyError)
                | some _ =>
                    (add_child (putNode s stream_id
                      (mkStream stream_id weight)) d stream_id, none)).1
              cases hgd : getNode s d with
              | none => exact hc
              | some pn => exact CInv_insert_plain hc hgi hgd

/-- `remove_stream` on a non-root stream preserves the structural invariant:
the node is popped and its children are transplanted beneath its parent by
`remove_child` with `strip_children=True`. -/
theorem CInv_remove (s : Streams) (x : Nat) (hx0 : x ≠ 0) (hc : CInv s) :
    CInv (remove_stream s x).1 := by
  unfold remove_stream
  cases hgx : getNode s x with
  | none => exact hc
  | some child =>
      obtain ⟨q, nq, hq0, hgq, hxq0⟩ :=
        hc.plink (x, child) (getNode_eq_some_mem hgx) hx0
      have hq : child.parent = some q := hq0
      have hxq : x ∈ nq.children := hxq0
      simp only [hq]
      show CInv (remove_child (eraseNode s x) q child true)
      have hids : child.stream_id = x := hc.ids (x, child) (getNode_eq_some_mem hgx)
      have hpx : parentOf s x = some q := by rw [parentOf_eq_parent hgx, hq]
      have hxk : x ∈ keys s := getNode_mem_keys hgx
      have hqx : q ≠ x := by
        intro hcon
        have hfix : parIter s 1 x = some x := by
          rw [parIter_succ_of_parent 0 hpx, parIter_zero, hcon]
        exact absurd (hc.cycle_zero hxk hfix) (by omega)
      have hg1 : ∀ j, j ≠ x → getNode (eraseNode s x) j = getNode s j :=
        fun j hj => getNode_eraseNode_ne s hj
      have hgq₁ : getNode (eraseNode s x) q = some nq := by
        rw [hg1 q hqx]
        exact hgq
      unfold remove_child
      rw [hgq₁]
      show CInv (child.children.foldl (fun acc gc => add_child acc q gc)
        (remove_child_core (eraseNode s x) q child.stream_id))
      rw [hids]
      have hgcfact : ∀ gc ∈ child.children,
          gc ≠ 0 ∧ ∃ gn, getNode s gc = some gn ∧ gn.parent = some x :=
        fun gc hm => hc.childMem (x, child) (getNode_eq_some_mem hgx) gc hm
      have hgcx : ∀ gc ∈ child.children, gc ≠ x := by
        intro gc hm hcon
        obtain ⟨-, gn, hggn, hgp⟩ := hgcfact gc hm
        rw [hcon, hgx] at hggn
        cases Option.some.inj hggn
        rw [hq] at hgp
        exact hqx (Option.some.inj hgp)
      have hgcq : q ∉ child.children := by
        intro hm
        obtain ⟨-, gn, hggn, hgp⟩ := hgcfact q hm
        rw [hgq] at hggn
        cases Option.some.inj hggn
        have hpq : parentOf s q = some x := by rw [parentOf_eq_parent hgq, hgp]
        have hfix : parIter s 2 x = some x := by
          rw [parIter_succ_of_parent 1 hpx, parIter_succ_of_parent 0 hpq, parIter_zero]
        exact absurd (hc.cycle_zero hxk hfix) (by omega)
      have hgcnd : child.children.Nodup :=
        hc.childNodup (x, child) (getNode_eq_some_mem hgx)
      have hcoreq : getNode (remove_child_core (eraseNode s x) q x) q =
          some { nq with children := nq.children.erase x,
                         child_queue :=
                           (qdrain nq.child_queue).filter fun e => e.2 ≠ x } := by
        rw [getNode_remove_child_core_pid, hgq₁]
        rfl
      have hcoreoth : ∀ j, j ≠ q → j ≠ x →
          getNode (remove_child_core (eraseNode s x) q x) j = getNode s j := by
        intro j hjq hjx
        rw [getNode_remove_child_core_other _ hjq, hg1 j hjx]
      have hgq' : getNode (child.children.foldl (fun acc gc => add_child acc q gc)
            (remove_child_core (eraseNode s x) q x)) q =
          some { nq with children := nq.children.erase x ++ child.children,
                         child_queue :=
                           ((qdrain nq.child_queue).filter fun e => e.2 ≠ x)
                             ++ (child.children.map fun gc => (nq.last_weight, gc)) } := by
        rw [getNode_foldl_add_child_pid child.children hgcq, hcoreq]
        rfl
      have hggc : ∀ gc ∈ child.children, ∀ {gn : Stream}, getNode s gc = some gn →
          getNode (child.children.foldl (fun acc gc => add_child acc q gc)
            (remove_child_core (eraseNode s x) q x)) gc =
            some { gn with parent := some q } := by
        intro gc hm gn hggn
        have hgcq' : gc ≠ q := fun hcon => hgcq (hcon ▸ hm)
        rw [getNode_foldl_add_child_mem child.children hgcq hm hgcq',
          hcoreoth gc hgcq' (hgcx gc hm), hggn]
        rfl
      have hgoth' : ∀ j, j ≠ q → j ∉ child.children → j ≠ x →
          getNode (child.children.foldl (fun acc gc => add_child acc q gc)
            (remove_child_core (eraseNode s x) q x)) j = getNode s j := by
        intro j hjq hjm hjx
        rw [getNode_foldl_add_child_other child.children hjq hjm, hcoreoth j hjq hjx]
      have hkeys' : keys (child.children.foldl (fun acc gc => add_child acc q gc)
            (remove_child_core (eraseNode s x) q x)) = (keys s).erase x := by
        rw [keys_foldl_add_child, keys_remove_child_core, keys_eraseNode]
      have hnd' : (keys (child.children.foldl (fun acc gc => add_child acc q gc)
            (remove_child_core (eraseNode s x) q x))).Nodup := by
        rw [hkeys']
        exact hc.nodup.erase x
      have hmemkeys : ∀ {p1 : Nat} {p2 : Stream},
          (p1, p2) ∈ (child.children.foldl (fun acc gc => add_child acc q gc)
            (remove_child_core (eraseNode s x) q x)) → p1 ≠ x ∧ p1 ∈ keys s := by
        intro p1 p2 hp
        have hm := getNode_mem_keys (getNode_of_mem_nodup hnd' hp)
        rw [hkeys'] at hm
        exact (hc.nodup.mem_erase_iff).mp hm
      have hpoth : ∀ j, j ≠ x → parentOf s j ≠ some x →
          parentOf (child.children.foldl (fun acc gc => add_child acc q gc)
            (remove_child_core (eraseNode s x) q x)) j = parentOf s j := by
        intro j hjx hjp
        have hjm : j ∉ child.children := by
          intro hm
          obtain ⟨-, gn, hggn, hgp⟩ := hgcfact j hm
          exact hjp (by rw [parentOf_eq_parent hggn, hgp])
        by_cases hjq : j = q
        · subst hjq
          rw [parentOf_eq_parent hgq', parentOf_eq_parent hgq]
        · unfold parentOf
          rw [hgoth' j hjq hjm hjx]
      have hre : ∀ j, j ≠ x → parentOf s j = some x →
          parentOf (child.children.foldl (fun acc gc => add_child acc q gc)
            (remove_child_core (eraseNode s x) q x)) j = some q := by
        intro j hjx hjp
        have hj0 : j ≠ 0 := by
          intro hcon
          rw [hcon, hc.parent0] at hjp
          exact Option.noConfusion hjp
        cases hgj : getNode s j with
        | none => simp [parentOf, hgj] at hjp
        | some nj =>
            obtain ⟨w, nw, hw, hgw, hmemw⟩ :=
              hc.plink (j, nj) (getNode_eq_some_mem hgj) hj0
            have hwx : w = x := by
              rw [parentOf_eq_parent hgj, hw] at hjp
              exact Option.some.inj hjp
            rw [hwx] at hgw
            rw [hgx] at hgw
            cases Option.some.inj hgw
            obtain ⟨-, gn, hggn, -⟩ := hgcfact j hmemw
            rw [parentOf_eq_parent (hggc j hmemw hggn)]
      have hrootall : ∀ j, j ∈ keys s → j ≠ x →
          rooted (child.children.foldl (fun acc gc => add_child acc q gc)
            (remove_child_core (eraseNode s x) q x)) j := by
        intro j hj hjx
        obtain ⟨k, hk⟩ := hc.rooted_of_mem hj
        exact rooted_remove_transfer hx0 hpx hpoth hre k j hk hjx
      refine ⟨hnd', ?_, ?_, ?_, ?_, ?_, ?_⟩
      · -- ids
        intro p hp
        obtain ⟨p1, p2⟩ := p
        obtain ⟨hp1x, hp1k⟩ := hmemkeys hp
        by_cases h1 : p1 = q
        · subst h1
          have he := mem_eq_of_getNode hnd' hp hgq'
          subst he
          exact hc.ids (p1, nq) (getNode_eq_some_mem hgq)
        · by_cases h3 : p1 ∈ child.children
          · obtain ⟨-, gn, hggn, -⟩ := hgcfact p1 h3
            have he := mem_eq_of_getNode hnd' hp (hggc p1 h3 hggn)
            subst he
            exact hc.ids (p1, gn) (getNode_eq_some_mem hggn)
          · have hg' : getNode s p1 = some p2 := by
              rw [← hgoth' p1 h1 h3 hp1x]
              exact getNode_of_mem_nodup hnd' hp
            exact hc.ids (p1, p2) (getNode_eq_some_mem hg')
      · -- root
        obtain ⟨r, hr, hrp, hra⟩ := hc.root0
        have h0x : (0 : Nat) ≠ x := fun hcon => hx0 hcon.symm
        by_cases hq0 : q = 0
        · subst hq0
          rw [hr] at hgq
          cases Option.some.inj hgq
          exact ⟨_, hgq', hrp, hra⟩
        · have h0q : (0 : Nat) ≠ q := fun hcon => hq0 hcon.symm
          have h0c : (0 : Nat) ∉ child.children := fun hm => ((hgcfact 0 hm).1) rfl
          exact ⟨r, by rw [hgoth' 0 h0q h0c h0x]; exact hr, hrp, hra⟩
      · -- childMem
        intro p hp c hcm
        obtain ⟨p1, p2⟩ := p
        obtain ⟨hp1x, hp1k⟩ := hmemkeys hp
        have htrans : ∀ (par c : Nat), c ≠ x → par ≠ x →
            (∃ cn, getNode s c = some cn ∧ cn.parent = some par) →
            ∃ cn, getNode (child.children.foldl (fun acc gc => add_child acc q gc)
              (remove_child_core (eraseNode s x) q x)) c = some cn ∧
              cn.parent = some par := by
          rintro par c hcx hparx ⟨cn, hgc, hcp⟩
          have hcm' : c ∉ child.children := by
            intro hm
            obtain ⟨-, gn, hggn, hgp⟩ := hgcfact c hm
            rw [hgc] at hggn
            cases Option.some.inj hggn
            rw [hcp] at hgp
            exact hparx (Option.some.inj hgp)
          by_cases hcq : c = q
          · subst hcq
            refine ⟨_, hgq', ?_⟩
            rw [hgq] at hgc
            cases Option.some.inj hgc
            exact hcp
          · exact ⟨cn, by rw [hgoth' c hcq hcm' hcx]; exact hgc, hcp⟩
        by_cases h1 : p1 = q
        · subst h1
          have he := mem_eq_of_getNode hnd' hp hgq'
          subst he
          simp only at hcm
          rcases List.mem_append.mp hcm with herase | hnew
          · obtain ⟨hcx, hcmem⟩ :=
              ((hc.childNodup (p1, nq) (getNode_eq_some_mem hgq)).mem_erase_iff).mp
                herase
            obtain ⟨hc0, hex⟩ :=
              hc.childMem (p1, nq) (getNode_eq_some_mem hgq) c hcmem
            exact ⟨hc0, htrans p1 c hcx hp1x hex⟩
          · obtain ⟨hc0, gn, hggn, -⟩ := hgcfact c hnew
            exact ⟨hc0, _, hggc c hnew hggn, rfl⟩
        · by_cases h3 : p1 ∈ child.children
          · obtain ⟨-, gn, hggn, -⟩ := hgcfact p1 h3
            have he := mem_eq_of_getNode hnd' hp (hggc p1 h3 hggn)
            subst he
            simp only at hcm
            obtain ⟨hc0, hex⟩ :=
              hc.childMem (p1, gn) (getNode_eq_some_mem hggn) c hcm
            have hcx : c ≠ x := by
              intro hcon
              obtain ⟨cn, hgc, hcp⟩ := hex
              rw [hcon, hgx] at hgc
              cases Option.some.inj hgc
              rw [hq] at hcp
              exact hgcq (by rw [Option.some.inj hcp]; exact h3)
            exact ⟨hc0, htrans p1 c hcx hp1x hex⟩
          · have hg' : getNode s p1 = some p2 := by
              rw [← hgoth' p1 h1 h3 hp1x]
              exact getNode_of_mem_nodup hnd' hp
            obtain ⟨hc0, hex⟩ :=
              hc.childMem (p1, p2) (getNode_eq_some_mem hg') c hcm
            have hcx : c ≠ x := by
              intro hcon
              obtain ⟨cn, hgc, hcp⟩ := hex
              rw [hcon, hgx] at hgc
              cases Option.some.inj hgc
              rw [hq] at hcp
              exact h1 (Option.some.inj hcp).symm
            exact ⟨hc0, htrans p1 c hcx hp1x hex⟩
      · -- childNodup
        intro p hp
        obtain ⟨p1, p2⟩ := p
        obtain ⟨hp1x, hp1k⟩ := hmemkeys hp
        by_cases h1 : p1 = q
        · subst h1
          have he := mem_eq_of_getNode hnd' hp hgq'
          subst he
          simp only
          rw [List.nodup_append]
          refine ⟨(hc.childNodup (p1, nq) (getNode_eq_some_mem hgq)).erase x,
            hgcnd, ?_⟩
          intro a ha hb
          have hamem :=
            ((hc.childNodup (p1, nq) (getNode_eq_some_mem hgq)).mem_erase_iff).mp ha
          obtain ⟨-, cn, hgc, hcp⟩ :=
            hc.childMem (p1, nq) (getNode_eq_some_mem hgq) a hamem.2
          obtain ⟨-, gn, hggn, hgp⟩ := hgcfact a hb
          rw [hgc] at hggn
          cases Option.some.inj hggn
          rw [hcp] at hgp
          exact hp1x (Option.some.inj hgp)
        · by_cases h3 : p1 ∈ child.children
          · obtain ⟨-, gn, hggn, -⟩ := hgcfact p1 h3
            have he := mem_eq_of_getNode hnd' hp (hggc p1 h3 hggn)
            subst he
            simp only
            exact hc.childNodup (p1, gn) (getNode_eq_some_mem hggn)
          · have hg' : getNode s p1 = some p2 := by
              rw [← hgoth' p1 h1 h3 hp1x]
              exact getNode_of_mem_nodup hnd' hp
            exact hc.childNodup (p1, p2) (getNode_eq_some_mem hg')
      · -- plink
        intro p hp hne
        obtain ⟨p1, p2⟩ := p
        obtain ⟨hp1x, hp1k⟩ := hmemkeys hp
        have htmem : ∀ j w nw, j ≠ x → w ≠ x → getNode s w = some nw →
            j ∈ nw.children →
            ∃ nw', getNode (child.children.foldl (fun acc gc => add_child acc q gc)
              (remove_child_core (eraseNode s x) q x)) w = some nw' ∧
              j ∈ nw'.children := by
          intro j w nw hjx hwx hgw hmem
          by_cases hwq : w = q
          · subst hwq
            rw [hgq] at hgw
            cases Option.some.inj hgw
            refine ⟨_, hgq', ?_⟩
            exact List.mem_append_left _ ((List.mem_erase_of_ne hjx).mpr hmem)
          · by_cases hwm : w ∈ child.children
            · obtain ⟨-, gn, hggn, -⟩ := hgcfact w hwm
              rw [hggn] at hgw
              cases Option.some.inj hgw
              exact ⟨_, hggc w hwm hggn, hmem⟩
            · exact ⟨nw, by rw [hgoth' w hwq hwm hwx]; exact hgw, hmem⟩
        by_cases h1 : p1 = q
        · subst h1
          have he := mem_eq_of_getNode hnd' hp hgq'
          subst he
          obtain ⟨w, nw, hw, hgw, hmemw⟩ :=
            hc.plink (p1, nq) (getNode_eq_some_mem hgq) hne
          have hwx : w ≠ x := by
            intro hcon
            rw [hcon, hgx] at hgw
            cases Option.some.inj hgw
            exact hgcq hmemw
          obtain ⟨nw', hgw', hmem'⟩ := htmem p1 w nw hp1x hwx hgw hmemw
          exact ⟨w, nw', hw, hgw', hmem'⟩
        · by_cases h3 : p1 ∈ child.children
          · obtain ⟨-, gn, hggn, -⟩ := hgcfact p1 h3
            have he := mem_eq_of_getNode hnd' hp (hggc p1 h3 hggn)
            subst he
            refine ⟨q, _, rfl, hgq', ?_⟩
            exact List.mem_append_right _ h3
          · have hg' : getNode s p1 = some p2 := by
              rw [← hgoth' p1 h1 h3 hp1x]
              exact getNode_of_mem_nodup hnd' hp
            obtain ⟨w, nw, hw, hgw, hmemw⟩ :=
              hc.plink (p1, p2) (getNode_eq_some_mem hg') hne
            have hwx : w ≠ x := by
              intro hcon
              rw [hcon, hgx] at hgw
              cases Option.some.inj hgw
              exact h3 hmemw
            obtain ⟨nw', hgw', hmem'⟩ := htmem p1 w nw hp1x hwx hgw hmemw
            exact ⟨w, nw', hw, hgw', hmem'⟩
      · -- rooted
        intro p hp
        obtain ⟨p1, p2⟩ := p
        obtain ⟨hp1x, hp1k⟩ := hmemkeys hp
        exact hrootall p1 hp1k hp1x

/-! ### Chain transfer with explicit values -/

theorem parIter_some_of_le {s : Streams} {m i : Nat} {v : Nat}
    (h : parIter s m i = some v) : ∀ j, j ≤ m → ∃ w, parIter s j i = some w := by
  intro j hj
  obtain ⟨t, rfl⟩ := Nat.exists_eq_add_of_le hj
  rw [parIter_add] at h
  cases hw : parIter s j i with
  | none => rw [hw] at h; exact Option.noConfusion h
  | some w => exact ⟨w, rfl⟩

theorem parIter_eq_of_avoid {s s' : Streams} (bad : Nat → Prop)
    (hpar : ∀ j, ¬ bad j → parentOf s' j = parentOf s j) :
    ∀ m i v, parIter s m i = some v →
      (∀ k w, k < m → parIter s k i = some w → ¬ bad w) →
      parIter s' m i = some v := by
  intro m
  induction m with
  | zero => exact fun i v h _ => h
  | succ m ih =>
      intro i v h havoid
      have hib : ¬ bad i := havoid 0 i (by omega) (parIter_zero s i)
      cases hp : parentOf s i with
      | none => rw [parIter_succ_of_none _ hp] at h; exact Option.noConfusion h
      | some p =>
          rw [parIter_succ_of_parent _ hp] at h
          rw [parIter_succ_of_parent _ (hpar i hib ▸ hp : parentOf s' i = some p)]
          exact ih p v h (fun k w hk hw => havoid (k + 1) w (by omega)
            (by rw [parIter_succ_of_parent _ hp]; exact hw))

theorem parIter_none_past_zero {s : Streams} (h0 : parentOf s 0 = none)
    {k i : Nat} (hk : parIter s k i = some 0) :
    ∀ m, k < m → parIter s m i = none := by
  intro m hm
  obtain ⟨t, rfl⟩ := Nat.exists_eq_add_of_le (Nat.succ_le_of_lt hm)
  have harith : k + 1 + t = k + (1 + t) := by omega
  rw [harith, parIter_add, hk]
  show parIter s (1 + t) 0 = none
  have : 1 + t = t + 1 := by omega
  rw [this]
  exact parIter_succ_of_none t h0

/-! ### Relinking a stream under a new parent -/

/-- Core of `reprioritize`'s restructuring: detach `x` from its parent `cp`
(children-list erase and queue rebuild, as `remove_child` without
`strip_children` does) and reattach it beneath `npid` with `add_child`.  The
invariant survives when the new parent's ancestor chain avoids `x`. -/
theorem CInv_relink {s : Streams} {x npid cp : Nat} {cur np : Stream}
    (hc : CInv s) (hx0 : x ≠ 0) (hgx : getNode s x = some cur)
    (hcp : cur.parent = some cp) (hgnp : getNode s npid = some np)
    (hnx : npid ≠ x) (hk : rooted s npid)
    (havoid : ∀ m v, parIter s m npid = some v → v ≠ x) :
    CInv (add_child (remove_child_core s cp x) npid x) := by
  obtain ⟨cp₀, ncp, hcp₀, hgcp, hxmem⟩ :=
    hc.plink (x, cur) (getNode_eq_some_mem hgx) hx0
  rw [hcp] at hcp₀
  cases Option.some.inj hcp₀
  have hxk : x ∈ keys s := getNode_mem_keys hgx
  have hpxp : parentOf s x = some cp := by rw [parentOf_eq_parent hgx, hcp]
  have hxcp : x ≠ cp := by
    intro hcon
    have hfix : parIter s 1 x = some x := by
      rw [parIter_succ_of_parent 0 hpxp, parIter_zero, hcon]
    exact absurd (hc.cycle_zero hxk hfix) (by omega)
  have hkeys' : keys (add_child (remove_child_core s cp x) npid x) = keys s := by
    rw [keys_add_child, keys_remove_child_core]
  have hnd' : (keys (add_child (remove_child_core s cp x) npid x)).Nodup :=
    hkeys' ▸ hc.nodup
  have hcore_cp : getNode (remove_child_core s cp x) cp =
      some { ncp with children := ncp.children.erase x,
                      child_queue := (qdrain ncp.child_queue).filter fun e => e.2 ≠ x } := by
    rw [getNode_remove_child_core_pid, hgcp]
    rfl
  have hcore_oth : ∀ j, j ≠ cp → getNode (remove_child_core s cp x) j = getNode s j :=
    fun j hj => getNode_remove_child_core_other _ hj
  have hgx' : getNode (add_child (remove_child_core s cp x) npid x) x =
      some { cur with parent := some npid } := by
    rw [getNode_add_child_cid _ (Ne.symm hnx), hcore_oth x hxcp, hgx]
    rfl
  have hncpnd : ncp.children.Nodup := hc.childNodup (cp, ncp) (getNode_eq_some_mem hgcp)
  have hpar' : ∀ j, j ≠ x →
      parentOf (add_child (remove_child_core s cp x) npid x) j = parentOf s j := by
    intro j hj
    by_cases hjnp : j = npid
    · subst hjnp
      unfold parentOf
      rw [getNode_add_child_pid _ (Ne.symm hnx)]
      by_cases hjc : j = cp
      · subst hjc
        rw [hcore_cp, hgcp]
        rfl
      · rw [hcore_oth j hjc]
        cases getNode s j <;> rfl
    · by_cases hjc : j = cp
      · subst hjc
        unfold parentOf
        rw [getNode_add_child_other _ hjnp hj, hcore_cp, hgcp]
      · unfold parentOf
        rw [getNode_add_child_other _ hjnp hj, hcore_oth j hjc]
  have hrnp : rooted (add_child (remove_child_core s cp x) npid x) npid := by
    obtain ⟨k, hkk⟩ := hk
    exact ⟨k, parIter_transfer_avoidP (fun v => v = x) (fun j hj => hpar' j hj) k npid
      hkk (fun m v hm hv hvb => havoid m v hv hvb)⟩
  have hrx : rooted (add_child (remove_child_core s cp x) npid x) x := by
    refine rooted_step (p := npid) ?_ hrnp
    rw [parentOf_eq_parent hgx']
  have hrootall : ∀ j, j ∈ keys s →
      rooted (add_child (remove_child_core s cp x) npid x) j := by
    intro j hj
    obtain ⟨k, hkk⟩ := hc.rooted_of_mem hj
    exact rooted_rerouteP (fun v => v = x) (fun j hj => hpar' j hj)
      (fun j hjb => hjb ▸ hrx) k j hkk
  by_cases hnpcp : npid = cp
  · -- the new parent is the old parent: one node loses and regains the child
    subst hnpcp
    have hgnp' : getNode (add_child (remove_child_core s npid x) npid x) npid =
        some { ncp with children := ncp.children.erase x ++ [x],
                        child_queue :=
                          ((qdrain ncp.child_queue).filter fun e => e.2 ≠ x)
                            ++ [(ncp.last_weight, x)] } := by
      rw [getNode_add_child_pid _ (Ne.symm hnx), hcore_cp]
      rfl
    have hgoth' : ∀ j, j ≠ x → j ≠ npid →
        getNode (add_child (remove_child_core s npid x) npid x) j = getNode s j := by
      intro j hj1 hj2
      rw [getNode_add_child_other _ hj2 hj1, hcore_oth j hj2]
    have htrans : ∀ (par c : Nat), c ≠ x →
        (∃ cn, getNode s c = some cn ∧ cn.parent = some par) →
        ∃ cn, getNode (add_child (remove_child_core s npid x) npid x) c = some cn ∧
          cn.parent = some par := by
      rintro par c hcx ⟨cn, hgc, hcpar⟩
      by_cases hcnp : c = npid
      · refine ⟨_, by rw [hcnp]; exact hgnp', ?_⟩
        rw [hcnp, hgcp] at hgc
        cases Option.some.inj hgc
        exact hcpar
      · exact ⟨cn, by rw [hgoth' c hcx hcnp]; exact hgc, hcpar⟩
    have htmem : ∀ j w nw, j ≠ x → getNode s w = some nw → j ∈ nw.children →
        ∃ nw', getNode (add_child (remove_child_core s npid x) npid x) w = some nw' ∧
          j ∈ nw'.children := by
      intro j w nw hjx hgw hmem
      by_cases hwnp : w = npid
      · refine ⟨_, by rw [hwnp]; exact hgnp', ?_⟩
        rw [hwnp, hgcp] at hgw
        cases Option.some.inj hgw
        exact List.mem_append_left _ ((List.mem_erase_of_ne hjx).mpr hmem)
      · by_cases hwx : w = x
        · refine ⟨_, by rw [hwx]; exact hgx', ?_⟩
          rw [hwx, hgx] at hgw
          cases Option.some.inj hgw
          exact hmem
        · exact ⟨nw, by rw [hgoth' w hwx hwnp]; exact hgw, hmem⟩
    refine ⟨hnd', ?_, ?_, ?_, ?_, ?_, ?_⟩
    · -- ids
      intro p hp
      obtain ⟨p1, p2⟩ := p
      by_cases h1 : p1 = x
      · subst h1
        have he := mem_eq_of_getNode hnd' hp hgx'
        subst he
        exact hc.ids (p1, cur) (getNode_eq_some_mem hgx)
      · by_cases h2 : p1 = npid
        · subst h2
          have he := mem_eq_of_getNode hnd' hp hgnp'
          subst he
          exact hc.ids (p1, ncp) (getNode_eq_some_mem hgcp)
        · have hg' : getNode s p1 = some p2 := by
            rw [← hgoth' p1 h1 h2]
            exact getNode_of_mem_nodup hnd' hp
          exact hc.ids (p1, p2) (getNode_eq_some_mem hg')
    · -- root
      obtain ⟨r, hr, hrp, hra⟩ := hc.root0
      have h0x : (0 : Nat) ≠ x := fun hcon => hx0 hcon.symm
      by_cases h0np : (0 : Nat) = npid
      · subst h0np
        rw [hgcp] at hr
        cases Option.some.inj hr
        exact ⟨_, hgnp', hrp, hra⟩
      · exact ⟨r, by rw [hgoth' 0 h0x (fun hcon => h0np hcon)]; exact hr, hrp, hra⟩
    · -- childMem
      intro p hp c hcm
      obtain ⟨p1, p2⟩ := p
      by_cases h1 : p1 = x
      · subst h1
        have he := mem_eq_of_getNode hnd' hp hgx'
        subst he
        simp only at hcm
        obtain ⟨hc0, hex⟩ := hc.childMem (p1, cur) (getNode_eq_some_mem hgx) c hcm
        have hcx : c ≠ p1 := by
          intro hcon
          obtain ⟨cn, hgc, hcpar⟩ := hex
          rw [hcon, hgx] at hgc
          cases Option.some.inj hgc
          rw [hcp] at hcpar
          exact hxcp (Option.some.inj hcpar).symm
        exact ⟨hc0, htrans p1 c hcx hex⟩
      · by_cases h2 : p1 = npid
        · subst h2
          have he := mem_eq_of_getNode hnd' hp hgnp'
          subst he
          simp only at hcm
          rcases List.mem_append.mp hcm with herase | hnew
          · obtain ⟨hcx, hcmem⟩ := (hncpnd.mem_erase_iff).mp herase
            obtain ⟨hc0, hex⟩ :=
              hc.childMem (p1, ncp) (getNode_eq_some_mem hgcp) c hcmem
            exact ⟨hc0, htrans p1 c hcx hex⟩
          · rw [List.mem_singleton] at hnew
            subst hnew
            exact ⟨hx0, _, hgx', rfl⟩
        · have hg' : getNode s p1 = some p2 := by
            rw [← hgoth' p1 h1 h2]
            exact getNode_of_mem_nodup hnd' hp
          obtain ⟨hc0, hex⟩ := hc.childMem (p1, p2) (getNode_eq_some_mem hg') c hcm
          have hcx : c ≠ x := by
            intro hcon
            obtain ⟨cn, hgc, hcpar⟩ := hex
            rw [hcon, hgx] at hgc
            cases Option.some.inj hgc
            rw [hcp] at hcpar
            exact h2 (Option.some.inj hcpar).symm
          exact ⟨hc0, htrans p1 c hcx hex⟩
    · -- childNodup
      intro p hp
      obtain ⟨p1, p2⟩ := p
      by_cases h1 : p1 = x
      · subst h1
        have he := mem_eq_of_getNode hnd' hp hgx'
        subst he
        exact hc.childNodup (p1, cur) (getNode_eq_some_mem hgx)
      · by_cases h2 : p1 = npid
        · subst h2
          have he := mem_eq_of_getNode hnd' hp hgnp'
          subst he
          simp only
          rw [List.nodup_append]
          refine ⟨hncpnd.erase x, List.nodup_singleton x, ?_⟩
          intro a ha hb
          rw [List.mem_singleton] at hb
          subst hb
          exact ((hncpnd.mem_erase_iff).mp ha).1 rfl
        · have hg' : getNode s p1 = some p2 := by
            rw [← hgoth' p1 h1 h2]
            exact getNode_of_mem_nodup hnd' hp
          exact hc.childNodup (p1, p2) (getNode_eq_some_mem hg')
    · -- plink
      intro p hp hne
      obtain ⟨p1, p2⟩ := p
      by_cases h1 : p1 = x
      · subst h1
        have he := mem_eq_of_getNode hnd' hp hgx'
        subst he
        refine ⟨npid, _, rfl, hgnp', ?_⟩
        simp
      · by_cases h2 : p1 = npid
        · subst h2
          have he := mem_eq_of_getNode hnd' hp hgnp'
          subst he
          obtain ⟨w, nw, hw, hgw, hmemw⟩ :=
            hc.plink (p1, ncp) (getNode_eq_some_mem hgcp) hne
          obtain ⟨nw', hgw', hmem'⟩ := htmem p1 w nw h1 hgw hmemw
          exact ⟨w, nw', hw, hgw', hmem'⟩
        · have hg' : getNode s p1 = some p2 := by
            rw [← hgoth' p1 h1 h2]
            exact getNode_of_mem_nodup hnd' hp
          obtain ⟨w, nw, hw, hgw, hmemw⟩ :=
            hc.plink (p1, p2) (getNode_eq_some_mem hg') hne
          obtain ⟨nw', hgw', hmem'⟩ := htmem p1 w nw h1 hgw hmemw
          exact ⟨w, nw', hw, hgw', hmem'⟩
    · -- rooted
      intro p hp
      obtain ⟨p1, p2⟩ := p
      have hmem : p1 ∈ keys s := by
        rw [← hkeys']
        exact getNode_mem_keys (getNode_of_mem_nodup hnd' hp)
      exact hrootall p1 hmem
  · -- the new parent is a different node
    have hcpnp : cp ≠ npid := fun hcon => hnpcp hcon.symm
    have hgcp' : getNode (add_child (remove_child_core s cp x) npid x) cp =
        some { ncp with children := ncp.children.erase x,
                        child_queue :=
                          (qdrain ncp.child_queue).filter fun e => e.2 ≠ x } := by
      rw [getNode_add_child_other _ hcpnp (Ne.symm hxcp), hcore_cp]
    have hgnp' : getNode (add_child (remove_child_core s cp x) npid x) npid =
        some { np with children := np.children ++ [x],
                       child_queue := np.child_queue ++ [(np.last_weight, x)] } := by
      rw [getNode_add_child_pid _ (Ne.symm hnx), hcore_oth npid hnpcp, hgnp]
      rfl
    have hgoth' : ∀ j, j ≠ x → j ≠ npid → j ≠ cp →
        getNode (add_child (remove_child_core s cp x) npid x) j = getNode s j := by
      intro j hj1 hj2 hj3
      rw [getNode_add_child_other _ hj2 hj1, hcore_oth j hj3]
    have hxnnp : x ∉ np.children := by
      intro hm
      obtain ⟨-, cn, hgc, hcpar⟩ := hc.childMem (npid, np) (getNode_eq_some_mem hgnp) x hm
      rw [hgx] at hgc
      cases Option.some.inj hgc
      rw [hcp] at hcpar
      exact hnpcp (Option.some.inj hcpar).symm
    have htrans : ∀ (par c : Nat), c ≠ x →
        (∃ cn, getNode s c = some cn ∧ cn.parent = some par) →
        ∃ cn, getNode (add_child (remove_child_core s cp x) npid x) c = some cn ∧
          cn.parent = some par := by
      rintro par c hcx ⟨cn, hgc, hcpar⟩
      by_cases hcnp : c = npid
      · refine ⟨_, by rw [hcnp]; exact hgnp', ?_⟩
        rw [hcnp, hgnp] at hgc
        cases Option.some.inj hgc
        exact hcpar
      · by_cases hccp : c = cp
        · refine ⟨_, by rw [hccp]; exact hgcp', ?_⟩
          rw [hccp, hgcp] at hgc
          cases Option.some.inj hgc
          exact hcpar
        · exact ⟨cn, by rw [hgoth' c hcx hcnp hccp]; exact hgc, hcpar⟩
    have htmem : ∀ j w nw, j ≠ x → getNode s w = some nw → j ∈ nw.children →
        ∃ nw', getNode (add_child (remove_child_core s cp x) npid x) w = some nw' ∧
          j ∈ nw'.children := by
      intro j w nw hjx hgw hmem
      by_cases hwnp : w = npid
      · refine ⟨_, by rw [hwnp]; exact hgnp', ?_⟩
        rw [hwnp, hgnp] at hgw
        cases Option.some.inj hgw
        exact List.mem_append_left _ hmem
      · by_cases hwcp : w = cp
        · refine ⟨_, by rw [hwcp]; exact hgcp', ?_⟩
          rw [hwcp, hgcp] at hgw
          cases Option.some.inj hgw
          exact (List.mem_erase_of_ne hjx).mpr hmem
        · by_cases hwx : w = x
          · refine ⟨_, by rw [hwx]; exact hgx', ?_⟩
            rw [hwx, hgx] at hgw
            cases Option.some.inj hgw
            exact hmem
          · exact ⟨nw, by rw [hgoth' w hwx hwnp hwcp]; exact hgw, hmem⟩
    refine ⟨hnd', ?_, ?_, ?_, ?_, ?_, ?_⟩
    · -- ids
      intro p hp
      obtain ⟨p1, p2⟩ := p
      by_cases h1 : p1 = x
      · subst h1
        have he := mem_eq_of_getNode hnd' hp hgx'
        subst he
        exact hc.ids (p1, cur) (getNode_eq_some_mem hgx)
      · by_cases h2 : p1 = npid
        · subst h2
          have he := mem_eq_of_getNode hnd' hp hgnp'
          subst he
          exact hc.ids (p1, np) (getNode_eq_some_mem hgnp)
        · by_cases h3 : p1 = cp
          · subst h3
            have he := mem_eq_of_getNode hnd' hp hgcp'
            subst he
            exact hc.ids (p1, ncp) (getNode_eq_some_mem hgcp)
          · have hg' : getNode s p1 = some p2 := by
              rw [← hgoth' p1 h1 h2 h3]
              exact getNode_of_mem_nodup hnd' hp
            exact hc.ids (p1, p2) (getNode_eq_some_mem hg')
    · -- root
      obtain ⟨r, hr, hrp, hra⟩ := hc.root0
      have h0x : (0 : Nat) ≠ x := fun hcon => hx0 hcon.symm
      by_cases h0np : (0 : Nat) = npid
      · subst h0np
        rw [hgnp] at hr
        cases Option.some.inj hr
        exact ⟨_, hgnp', hrp, hra⟩
      · by_cases h0cp : (0 : Nat) = cp
        · subst h0cp
          rw [hgcp] at hr
          cases Option.some.inj hr
          exact ⟨_, hgcp', hrp, hra⟩
        · exact ⟨r, by rw [hgoth' 0 h0x h0np h0cp]; exact hr, hrp, hra⟩
    · -- childMem
      intro p hp c hcm
      obtain ⟨p1, p2⟩ := p
      by_cases h1 : p1 = x
      · subst h1
        have he := mem_eq_of_getNode hnd' hp hgx'
        subst he
        simp only at hcm
        obtain ⟨hc0, hex⟩ := hc.childMem (p1, cur) (getNode_eq_some_mem hgx) c hcm
        have hcx : c ≠ p1 := by
          intro hcon
          obtain ⟨cn, hgc, hcpar⟩ := hex
          rw [hcon, hgx] at hgc
          cases Option.some.inj hgc
          rw [hcp] at hcpar
          exact hxcp (Option.some.inj hcpar).symm
        exact ⟨hc0, htrans p1 c hcx hex⟩
      · by_cases h2 : p1 = npid
        · subst h2
          have he := mem_eq_of_getNode hnd' hp hgnp'
          subst he
          simp only at hcm
          rcases List.mem_append.mp hcm with hold | hnew
          · obtain ⟨hc0, hex⟩ :=
              hc.childMem (p1, np) (getNode_eq_some_mem hgnp) c hold
            have hcx : c ≠ x := fun hcon => hxnnp (hcon ▸ hold)
            exact ⟨hc0, htrans p1 c hcx hex⟩
          · rw [List.mem_singleton] at hnew
            subst hnew
            exact ⟨hx0, _, hgx', rfl⟩
        · by_cases h3 : p1 = cp
          · subst h3
            have he := mem_eq_of_getNode hnd' hp hgcp'
            subst he
            simp only at hcm
            obtain ⟨hcx, hcmem⟩ := (hncpnd.mem_erase_iff).mp hcm
            obtain ⟨hc0, hex⟩ :=
              hc.childMem (p1, ncp) (getNode_eq_some_mem hgcp) c hcmem
            exact ⟨hc0, htrans p1 c hcx hex⟩
          · have hg' : getNode s p1 = some p2 := by
              rw [← hgoth' p1 h1 h2 h3]
              exact getNode_of_mem_nodup hnd' hp
            obtain ⟨hc0, hex⟩ := hc.childMem (p1, p2) (getNode_eq_some_mem hg') c hcm
            have hcx : c ≠ x := by
              intro hcon
              obtain ⟨cn, hgc, hcpar⟩ := hex
              rw [hcon, hgx] at hgc
              cases Option.some.inj hgc
              rw [hcp] at hcpar
              exact h3 (Option.some.inj hcpar).symm
            exact ⟨hc0, htrans p1 c hcx hex⟩
    · -- childNodup
      intro p hp
      obtain ⟨p1, p2⟩ := p
      by_cases h1 : p1 = x
      · subst h1
        have he := mem_eq_of_getNode hnd' hp hgx'
        subst he
        exact hc.childNodup (p1, cur) (getNode_eq_some_mem hgx)
      · by_cases h2 : p1 = npid
        · subst h2
          have he := mem_eq_of_getNode hnd' hp hgnp'
          subst he
          simp only
          rw [List.nodup_append]
          refine ⟨hc.childNodup (p1, np) (getNode_eq_some_mem hgnp),
            List.nodup_singleton x, ?_⟩
          intro a ha hb
          rw [List.mem_singleton] at hb
          subst hb
          exact hxnnp ha
        · by_cases h3 : p1 = cp
          · subst h3
            have he := mem_eq_of_getNode hnd' hp hgcp'
            subst he
            exact hncpnd.erase x
          · have hg' : getNode s p1 = some p2 := by
              rw [← hgoth' p1 h1 h2 h3]
              exact getNode_of_mem_nodup hnd' hp
            exact hc.childNodup (p1, p2) (getNode_eq_some_mem hg')
    · -- plink
      intro p hp hne
      obtain ⟨p1, p2⟩ := p
      by_cases h1 : p1 = x
      · subst h1
        have he := mem_eq_of_getNode hnd' hp hgx'
        subst he
        refine ⟨npid, _, rfl, hgnp', ?_⟩
        simp
      · by_cases h2 : p1 = npid
        · subst h2
          have he := mem_eq_of_getNode hnd' hp hgnp'
          subst he
          obtain ⟨w, nw, hw, hgw, hmemw⟩ :=
            hc.plink (p1, np) (getNode_eq_some_mem hgnp) hne
          obtain ⟨nw', hgw', hmem'⟩ := htmem p1 w nw h1 hgw hmemw
          exact ⟨w, nw', hw, hgw', hmem'⟩
        · by_cases h3 : p1 = cp
          · subst h3
            have he := mem_eq_of_getNode hnd' hp hgcp'
            subst he
            obtain ⟨w, nw, hw, hgw, hmemw⟩ :=
              hc.plink (p1, ncp) (getNode_eq_some_mem hgcp) hne
            obtain ⟨nw', hgw', hmem'⟩ := htmem p1 w nw h1 hgw hmemw
            exact ⟨w, nw', hw, hgw', hmem'⟩
          · have hg' : getNode s p1 = some p2 := by
              rw [← hgoth' p1 h1 h2 h3]
              exact getNode_of_mem_nodup hnd' hp
            obtain ⟨w, nw, hw, hgw, hmemw⟩ :=
              hc.plink (p1, p2) (getNode_eq_some_mem hg') hne
            obtain ⟨nw', hgw', hmem'⟩ := htmem p1 w nw h1 hgw hmemw
            exact ⟨w, nw', hw, hgw', hmem'⟩
    · -- rooted
      intro p hp
      obtain ⟨p1, p2⟩ := p
      have hmem : p1 ∈ keys s := by
        rw [← hkeys']
        exact getNode_mem_keys (getNode_of_mem_nodup hnd' hp)
      exact hrootall p1 hmem

/-- Exclusive variant of the relink: detach `x` from `cp`, then reattach it
beneath `npid` exclusively, adopting all of the new parent's other children. -/
theorem CInv_relink_exclusive {s : Streams} {x npid cp : Nat} {cur np : Stream}
    (hc : CInv s) (hx0 : x ≠ 0) (hgx : getNode s x = some cur)
    (hcp : cur.parent = some cp) (hgnp : getNode s npid = some np)
    (hnx : npid ≠ x) (hk : rooted s npid)
    (havoid : ∀ m v, parIter s m npid = some v → v ≠ x) :
    CInv (add_child_exclusive (remove_child_core s cp x) npid x) := by
  obtain ⟨cp₀, ncp, hcp₀, hgcp, hxmem⟩ :=
    hc.plink (x, cur) (getNode_eq_some_mem hgx) hx0
  rw [hcp] at hcp₀
  cases Option.some.inj hcp₀
  have hxk : x ∈ keys s := getNode_mem_keys hgx
  have hpxp : parentOf s x = some cp := by rw [parentOf_eq_parent hgx, hcp]
  have hxcp : x ≠ cp := by
    intro hcon
    have hfix : parIter s 1 x = some x := by
      rw [parIter_succ_of_parent 0 hpxp, parIter_zero, hcon]
    exact absurd (hc.cycle_zero hxk hfix) (by omega)
  have hncpnd : ncp.children.Nodup := hc.childNodup (cp, ncp) (getNode_eq_some_mem hgcp)
  have hcore_cp : getNode (remove_child_core s cp x) cp =
      some { ncp with children := ncp.children.erase x,
                      child_queue := (qdrain ncp.child_queue).filter fun e => e.2 ≠ x } := by
    rw [getNode_remove_child_core_pid, hgcp]
    rfl
  have hcore_oth : ∀ j, j ≠ cp → getNode (remove_child_core s cp x) j = getNode s j :=
    fun j hj => getNode_remove_child_core_other _ hj
  have hnp' : ∃ np', getNode (remove_child_core s cp x) npid = some np' ∧
      np'.stream_id = np.stream_id ∧ np'.parent = np.parent ∧
      np'.active = np.active ∧ np'.children.Nodup ∧
      (∀ c, c ∈ np'.children ↔ c ∈ np.children ∧ c ≠ x) := by
    by_cases hnpcp : npid = cp
    · subst hnpcp
      rw [hgnp] at hgcp
      cases Option.some.inj hgcp
      refine ⟨_, hcore_cp, rfl, rfl, rfl, hncpnd.erase x, ?_⟩
      intro c
      constructor
      · intro hcm
        obtain ⟨hne2, hmem⟩ := (hncpnd.mem_erase_iff).mp hcm
        exact ⟨hmem, hne2⟩
      · rintro ⟨hmem, hne2⟩
        exact (List.mem_erase_of_ne hne2).mpr hmem
    · refine ⟨np, by rw [hcore_oth npid hnpcp]; exact hgnp, rfl, rfl, rfl,
        hc.childNodup (npid, np) (getNode_eq_some_mem hgnp), ?_⟩
      intro c
      constructor
      · intro hcm
        refine ⟨hcm, fun hcon => ?_⟩
        rw [hcon] at hcm
        obtain ⟨-, cn, hgc, hcpar⟩ :=
          hc.childMem (npid, np) (getNode_eq_some_mem hgnp) x hcm
        rw [hgx] at hgc
        cases Option.some.inj hgc
        rw [hcp] at hcpar
        exact hnpcp (Option.some.inj hcpar).symm
      · exact fun h => h.1
  obtain ⟨np', hgcore_np, hsid, hparnp, hact, hndnp', hiff⟩ := hnp'
  have h1 : npid ∉ np'.children := by
    intro hm
    have hmem := ((hiff npid).mp hm).1
    obtain ⟨-, cn, hgc, hcpar⟩ :=
      hc.childMem (npid, np) (getNode_eq_some_mem hgnp) npid hmem
    have hpnp : parentOf s npid = some npid := by
      rw [parentOf_eq_parent hgc, hcpar]
    have hfix : parIter s 1 npid = some npid := by
      rw [parIter_succ_of_parent 0 hpnp, parIter_zero]
    exact absurd (hc.cycle_zero (getNode_mem_keys hgnp) hfix) (by omega)
  have h2 : x ∉ np'.children := fun hm => ((hiff x).mp hm).2 rfl
  have hkeysE : keys (add_child_exclusive (remove_child_core s cp x) npid x) =
      keys s := by
    rw [keys_add_child_exclusive, keys_remove_child_core]
  have hndE : (keys (add_child_exclusive (remove_child_core s cp x) npid x)).Nodup :=
    hkeysE ▸ hc.nodup
  have hgnpE : getNode (add_child_exclusive (remove_child_core s cp x) npid x) npid =
      some { np' with children := [x], child_queue := [(0, x)], last_weight := 0 } :=
    getNode_add_child_exclusive_pid hgcore_np (Ne.symm hnx) h1
  have hgxE : getNode (add_child_exclusive (remove_child_core s cp x) npid x) x =
      some { cur with parent := some npid,
                      children := cur.children ++ np'.children,
                      child_queue := cur.child_queue
                        ++ (np'.children.map fun oc => (cur.last_weight, oc)) } := by
    rw [getNode_add_child_exclusive_cid hgcore_np (Ne.symm hnx) h2,
      hcore_oth x hxcp, hgx]
    rfl
  have hnodes : ∀ j, j ≠ x → j ≠ npid → ∀ nj, getNode s j = some nj →
      ∃ nj', getNode (add_child_exclusive (remove_child_core s cp x) npid x) j =
        some nj' ∧
        nj'.stream_id = nj.stream_id ∧ nj'.active = nj.active ∧
        ((j ∈ np'.children ∧ nj'.parent = some x) ∨
          (j ∉ np'.children ∧ nj'.parent = nj.parent)) ∧
        nj'.children.Nodup ∧
        (∀ c, c ∈ nj'.children ↔ c ∈ nj.children ∧ c ≠ x) := by
    intro j hjx hjnp nj hgj
    have hxmemj : x ∈ nj.children → j = cp := by
      intro hm
      obtain ⟨-, cn, hgc, hcpar⟩ :=
        hc.childMem (j, nj) (getNode_eq_some_mem hgj) x hm
      rw [hgx] at hgc
      cases Option.some.inj hgc
      rw [hcp] at hcpar
      exact (Option.some.inj hcpar).symm
    have hjnd : nj.children.Nodup := hc.childNodup (j, nj) (getNode_eq_some_mem hgj)
    have hcore_j : ∃ cj, getNode (remove_child_core s cp x) j = some cj ∧
        cj.stream_id = nj.stream_id ∧ cj.active = nj.active ∧ cj.parent = nj.parent ∧
        cj.children.Nodup ∧ (∀ c, c ∈ cj.children ↔ c ∈ nj.children ∧ c ≠ x) := by
      by_cases hjcp : j = cp
      · subst hjcp
        rw [hgj] at hgcp
        cases Option.some.inj hgcp
        refine ⟨_, hcore_cp, rfl, rfl, rfl, hjnd.erase x, ?_⟩
        intro c
        constructor
        · intro hcm
          obtain ⟨hne2, hmem⟩ := (hjnd.mem_erase_iff).mp hcm
          exact ⟨hmem, hne2⟩
        · rintro ⟨hmem, hne2⟩
          exact (List.mem_erase_of_ne hne2).mpr hmem
      · refine ⟨nj, by rw [hcore_oth j hjcp]; exact hgj, rfl, rfl, rfl, hjnd, ?_⟩
        intro c
        constructor
        · intro hcm
          exact ⟨hcm, fun hcon => hjcp (hxmemj (hcon ▸ hcm))⟩
        · exact fun h => h.1
    obtain ⟨cj, hgcj, hsidj, hactj, hparj, hndj, hiffj⟩ := hcore_j
    by_cases hjm : j ∈ np'.children
    · refine ⟨{ cj with parent := some x }, ?_, hsidj, hactj,
        Or.inl ⟨hjm, rfl⟩, hndj, hiffj⟩
      rw [getNode_add_child_exclusive_mem hgcore_np h2 hjm hjnp hjx, hgcj]
      rfl
    · refine ⟨cj, ?_, hsidj, hactj, Or.inr ⟨hjm, hparj⟩, hndj, hiffj⟩
      rw [getNode_add_child_exclusive_other hgcore_np hjnp hjx hjm]
      exact hgcj
  have hparE : ∀ j, ¬ (j = x ∨ j ∈ np'.children) →
      parentOf (add_child_exclusive (remove_child_core s cp x) npid x) j =
        parentOf s j := by
    intro j hj
    have hjx : j ≠ x := fun hcon => hj (Or.inl hcon)
    have hjm : j ∉ np'.children := fun hcon => hj (Or.inr hcon)
    by_cases hjnp : j = npid
    · subst hjnp
      rw [parentOf_eq_parent hgnpE, parentOf_eq_parent hgnp]
      exact hparnp
    · cases hgj : getNode s j with
      | none =>
          have hnone : getNode (add_child_exclusive (remove_child_core s cp x)
              npid x) j = none := by
            apply getNode_eq_none_of_not_mem
            intro hm
            rw [hkeysE] at hm
            have := getNode_isSome_of_mem_keys hm
            rw [hgj] at this
            simp at this
          unfold parentOf
          rw [hnone, hgj]
      | some nj =>
          obtain ⟨nj', hgj', -, -, hdisj, -, -⟩ := hnodes j hjx hjnp nj hgj
          rcases hdisj with ⟨hm, -⟩ | ⟨-, hp⟩
          · exact absurd hm hjm
          · rw [parentOf_eq_parent hgj', parentOf_eq_parent hgj, hp]
  have havoid2 : ∀ m v, parIter s m npid = some v →
      ¬ (v = x ∨ v ∈ np'.children) := by
    rintro m v hv (rfl | hm)
    · exact havoid m v hv rfl
    · have hmem := ((hiff v).mp hm).1
      obtain ⟨-, cn, hgc, hcpar⟩ :=
        hc.childMem (npid, np) (getNode_eq_some_mem hgnp) v hmem
      have hpv : parentOf s v = some npid := by
        rw [parentOf_eq_parent hgc, hcpar]
      have hcyc : parIter s (m + 1) npid = some npid := by
        rw [parIter_add s m 1 npid, hv]
        show parIter s 1 v = some npid
        rw [parIter_succ_of_parent 0 hpv, parIter_zero]
      exact absurd (hc.cycle_zero (getNode_mem_keys hgnp) hcyc) (by omega)
  have hrnpE : rooted (add_child_exclusive (remove_child_core s cp x) npid x)
      npid := by
    obtain ⟨k, hkk⟩ := hk
    exact ⟨k, parIter_transfer_avoidP _ hparE k npid hkk
      (fun m v hm hv => havoid2 m v hv)⟩
  have hrxE : rooted (add_child_exclusive (remove_child_core s cp x) npid x) x :=
    rooted_step (by rw [parentOf_eq_parent hgxE]) hrnpE
  have hrmemE : ∀ j ∈ np'.children,
      rooted (add_child_exclusive (remove_child_core s cp x) npid x) j := by
    intro j hm
    have hjx : j ≠ x := fun hcon => h2 (hcon ▸ hm)
    have hjnp : j ≠ npid := fun hcon => h1 (hcon ▸ hm)
    have hmem := ((hiff j).mp hm).1
    obtain ⟨-, cn, hgc, -⟩ :=
      hc.childMem (npid, np) (getNode_eq_some_mem hgnp) j hmem
    obtain ⟨nj', hgj', -, -, hdisj, -, -⟩ := hnodes j hjx hjnp cn hgc
    rcases hdisj with ⟨-, hp⟩ | ⟨hnm, -⟩
    · exact rooted_step (by rw [parentOf_eq_parent hgj', hp]) hrxE
    · exact absurd hm hnm
  have hrootallE : ∀ j, j ∈ keys s →
      rooted (add_child_exclusive (remove_child_core s cp x) npid x) j := by
    intro j hj
    obtain ⟨k, hkk⟩ := hc.rooted_of_mem hj
    refine rooted_rerouteP _ hparE ?_ k j hkk
    rintro v (rfl | hm)
    · exact hrxE
    · exact hrmemE v hm
  have htrans : ∀ (par c : Nat), c ≠ x → c ∉ np'.children →
      (∃ cn, getNode s c = some cn ∧ cn.parent = some par) →
      ∃ cn', getNode (add_child_exclusive (remove_child_core s cp x) npid x) c =
        some cn' ∧ cn'.parent = some par := by
    rintro par c hcx hcm ⟨cn, hgc, hcpar⟩
    by_cases hcnp : c = npid
    · refine ⟨_, by rw [hcnp]; exact hgnpE, ?_⟩
      rw [hcnp, hgnp] at hgc
      cases Option.some.inj hgc
      exact hparnp.trans hcpar
    · obtain ⟨nj', hgj', -, -, hdisj, -, -⟩ := hnodes c hcx hcnp cn hgc
      rcases hdisj with ⟨hm, -⟩ | ⟨-, hp⟩
      · exact absurd hm hcm
      · exact ⟨nj', hgj', hp.trans hcpar⟩
  have htmem : ∀ j w nw, j ≠ x → w ≠ npid → getNode s w = some nw →
      j ∈ nw.children →
      ∃ nw', getNode (add_child_exclusive (remove_child_core s cp x) npid x) w =
        some nw' ∧ j ∈ nw'.children := by
    intro j w nw hjx hwnp hgw hmem
    by_cases hwx : w = x
    · refine ⟨_, by rw [hwx]; exact hgxE, ?_⟩
      rw [hwx, hgx] at hgw
      cases Option.some.inj hgw
      exact List.mem_append_left _ hmem
    · obtain ⟨nw', hgw', -, -, -, -, hiffw⟩ := hnodes w hwx hwnp nw hgw
      exact ⟨nw', hgw', (hiffw j).mpr ⟨hmem, hjx⟩⟩
  refine ⟨hndE, ?_, ?_, ?_, ?_, ?_, ?_⟩
  · -- ids
    intro p hp
    obtain ⟨p1, p2⟩ := p
    by_cases hpx : p1 = x
    · subst hpx
      have he := mem_eq_of_getNode hndE hp hgxE
      subst he
      exact hc.ids (p1, cur) (getNode_eq_some_mem hgx)
    · by_cases hpnp : p1 = npid
      · subst hpnp
        have he := mem_eq_of_getNode hndE hp hgnpE
        subst he
        exact hsid.trans (hc.ids (p1, np) (getNode_eq_some_mem hgnp))
      · have hp1k : p1 ∈ keys s := by
          rw [← hkeysE]
          exact getNode_mem_keys (getNode_of_mem_nodup hndE hp)
        cases hgj : getNode s p1 with
        | none =>
            have := getNode_isSome_of_mem_keys hp1k
            rw [hgj] at this
            simp at this
        | some nj =>
            obtain ⟨nj', hgj', hsidj, -, -, -, -⟩ := hnodes p1 hpx hpnp nj hgj
            have he := mem_eq_of_getNode hndE hp hgj'
            subst he
            exact hsidj.trans (hc.ids (p1, nj) (getNode_eq_some_mem hgj))
  · -- root
    obtain ⟨r, hr, hrp, hra⟩ := hc.root0
    have h0x : (0 : Nat) ≠ x := fun hcon => hx0 hcon.symm
    by_cases h0np : (0 : Nat) = npid
    · subst h0np
      rw [hgnp] at hr
      cases Option.some.inj hr
      exact ⟨_, hgnpE, hparnp.trans hrp, hact.trans hra⟩
    · have h0np' : (0 : Nat) ≠ npid := h0np
      obtain ⟨nj', hgj', -, hactj, hdisj, -, -⟩ := hnodes 0 h0x h0np' r hr
      rcases hdisj with ⟨hm, -⟩ | ⟨-, hp⟩
      · have hmem := ((hiff 0).mp hm).1
        exact absurd rfl
          (hc.childMem (npid, np) (getNode_eq_some_mem hgnp) 0 hmem).1
      · exact ⟨nj', hgj', hp.trans hrp, hactj.trans hra⟩
  · -- childMem
    intro p hp c hcm
    obtain ⟨p1, p2⟩ := p
    by_cases hpx : p1 = x
    · subst hpx
      have he := mem_eq_of_getNode hndE hp hgxE
      subst he
      simp only at hcm
      rcases List.mem_append.mp hcm with hold | hnew
      · obtain ⟨hc0, hex⟩ := hc.childMem (p1, cur) (getNode_eq_some_mem hgx) c hold
        have hcx : c ≠ p1 := by
          intro hcon
          obtain ⟨cn, hgc, hcpar⟩ := hex
          rw [hcon, hgx] at hgc
          cases Option.some.inj hgc
          rw [hcp] at hcpar
          exact hxcp (Option.some.inj hcpar).symm
        have hcnm : c ∉ np'.children := by
          intro hm
          obtain ⟨cn, hgc, hcpar⟩ := hex
          have hmem := ((hiff c).mp hm).1
          obtain ⟨-, cn2, hgc2, hcpar2⟩ :=
            hc.childMem (npid, np) (getNode_eq_some_mem hgnp) c hmem
          rw [hgc] at hgc2
          cases Option.some.inj hgc2
          rw [hcpar] at hcpar2
          exact hnx (Option.some.inj hcpar2).symm
        exact ⟨hc0, htrans p1 c hcx hcnm hex⟩
      · have hcx : c ≠ p1 := fun hcon => h2 (hcon ▸ hnew)
        have hcnp : c ≠ npid := fun hcon => h1 (hcon ▸ hnew)
        have hmem := ((hiff c).mp hnew).1
        obtain ⟨hc0, cn, hgc, -⟩ :=
          hc.childMem (npid, np) (getNode_eq_some_mem hgnp) c hmem
        obtain ⟨nj', hgj', -, -, hdisj, -, -⟩ := hnodes c hcx hcnp cn hgc
        rcases hdisj with ⟨-, hpj⟩ | ⟨hnm, -⟩
        · exact ⟨hc0, nj', hgj', hpj⟩
        · exact absurd hnew hnm
    · by_cases hpnp : p1 = npid
      · subst hpnp
        have he := mem_eq_of_getNode hndE hp hgnpE
        subst he
        simp only at hcm
        rw [List.mem_singleton] at hcm
        subst hcm
        exact ⟨hx0, _, hgxE, rfl⟩
      · have hp1k : p1 ∈ keys s := by
          rw [← hkeysE]
          exact getNode_mem_keys (getNode_of_mem_nodup hndE hp)
        cases hgj : getNode s p1 with
        | none =>
            have := getNode_isSome_of_mem_keys hp1k
            rw [hgj] at this
            simp at this
        | some nj =>
            obtain ⟨nj', hgj', -, -, -, -, hiffj⟩ := hnodes p1 hpx hpnp nj hgj
            have he := mem_eq_of_getNode hndE hp hgj'
            subst he
            obtain ⟨hcmem, hcx⟩ := (hiffj c).mp hcm
            obtain ⟨hc0, hex⟩ :=
              hc.childMem (p1, nj) (getNode_eq_some_mem hgj) c hcmem
            have hcnm : c ∉ np'.children := by
              intro hm
              obtain ⟨cn, hgc, hcpar⟩ := hex
              have hmem := ((hiff c).mp hm).1
              obtain ⟨-, cn2, hgc2, hcpar2⟩ :=
                hc.childMem (npid, np) (getNode_eq_some_mem hgnp) c hmem
              rw [hgc] at hgc2
              cases Option.some.inj hgc2
              rw [hcpar] at hcpar2
              exact hpnp (Option.some.inj hcpar2)
            exact ⟨hc0, htrans p1 c hcx hcnm hex⟩
  · -- childNodup
    intro p hp
    obtain ⟨p1, p2⟩ := p
    by_cases hpx : p1 = x
    · subst hpx
      have he := mem_eq_of_getNode hndE hp hgxE
      subst he
      simp only
      rw [List.nodup_append]
      refine ⟨hc.childNodup (p1, cur) (getNode_eq_some_mem hgx), hndnp', ?_⟩
      intro a ha hb
      obtain ⟨-, cn, hgc, hcpar⟩ :=
        hc.childMem (p1, cur) (getNode_eq_some_mem hgx) a ha
      have hmem := ((hiff a).mp hb).1
      obtain ⟨-, cn2, hgc2, hcpar2⟩ :=
        hc.childMem (npid, np) (getNode_eq_some_mem hgnp) a hmem
      rw [hgc] at hgc2
      cases Option.some.inj hgc2
      rw [hcpar] at hcpar2
      exact hnx (Option.some.inj hcpar2).symm
    · by_cases hpnp : p1 = npid
      · subst hpnp
        have he := mem_eq_of_getNode hndE hp hgnpE
        subst he
        simp
      · have hp1k : p1 ∈ keys s := by
          rw [← hkeysE]
          exact getNode_mem_keys (getNode_of_mem_nodup hndE hp)
        cases hgj : getNode s p1 with
        | none =>
            have := getNode_isSome_of_mem_keys hp1k
            rw [hgj] at this
            simp at this
        | some nj =>
            obtain ⟨nj', hgj', -, -, -, hndj, -⟩ := hnodes p1 hpx hpnp nj hgj
            have he := mem_eq_of_getNode hndE hp hgj'
            subst he
            exact hndj
  · -- plink
    intro p hp hne
    obtain ⟨p1, p2⟩ := p
    by_cases hpx : p1 = x
    · subst hpx
      have he := mem_eq_of_getNode hndE hp hgxE
      subst he
      refine ⟨npid, _, rfl, hgnpE, ?_⟩
      simp
    · by_cases hpnp : p1 = npid
      · subst hpnp
        have he := mem_eq_of_getNode hndE hp hgnpE
        subst he
        obtain ⟨w, nw, hw, hgw, hmemw⟩ :=
          hc.plink (p1, np) (getNode_eq_some_mem hgnp) hne
        have hwnp : w ≠ p1 := by
          intro hcon
          rw [hcon, hgnp] at hgw
          cases Option.some.inj hgw
          obtain ⟨-, cn, hgc, hcpar⟩ :=
            hc.childMem (p1, np) (getNode_eq_some_mem hgnp) p1 hmemw
          have hpp : parentOf s p1 = some p1 := by
            rw [parentOf_eq_parent hgc, hcpar]
          have hfix : parIter s 1 p1 = some p1 := by
            rw [parIter_succ_of_parent 0 hpp, parIter_zero]
          exact absurd (hc.cycle_zero (getNode_mem_keys hgnp) hfix) (by omega)
        obtain ⟨nw', hgw', hmem'⟩ := htmem p1 w nw hnx hwnp hgw hmemw
        exact ⟨w, nw', hparnp.trans hw, hgw', hmem'⟩
      · have hp1k : p1 ∈ keys s := by
          rw [← hkeysE]
          exact getNode_mem_keys (getNode_of_mem_nodup hndE hp)
        cases hgj : getNode s p1 with
        | none =>
            have := getNode_isSome_of_mem_keys hp1k
            rw [hgj] at this
            simp at this
        | some nj =>
            obtain ⟨nj', hgj', -, -, hdisj, -, -⟩ := hnodes p1 hpx hpnp nj hgj
            have he := mem_eq_of_getNode hndE hp hgj'
            subst he
            rcases hdisj with ⟨hm, hpj⟩ | ⟨hnm, hpj⟩
            · refine ⟨x, _, hpj, hgxE, ?_⟩
              exact List.mem_append_right _ hm
            · obtain ⟨w, nw, hw, hgw, hmemw⟩ :=
                hc.plink (p1, nj) (getNode_eq_some_mem hgj) hne
              have hwnp : w ≠ npid := by
                intro hcon
                rw [hcon, hgnp] at hgw
                cases Option.some.inj hgw
                exact hnm ((hiff p1).mpr ⟨hmemw, hpx⟩)
              obtain ⟨nw', hgw', hmem'⟩ := htmem p1 w nw hpx hwnp hgw hmemw
              exact ⟨w, nw', hpj.trans hw, hgw', hmem'⟩
  · -- rooted
    intro p hp
    obtain ⟨p1, p2⟩ := p
    have hp1k : p1 ∈ keys s := by
      rw [← hkeysE]
      exact getNode_mem_keys (getNode_of_mem_nodup hndE hp)
    exact hrootallE p1 hp1k

theorem parentOf_relink_ne (s : Streams) {cp npid x : Nat} (hxn : npid ≠ x) :
    ∀ j, j ≠ x → parentOf (add_child (remove_child_core s cp x) npid x) j =
      parentOf s j := by
  intro j hj
  by_cases hjn : j = npid
  · subst hjn
    unfold parentOf
    rw [getNode_add_child_pid _ (Ne.symm hxn)]
    by_cases hjc : j = cp
    · subst hjc
      rw [getNode_remove_child_core_pid]
      cases getNode s j <;> rfl
    · rw [getNode_remove_child_core_other _ hjc]
      cases getNode s j <;> rfl
  · unfold parentOf
    rw [getNode_add_child_other _ hjn hj]
    by_cases hjc : j = cp
    · subst hjc
      rw [getNode_remove_child_core_pid]
      cases getNode s j <;> rfl
    · rw [getNode_remove_child_core_other _ hjc]

/-- `reprioFinish` (detach from the current parent, reattach beneath `npid`,
exclusively or not) preserves the invariant when the new parent exists and its
ancestor chain avoids the moved stream. -/
theorem CInv_reprioFinish {s : Streams} {id npid : Nat} (ex : Bool) {np : Stream}
    (hc : CInv s) (hid0 : id ≠ 0)
    (hgnp : getNode s npid = some np) (hnx : npid ≠ id)
    (havoid : ∀ m v, parIter s m npid = some v → v ≠ id) :
    CInv (reprioFinish s id npid ex).1 := by
  unfold reprioFinish
  cases hgid : getNode s id with
  | none => exact hc
  | some cur =>
      obtain ⟨cp, ncp, hcp0, hgcp, hmemcp⟩ :=
        hc.plink (id, cur) (getNode_eq_some_mem hgid) hid0
      have hcp : cur.parent = some cp := hcp0
      have hids : cur.stream_id = id := hc.ids (id, cur) (getNode_eq_some_mem hgid)
      have hrc : remove_child s cp cur false = remove_child_core s cp id := by
        unfold remove_child
        rw [hgcp, hids]
        rfl
      show CInv ((match cur.parent with
        | none => (s, some PyErr.attributeError)
        | some cp =>
            let s₁ := remove_child s cp cur false
            if ex then (add_child_exclusive s₁ npid id, none)
            else (add_child s₁ npid id, none)).1)
      rw [hcp]
      cases ex with
      | true =>
          show CInv (add_child_exclusive (remove_child s cp cur false) npid id)
          rw [hrc]
          exact CInv_relink_exclusive hc hid0 hgid hcp hgnp hnx
            (hc.rooted_of_mem (getNode_mem_keys hgnp)) havoid
      | false =>
          show CInv (add_child (remove_child s cp cur false) npid id)
          rw [hrc]
          exact CInv_relink hc hid0 hgid hcp hgnp hnx
            (hc.rooted_of_mem (getNode_mem_keys hgnp)) havoid

/-- `reprioritize` preserves the structural invariant for every call that
never targets the root, never makes a stream depend on itself, and does not
trigger the stale-children cycle repair (the `repairStale` guard). -/
theorem CInv_reprioritize (s : Streams) (id : Nat) (dep : Option Nat)
    (w : Nat) (ex : Bool) (hc : CInv s) (hid0 : id ≠ 0)
    (hdep : dep ≠ some id) (hrs : repairStale s id dep = false) :
    CInv (reprioritize s id dep w ex).1 := by
  cases hgid : getNode s id with
  | none =>
      unfold reprioritize
      rw [hgid]
      exact hc
  | some n0 =>
      have hskel1 : ∀ i,
          (getNode (updNode s id fun n => { n with weight := w }) i).map
            (fun n => (n.stream_id, n.parent, n.children)) =
          (getNode s i).map (fun n => (n.stream_id, n.parent, n.children)) := by
        intro i
        by_cases hi : i = id
        · subst hi
          rw [getNode_updNode_self]
          cases getNode s i <;> simp
        · rw [getNode_updNode_ne _ _ hi]
      have hc1 : CInv (updNode s id fun n => { n with weight := w }) := by
        refine CInv_transfer (keys_updNode ..) hskel1 ?_ hc
        unfold activeOf
        rw [getNode_updNode_ne _ _ (Ne.symm hid0)]
      have hpar1 : ∀ j, parentOf (updNode s id fun n => { n with weight := w }) j =
          parentOf s j := parentOf_congr_of_skel hskel1
      have hiter1 : ∀ k i,
          parIter (updNode s id fun n => { n with weight := w }) k i =
            parIter s k i := parIter_congr hpar1
      have hfin0 : CInv (reprioFinish (updNode s id fun n => { n with weight := w })
          id 0 ex).1 := by
        obtain ⟨r, hr, hrp, hra⟩ := hc1.root0
        refine CInv_reprioFinish ex hc1 hid0 hr (fun hcon => hid0 hcon.symm) ?_
        intro m v hv
        cases m with
        | zero =>
            rw [parIter_zero] at hv
            cases hv
            exact fun hcon => hid0 hcon.symm
        | succ m =>
            rw [parIter_succ_of_none m hc1.parent0] at hv
            exact Option.noConfusion hv
      unfold reprioritize
      rw [hgid]
      cases dep with
      | none => exact hfin0
      | some d =>
          by_cases hd0 : d = 0
          · subst hd0
            simp only [if_pos rfl]
            exact hfin0
          · have hdne : d ≠ id := fun hcon => hdep (by rw [hcon])
            simp only [if_neg hd0]
            cases hgd : getNode s d with
            | none => exact hc
            | some nd =>
                have hids_d : nd.stream_id = d := hc.ids (d, nd) (getNode_eq_some_mem hgd)
                have hdk : d ∈ keys s := getNode_mem_keys hgd
                have hgd1 : getNode (updNode s id fun n => { n with weight := w }) d =
                    some nd := by
                  rw [getNode_updNode_ne _ _ hdne]
                  exact hgd
                cases hsc : stream_cycle s d id with
                | error e =>
                    simp only [hsc, Except.map]
                    exact hc
                | ok cyc =>
                    cases cyc with
                    | false =>
                        simp only [hsc, Except.map, Bool.false_eq_true, if_false]
                        have hsc' : streamCycleGo s id 100 d = Except.ok false := hsc
                        obtain ⟨kc, hkc1, hkc0, havkc⟩ := streamCycleGo_false 100 d hsc'
                        refine CInv_reprioFinish ex hc1 hid0 hgd1 hdne ?_
                        intro m v hv
                        rw [hiter1] at hv
                        cases m with
                        | zero =>
                            rw [parIter_zero] at hv
                            cases hv
                            exact hdne
                        | succ m =>
                            by_cases hmk : m + 1 ≤ kc
                            · intro hcon
                              rw [hcon] at hv
                              exact havkc (m + 1) (by omega) hmk hv
                            · rw [parIter_none_past_zero hc.parent0 hkc0 (m + 1)
                                (by omega)] at hv
                              exact Option.noConfusion hv
                    | true =>
                        have hsc' : streamCycleGo s id 100 d = Except.ok true := hsc
                        obtain ⟨kc, hkc1, hkc⟩ := streamCycleGo_true 100 d hsc'
                        have hndnil : nd.children = [] := by
                          unfold repairStale at hrs
                          rw [hgid] at hrs
                          simp only [if_neg hd0, hgd, hsc] at hrs
                          simpa using hrs
                        obtain ⟨pnp, npnp, hpnp0, hgpnp, hdmem⟩ :=
                          hc.plink (d, nd) (getNode_eq_some_mem hgd) hd0
                        have hpnp : nd.parent = some pnp := hpnp0
                        obtain ⟨cp, ncp, hcp0, hgcp, hidmem⟩ :=
                          hc.plink (id, n0) (getNode_eq_some_mem hgid) hid0
                        have hcpn : n0.parent = some cp := hcp0
                        have hpid1 : parentOf s id = some cp := by
                          rw [parentOf_eq_parent hgid, hcpn]
                        have hcpid : cp ≠ id := by
                          intro hcon
                          have hfix : parIter s 1 id = some id := by
                            rw [parIter_succ_of_parent 0 hpid1, parIter_zero, hcon]
                          exact absurd (hc.cycle_zero (getNode_mem_keys hgid) hfix)
                            (by omega)
                        have hcpd : cp ≠ d := by
                          intro hcon
                          have hfix : parIter s (1 + kc) id = some id := by
                            rw [parIter_add s 1 kc id, parIter_succ_of_parent 0 hpid1,
                              parIter_zero]
                            show parIter s kc cp = some id
                            rw [hcon]
                            exact hkc
                          exact absurd (hc.cycle_zero (getNode_mem_keys hgid) hfix)
                            (by omega)
                        have havcp_d : ∀ m v, parIter s m cp = some v → v ≠ d := by
                          intro m v hv hcon
                          rw [hcon] at hv
                          have hfix : parIter s (1 + (m + kc)) id = some id := by
                            rw [parIter_add s 1 (m + kc) id,
                              parIter_succ_of_parent 0 hpid1, parIter_zero]
                            show parIter s (m + kc) cp = some id
                            rw [parIter_add s m kc cp, hv]
                            show parIter s kc d = some id
                            exact hkc
                          exact absurd (hc.cycle_zero (getNode_mem_keys hgid) hfix)
                            (by omega)
                        have havcp_id : ∀ m v, parIter s m cp = some v → v ≠ id := by
                          intro m v hv hcon
                          rw [hcon] at hv
                          have hfix : parIter s (1 + m) id = some id := by
                            rw [parIter_add s 1 m id,
                              parIter_succ_of_parent 0 hpid1, parIter_zero]
                            exact hv
                          exact absurd (hc.cycle_zero (getNode_mem_keys hgid) hfix)
                            (by omega)
                        have hdpnp : d ≠ pnp := by
                          intro hcon
                          have hp : parentOf s d = some d := by
                            rw [parentOf_eq_parent hgd, hpnp, ← hcon]
                          have hfix : parIter s 1 d = some d := by
                            rw [parIter_succ_of_parent 0 hp, parIter_zero]
                          exact absurd (hc.cycle_zero hdk hfix) (by omega)
                        have hgpnp1 : ∃ nn,
                            getNode (updNode s id fun n => { n with weight := w })
                              pnp = some nn := by
                          by_cases hpe : pnp = id
                          · subst hpe
                            rw [getNode_updNode_self, hgid]
                            exact ⟨_, rfl⟩
                          · rw [getNode_updNode_ne _ _ hpe]
                            exact ⟨npnp, hgpnp⟩
                        obtain ⟨nn, hgpnp1⟩ := hgpnp1
                        have hrc2 : remove_child
                            (updNode s id fun n => { n with weight := w }) pnp nd true =
                            remove_child_core
                              (updNode s id fun n => { n with weight := w }) pnp d := by
                          unfold remove_child
                          rw [hgpnp1, hids_d, hndnil]
                          rfl
                        have hgcp1 : getNode (updNode s id fun n => { n with weight := w })
                            cp = some ncp := by
                          rw [getNode_updNode_ne _ _ hcpid]
                          exact hgcp
                        have hk1 : rooted (updNode s id fun n => { n with weight := w })
                            cp := by
                          obtain ⟨k, hkk⟩ := hc.rooted_of_mem (getNode_mem_keys hgcp)
                          exact ⟨k, by rw [hiter1]; exact hkk⟩
                        have hs3 : CInv (add_child (remove_child_core
                            (updNode s id fun n => { n with weight := w }) pnp d) cp d) := by
                          refine CInv_relink hc1 hd0 hgd1 hpnp hgcp1 hcpd hk1 ?_
                          intro m v hv
                          rw [hiter1] at hv
                          exact havcp_d m v hv
                        have hgd3 : getNode (add_child (remove_child_core
                            (updNode s id fun n => { n with weight := w }) pnp d) cp d) d =
                            some { nd with parent := some cp } := by
                          rw [getNode_add_child_cid _ (fun hcon => hcpd hcon.symm),
                            getNode_remove_child_core_other _ hdpnp, hgd1]
                          rfl
                        have hpd3 : parentOf (add_child (remove_child_core
                            (updNode s id fun n => { n with weight := w }) pnp d) cp d) d =
                            some cp := by
                          rw [parentOf_eq_parent hgd3]
                        have hpar3 : ∀ j, j ≠ d →
                            parentOf (add_child (remove_child_core
                              (updNode s id fun n => { n with weight := w }) pnp d) cp d) j =
                            parentOf s j := by
                          intro j hj
                          rw [parentOf_relink_ne _ hcpd j hj, hpar1 j]
                        obtain ⟨k1, hk1s⟩ := hc.rooted_of_mem (getNode_mem_keys hgcp)
                        have h0d : (0 : Nat) ≠ d := fun hcon => hd0 hcon.symm
                        have hpar03 : parentOf (add_child (remove_child_core
                            (updNode s id fun n => { n with weight := w }) pnp d) cp d) 0 =
                            none := by
                          rw [hpar3 0 h0d, hc.parent0]
                        have havoid3 : ∀ m v, parIter (add_child (remove_child_core
                            (updNode s id fun n => { n with weight := w }) pnp d) cp d)
                            m d = some v → v ≠ id := by
                          intro m v hv
                          cases m with
                          | zero =>
                              rw [parIter_zero] at hv
                              cases hv
                              exact hdne
                          | succ m =>
                              rw [parIter_succ_of_parent m hpd3] at hv
                              by_cases hmk : m ≤ k1
                              · obtain ⟨wv, hwv⟩ := parIter_some_of_le hk1s m hmk
                                have hwv3 := parIter_eq_of_avoid (fun u => u = d)
                                  (fun j hj => hpar3 j hj) m cp wv hwv
                                  (fun k0 w0 hk0 hw0 hb => havcp_d k0 w0 hw0 hb)
                                rw [hwv3] at hv
                                cases Option.some.inj hv
                                exact havcp_id m _ hwv
                              · have h03 := parIter_eq_of_avoid (fun u => u = d)
                                  (fun j hj => hpar3 j hj) k1 cp 0 hk1s
                                  (fun k0 w0 hk0 hw0 hb => havcp_d k0 w0 hw0 hb)
                                rw [parIter_none_past_zero hpar03 h03 m (by omega)] at hv
                                exact Option.noConfusion hv
                        have hgid2 : ∃ cur2, getNode (remove_child_core
                            (updNode s id fun n => { n with weight := w }) pnp d) id =
                            some cur2 ∧ cur2.parent = some cp := by
                          by_cases hip : id = pnp
                          · refine ⟨{ n0 with weight := w, children := n0.children.erase d, child_queue := (qdrain n0.child_queue).filter fun e => e.2 ≠ d }, ?_, hcpn⟩
                            rw [← hip, getNode_remove_child_core_pid,
                              getNode_updNode_self, hgid]
                            rfl
                          · refine ⟨{ n0 with weight := w }, ?_, hcpn⟩
                            rw [getNode_remove_child_core_other _ hip,
                              getNode_updNode_self, hgid]
                            rfl
                        obtain ⟨cur2, hgid2, hcur2p⟩ := hgid2
                        have hfin3 : CInv (reprioFinish (add_child (remove_child_core
                            (updNode s id fun n => { n with weight := w }) pnp d) cp d)
                            id d ex).1 :=
                          CInv_reprioFinish ex hs3 hid0 hgd3 hdne havoid3
                        simp only [hsc, Except.map, if_pos rfl, hgd1, hpnp, hrc2,
                          hgid2, hcur2p]
                        exact hfin3

/-! ### The root invariant over all guarded reachable states (C8) -/

theorem CInv_initTree : CInv initTree := by
  refine ⟨?_, ?_, ?_, ?_, ?_, ?_, ?_⟩
  · simp [initTree, keys]
  · intro p hp
    simp [initTree] at hp
    subst hp
    rfl
  · exact ⟨_, rfl, rfl, rfl⟩
  · intro p hp c hcm
    simp [initTree] at hp
    subst hp
    simp [mkStream] at hcm
  · intro p hp
    simp [initTree] at hp
    subst hp
    simp [mkStream]
  · intro p hp hne
    simp [initTree] at hp
    subst hp
    simp at hne
  · intro p hp
    simp [initTree] at hp
    subst hp
    exact ⟨0, rfl⟩

theorem CInv_reach {s : Streams} (h : ReachS s) : CInv s := by
  induction h with
  | init => exact CInv_initTree
  | insert s id dep w ex _ ih => exact CInv_insert s id dep w ex ih
  | reprio s id dep w ex _ hid0 hdep hrs ih =>
      exact CInv_reprioritize s id dep w ex ih hid0 hdep hrs
  | remove s id _ hid0 ih => exact CInv_remove s id hid0 ih
  | block s id _ ih => exact CInv_block s id ih
  | unblock s id _ hid0 ih => exact CInv_unblock s id hid0 ih
  | next s fuel _ ih => exact CInv_pnext fuel s ih

/-- C8 (amended): after every sequence of public operations that never
passes the reserved id 0 to `reprioritise`, `remove_stream` or `unblock`,
never makes a stream depend on itself, and never triggers the stale-children
cycle repair, the root `streams[0]` exists, has no parent, is inactive, and
is an ancestor of every node in the map (every node's parent chain reaches
0).  Unguarded, the claim fails: `remove_stream(0)` pops the root before
raising `AttributeError`, and a cycle repair with a stale child list can
orphan a live stream — see the counterexample. -/
theorem c8_root_invariant (s : Streams) (h : ReachS s) :
    ∃ r, getNode s 0 = some r ∧ r.parent = none ∧ r.active = false ∧
      ∀ i ∈ keys s, rooted s i := by
  have hc := CInv_reach h
  obtain ⟨r, hr, hp, ha⟩ := hc.root0
  exact ⟨r, hr, hp, ha, fun i hi => hc.rooted_of_mem hi⟩

theorem c8_witness :
    ∃ r, getNode (reprioritize (insert_stream (insert_stream initTree 1 none 16
        false).1 2 (some 1) 16 false).1 2 (some 0) 8 false).1 0 = some r ∧
      r.parent = none ∧ r.active = false ∧
      ∀ i ∈ keys (reprioritize (insert_stream (insert_stream initTree 1 none 16
        false).1 2 (some 1) 16 false).1 2 (some 0) 8 false).1,
        rooted (reprioritize (insert_stream (insert_stream initTree 1 none 16
          false).1 2 (some 1) 16 false).1 2 (some 0) 8 false).1 i :=
  c8_root_invariant _
    (ReachS.reprio _ 2 (some 0) 8 false
      (ReachS.insert _ 2 (some 1) 16 false
        (ReachS.insert _ 1 none 16 false ReachS.init))
      (by decide) (by decide) (by decide))

/-! ### Queue algebra: `get` removes one entry, draining is a permutation -/

theorem qmin_foldl_mem : ∀ (xs : List (Nat × Nat)) (x : Nat × Nat),
    xs.foldl (fun m y => if qlt y m then y else m) x ∈ x :: xs := by
  intro xs
  induction xs with
  | nil => intro x; simp
  | cons y ys ih =>
      intro x
      rw [List.foldl_cons]
      have h := ih (if qlt y x then y else x)
      rcases List.mem_cons.mp h with h1 | h2
      · by_cases hq : qlt y x = true
        · rw [if_pos hq] at h1 ⊢
          simp [h1]
        · rw [if_neg hq] at h1 ⊢
          simp [h1]
      · simp [List.mem_cons.mpr (Or.inr h2)]

theorem qmin_mem {q : List (Nat × Nat)} {m : Nat × Nat}
    (h : qmin q = some m) : m ∈ q := by
  cases q with
  | nil => exact Option.noConfusion h
  | cons x xs =>
      unfold qmin at h
      cases Option.some.inj h
      exact qmin_foldl_mem xs x

theorem perm_cons_erase_q : ∀ (q : List (Nat × Nat)) (m : Nat × Nat), m ∈ q →
    q.Perm (m :: q.erase m) := by
  intro q
  induction q with
  | nil => intro m h; simp at h
  | cons x xs ih =>
      intro m h
      by_cases hx : x = m
      · subst hx
        rw [List.erase_cons_head]
      · have hxm : m ∈ xs := by
          rcases List.mem_cons.mp h with h1 | h2
          · exact absurd h1.symm hx
          · exact h2
        rw [List.erase_cons_tail (by simp [hx])]
        exact ((ih m hxm).cons x).trans (List.Perm.swap m x _)

theorem qget_perm {q : List (Nat × Nat)} {e : Nat × Nat} {q' : List (Nat × Nat)}
    (h : qget q = some (e, q')) : q.Perm (e :: q') := by
  unfold qget at h
  cases hm : qmin q with
  | none => rw [hm] at h; exact Option.noConfusion h
  | some m =>
      rw [hm] at h
      cases Option.some.inj h
      exact perm_cons_erase_q q _ (qmin_mem hm)

theorem qget_eq_none {q : List (Nat × Nat)} (h : qget q = none) : q = [] := by
  cases q with
  | nil => rfl
  | cons x xs => simp [qget, qmin] at h

theorem qdrainAux_perm : ∀ (k : Nat) (q : List (Nat × Nat)), q.length ≤ k →
    (qdrainAux k q).Perm q := by
  intro k
  induction k with
  | zero =>
      intro q hq
      rw [List.length_eq_zero.mp (Nat.le_zero.mp hq)]
      exact List.Perm.refl _
  | succ k ih =>
      intro q hq
      cases hg : qget q with
      | none =>
          rw [qget_eq_none hg]
          exact List.Perm.refl _
      | some pr =>
          obtain ⟨m, q'⟩ := pr
          have hperm := qget_perm hg
          have hlen : q'.length ≤ k := by
            have := hperm.length_eq
            simp at this
            omega
          have hstep : qdrainAux (k + 1) q = m :: qdrainAux k q' := by
            conv_lhs => rw [qdrainAux]
            rw [hg]
          rw [hstep]
          exact ((ih q' hlen).cons m).trans hperm.symm

theorem qdrain_perm (q : List (Nat × Nat)) : (qdrain q).Perm q :=
  qdrainAux_perm q.length q (le_refl _)

/-! ### Scheduling invariant transfer -/

theorem QInv_transfer_skel {s s' : Streams} (hkeys : keys s' = keys s)
    (hskel : ∀ i, (getNode s' i).map nodeSkel = (getNode s i).map nodeSkel)
    (hq : ∀ i, (queueIds s' i).Perm (queueIds s i))
    (h : QInv s) : QInv s' := by
  have hstr : CInv s' :=
    CInv_transfer hkeys (nodeSkel_proj hskel) (activeOf_of_nodeSkel hskel 0) h.str
  have hpair : ∀ {i n'}, getNode s' i = some n' →
      ∃ n, getNode s i = some n ∧ n.children = n'.children ∧ n.weight = n'.weight := by
    intro i n' hg'
    have := hskel i
    rw [hg'] at this
    cases hg : getNode s i with
    | none => rw [hg] at this; simp [nodeSkel] at this
    | some n =>
        rw [hg] at this
        simp [nodeSkel] at this
        exact ⟨n, rfl, this.2.2.1.symm, this.2.2.2.2.symm⟩
  refine ⟨hstr, ?_, ?_⟩
  · intro p hp
    obtain ⟨p1, p2⟩ := p
    have hg' : getNode s' p1 = some p2 := getNode_of_mem_nodup hstr.nodup hp
    obtain ⟨n, hg, hch, -⟩ := hpair hg'
    have hq1 : (queueIds s' p1).Perm (queueIds s p1) := hq p1
    unfold queueIds at hq1
    rw [hg', hg] at hq1
    exact (hq1.trans (h.queuePerm (p1, n) (getNode_eq_some_mem hg))).trans
      (hch ▸ List.Perm.refl _)
  · intro p hp
    obtain ⟨p1, p2⟩ := p
    have hg' : getNode s' p1 = some p2 := getNode_of_mem_nodup hstr.nodup hp
    obtain ⟨n, hg, -, hw⟩ := hpair hg'
    rw [← hw]
    exact h.weights (p1, n) (getNode_eq_some_mem hg)

/-! ### The scheduling invariant survives the mutating operations -/

theorem QInv_insert_plain {s : Streams} {id dep w : Nat} {pn : Stream}
    (hq : QInv s) (hw : 1 ≤ w) (hgi : getNode s id = none)
    (hgd : getNode s dep = some pn) :
    QInv (add_child (putNode s id (mkStream id w)) dep id) := by
  have hc := hq.str
  have hstr : CInv (add_child (putNode s id (mkStream id w)) dep id) :=
    CInv_insert_plain hc hgi hgd
  have hidk : id ∉ keys s := by
    intro hm
    have := getNode_isSome_of_mem_keys hm
    rw [hgi] at this
    simp at this
  have hdi : dep ≠ id := fun hcon => hidk (hcon ▸ getNode_mem_keys hgd)
  have hg₀ : ∀ j, j ≠ id → getNode (putNode s id (mkStream id w)) j = getNode s j :=
    fun j hj => getNode_putNode_ne _ _ hj
  have hgid : getNode (add_child (putNode s id (mkStream id w)) dep id) id =
      some { mkStream id w with parent := some dep } := by
    rw [getNode_add_child_cid _ (Ne.symm hdi), getNode_putNode_self _ hidk]
    rfl
  have hgdep : getNode (add_child (putNode s id (mkStream id w)) dep id) dep =
      some { pn with children := pn.children ++ [id],
                     child_queue := pn.child_queue ++ [(pn.last_weight, id)] } := by
    rw [getNode_add_child_pid _ (Ne.symm hdi), hg₀ dep hdi, hgd]
    rfl
  have hgoth : ∀ j, j ≠ id → j ≠ dep →
      getNode (add_child (putNode s id (mkStream id w)) dep id) j = getNode s j := by
    intro j hj1 hj2
    rw [getNode_add_child_other _ hj2 hj1, hg₀ j hj1]
  refine ⟨hstr, ?_, ?_⟩
  · intro p hp
    obtain ⟨p1, p2⟩ := p
    by_cases h1 : p1 = id
    · subst h1
      have he := mem_eq_of_getNode hstr.nodup hp hgid
      subst he
      simp [mkStream]
    · by_cases h2 : dep = p1
      · subst h2
        have he := mem_eq_of_getNode hstr.nodup hp hgdep
        subst he
        simp only [List.map_append]
        exact (hq.queuePerm (dep, pn) (getNode_eq_some_mem hgd)).append_right _
      · have hg' : getNode s p1 = some p2 := by
          rw [← hgoth p1 h1 (fun hcon => h2 hcon.symm)]
          exact getNode_of_mem_nodup hstr.nodup hp
        exact hq.queuePerm (p1, p2) (getNode_eq_some_mem hg')
  · intro p hp
    obtain ⟨p1, p2⟩ := p
    by_cases h1 : p1 = id
    · subst h1
      have he := mem_eq_of_getNode hstr.nodup hp hgid
      subst he
      exact hw
    · by_cases h2 : dep = p1
      · subst h2
        have he := mem_eq_of_getNode hstr.nodup hp hgdep
        subst he
        exact hq.weights (dep, pn) (getNode_eq_some_mem hgd)
      · have hg' : getNode s p1 = some p2 := by
          rw [← hgoth p1 h1 (fun hcon => h2 hcon.symm)]
          exact getNode_of_mem_nodup hstr.nodup hp
        exact hq.weights (p1, p2) (getNode_eq_some_mem hg')

theorem QInv_insert_exclusive {s : Streams} {id dep w : Nat} {pn : Stream}
    (hq : QInv s) (hw : 1 ≤ w) (hgi : getNode s id = none)
    (hgd : getNode s dep = some pn) :
    QInv (add_child_exclusive (putNode s id (mkStream id w)) dep id) := by
  have hc := hq.str
  have hstr : CInv (add_child_exclusive (putNode s id (mkStream id w)) dep id) :=
    CInv_insert_exclusive hc hgi hgd
  have hidk : id ∉ keys s := by
    intro hm
    have := getNode_isSome_of_mem_keys hm
    rw [hgi] at this
    simp at this
  have hdi : dep ≠ id := fun hcon => hidk (hcon ▸ getNode_mem_keys hgd)
  have hgs₀dep : getNode (putNode s id (mkStream id w)) dep = some pn := by
    rw [getNode_putNode_ne _ _ hdi]
    exact hgd
  have hch : ∀ c ∈ pn.children,
      c ≠ 0 ∧ ∃ cn, getNode s c = some cn ∧ cn.parent = some dep :=
    fun c hm => hc.childMem (dep, pn) (getNode_eq_some_mem hgd) c hm
  have hchkeys : ∀ c ∈ pn.children, c ≠ id := by
    intro c hm hcon
    obtain ⟨-, cn, hgc, -⟩ := hch c hm
    exact hidk (hcon ▸ getNode_mem_keys hgc)
  have hdnc : dep ∉ pn.children := by
    intro hm
    obtain ⟨-, cn, hgc, hcp⟩ := hch dep hm
    have hpd : parentOf s dep = some dep := by
      rw [parentOf_eq_parent hgc, hcp]
    have hfix : parIter s 1 dep = some dep := by
      rw [parIter_succ_of_parent 0 hpd, parIter_zero]
    exact absurd (hc.cycle_zero (getNode_mem_keys hgd) hfix) (by omega)
  have hinc : id ∉ pn.children := fun hm => (hchkeys id hm) rfl
  have hgdep : getNode (add_child_exclusive (putNode s id (mkStream id w)) dep id)
      dep = some { pn with children := [id], child_queue := [(0, id)],
                           last_weight := 0 } :=
    getNode_add_child_exclusive_pid hgs₀dep (Ne.symm hdi) hdnc
  have hgid : getNode (add_child_exclusive (putNode s id (mkStream id w)) dep id)
      id = some { mkStream id w with parent := some dep, children := pn.children,
                                     child_queue := (pn.children.map fun oc => (0, oc)) } := by
    rw [getNode_add_child_exclusive_cid hgs₀dep (Ne.symm hdi) hinc,
      getNode_putNode_self _ hidk]
    rfl
  have hgmem : ∀ j ∈ pn.children, ∀ {nj}, getNode s j = some nj →
      getNode (add_child_exclusive (putNode s id (mkStream id w)) dep id) j =
        some { nj with parent := some id } := by
    intro j hm nj hgj
    have hji : j ≠ id := hchkeys j hm
    have hjd : j ≠ dep := fun hcon => hdnc (hcon ▸ hm)
    rw [getNode_add_child_exclusive_mem hgs₀dep hinc hm hjd hji,
      getNode_putNode_ne _ _ hji, hgj]
    rfl
  have hgoth : ∀ j, j ≠ id → j ≠ dep → j ∉ pn.children →
      getNode (add_child_exclusive (putNode s id (mkStream id w)) dep id) j =
        getNode s j := by
    intro j hj1 hj2 hj3
    rw [getNode_add_child_exclusive_other hgs₀dep hj2 hj1 hj3,
      getNode_putNode_ne _ _ hj1]
  have hnode : ∀ p1 p2, (p1, p2) ∈
      (add_child_exclusive (putNode s id (mkStream id w)) dep id) →
      p1 ≠ id → p1 ≠ dep →
      (p2.child_queue.map Prod.snd).Perm p2.children ∧ 1 ≤ p2.weight := by
    intro p1 p2 hp hp1i hp1d
    by_cases h3 : p1 ∈ pn.children
    · obtain ⟨-, cn, hgc, -⟩ := hch p1 h3
      have he := mem_eq_of_getNode hstr.nodup hp (hgmem p1 h3 hgc)
      subst he
      exact ⟨hq.queuePerm (p1, cn) (getNode_eq_some_mem hgc),
        hq.weights (p1, cn) (getNode_eq_some_mem hgc)⟩
    · have hg' : getNode s p1 = some p2 := by
        rw [← hgoth p1 hp1i hp1d h3]
        exact getNode_of_mem_nodup hstr.nodup hp
      exact ⟨hq.queuePerm (p1, p2) (getNode_eq_some_mem hg'),
        hq.weights (p1, p2) (getNode_eq_some_mem hg')⟩
  refine ⟨hstr, ?_, ?_⟩
  · intro p hp
    obtain ⟨p1, p2⟩ := p
    by_cases h1 : p1 = id
    · subst h1
      have he := mem_eq_of_getNode hstr.nodup hp hgid
      subst he
      simp
    · by_cases h2 : dep = p1
      · subst h2
        have he := mem_eq_of_getNode hstr.nodup hp hgdep
        subst he
        simp
      · exact (hnode p1 p2 hp h1 (fun hcon => h2 hcon.symm)).1
  · intro p hp
    obtain ⟨p1, p2⟩ := p
    by_cases h1 : p1 = id
    · subst h1
      have he := mem_eq_of_getNode hstr.nodup hp hgid
      subst he
      exact hw
    · by_cases h2 : dep = p1
      · subst h2
        have he := mem_eq_of_getNode hstr.nodup hp hgdep
        subst he
        exact hq.weights (dep, pn) (getNode_eq_some_mem hgd)
      · exact (hnode p1 p2 hp h1 (fun hcon => h2 hcon.symm)).2

theorem QInv_insert (s : Streams) (stream_id : Nat) (depends_on : Option Nat)
    (weight : Nat) (exclusive : Bool) (hq : QInv s) (hw : 1 ≤ weight) :
    QInv (insert_stream s stream_id depends_on weight exclusive).1 := by
  unfold insert_stream
  cases hgi : getNode s stream_id with
  | some n => simp only [hgi, Option.isSome_some, if_true]; exact hq
  | none =>
      simp only [hgi, Option.isSome_none, Bool.false_eq_true, if_false]
      cases exclusive with
      | true =>
          simp only [if_true]
          cases depends_on with
          | none => exact hq
          | some d =>
              show QInv (match getNode s d with
                | none => (s, some PyErr.keyError)
                | some _ =>
                    (add_child_exclusive (putNode s stream_id
                      (mkStream stream_id weight)) d stream_id, none)).1
              cases hgd : getNode s d with
              | none => exact hq
              | some pn => exact QInv_insert_exclusive hq hw hgi hgd
      | false =>
          simp only [Bool.false_eq_true, if_false]
          cases depends_on with
          | none =>
              show QInv (match getNode s 0 with
                | none => (s, some PyErr.keyError)
                | some _ =>
                    (add_child (putNode s stream_id
                      (mkStream stream_id weight)) 0 stream_id, none)).1
              cases hg0 : getNode s 0 with
              | none => exact hq
              | some pn => exact QInv_insert_plain hq hw hgi hg0
          | some d =>
              show QInv (match getNode s d with
                | none => (s, some PyErr.keyError)
                | some _ =>
                    (add_child (putNode s stream_id
                      (mkStream stream_id weight)) d stream_id, none)).1
              cases hgd : getNode s d with
              | none => exact hq
              | some pn => exact QInv_insert_plain hq hw hgi hgd

theorem map_snd_filter_ne (l : List (Nat × Nat)) (x : Nat) :
    (l.filter fun e => e.2 ≠ x).map Prod.snd =
      (l.map Prod.snd).filter (fun b => b ≠ x) := by
  induction l with
  | nil => rfl
  | cons e es ih =>
      by_cases h : e.2 = x <;> simp [List.filter_cons, h] <;> simpa using ih

theorem nodup_erase_eq_filter_ne (l : List Nat) (h : l.Nodup) (x : Nat) :
    l.erase x = l.filter (fun b => b ≠ x) := by
  rw [h.erase_eq_filter x]
  congr 1
  funext b
  by_cases hbx : b = x <;> simp [hbx]

theorem QInv_block (s : Streams) (id : Nat) (hq : QInv s) : QInv (block s id).1 := by
  have hstr : CInv (block s id).1 := CInv_block s id hq.str
  unfold block at hstr ⊢
  cases hg : getNode s id with
  | none => exact hq
  | some n =>
      rw [hg] at hstr
      refine ⟨hstr, ?_, ?_⟩ <;> intro p hp <;> obtain ⟨p1, p2⟩ := p
      · by_cases h1 : p1 = id
        · subst h1
          have hgid : getNode (updNode s p1 fun n => { n with active := false }) p1 =
              some { n with active := false } := by
            rw [getNode_updNode_self, hg]
            rfl
          have he := mem_eq_of_getNode hstr.nodup hp hgid
          subst he
          exact hq.queuePerm (p1, n) (getNode_eq_some_mem hg)
        · have hg' : getNode s p1 = some p2 := by
            have hx := getNode_of_mem_nodup hstr.nodup hp
            rwa [getNode_updNode_ne _ _ h1] at hx
          exact hq.queuePerm (p1, p2) (getNode_eq_some_mem hg')
      · by_cases h1 : p1 = id
        · subst h1
          have hgid : getNode (updNode s p1 fun n => { n with active := false }) p1 =
              some { n with active := false } := by
            rw [getNode_updNode_self, hg]
            rfl
          have he := mem_eq_of_getNode hstr.nodup hp hgid
          subst he
          exact hq.weights (p1, n) (getNode_eq_some_mem hg)
        · have hg' : getNode s p1 = some p2 := by
            have hx := getNode_of_mem_nodup hstr.nodup hp
            rwa [getNode_updNode_ne _ _ h1] at hx
          exact hq.weights (p1, p2) (getNode_eq_some_mem hg')

theorem QInv_unblock (s : Streams) (id : Nat) (hid : id ≠ 0) (hq : QInv s) :
    QInv (unblock s id).1 := by
  have hstr : CInv (unblock s id).1 := CInv_unblock s id hid hq.str
  unfold unblock at hstr ⊢
  cases hg : getNode s id with
  | none => exact hq
  | some n =>
      rw [hg] at hstr
      refine ⟨hstr, ?_, ?_⟩ <;> intro p hp <;> obtain ⟨p1, p2⟩ := p
      · by_cases h1 : p1 = id
        · subst h1
          have hgid : getNode (updNode s p1 fun n => { n with active := true }) p1 =
              some { n with active := true } := by
            rw [getNode_updNode_self, hg]
            rfl
          have he := mem_eq_of_getNode hstr.nodup hp hgid
          subst he
          exact hq.queuePerm (p1, n) (getNode_eq_some_mem hg)
        · have hg' : getNode s p1 = some p2 := by
            have hx := getNode_of_mem_nodup hstr.nodup hp
            rwa [getNode_updNode_ne _ _ h1] at hx
          exact hq.queuePerm (p1, p2) (getNode_eq_some_mem hg')
      · by_cases h1 : p1 = id
        · subst h1
          have hgid : getNode (updNode s p1 fun n => { n with active := true }) p1 =
              some { n with active := true } := by
            rw [getNode_updNode_self, hg]
            rfl
          have he := mem_eq_of_getNode hstr.nodup hp hgid
          subst he
          exact hq.weights (p1, n) (getNode_eq_some_mem hg)
        · have hg' : getNode s p1 = some p2 := by
            have hx := getNode_of_mem_nodup hstr.nodup hp
            rwa [getNode_updNode_ne _ _ h1] at hx
          exact hq.weights (p1, p2) (getNode_eq_some_mem hg')

theorem QInv_remove (s : Streams) (x : Nat) (hx0 : x ≠ 0) (hq : QInv s) :
    QInv (remove_stream s x).1 := by
  have hc := hq.str
  have hstr : CInv (remove_stream s x).1 := CInv_remove s x hx0 hc
  unfold remove_stream at hstr ⊢
  cases hgx : getNode s x with
  | none => exact hq
  | some child =>
      rw [hgx] at hstr
      obtain ⟨q, nq, hq0, hgq, hxq0⟩ :=
        hc.plink (x, child) (getNode_eq_some_mem hgx) hx0
      have hqp : child.parent = some q := hq0
      simp only [hqp] at hstr ⊢
      show QInv (remove_child (eraseNode s x) q child true)
      have hids : child.stream_id = x := hc.ids (x, child) (getNode_eq_some_mem hgx)
      have hpx : parentOf s x = some q := by rw [parentOf_eq_parent hgx, hqp]
      have hxk : x ∈ keys s := getNode_mem_keys hgx
      have hqx : q ≠ x := by
        intro hcon
        have hfix : parIter s 1 x = some x := by
          rw [parIter_succ_of_parent 0 hpx, parIter_zero, hcon]
        exact absurd (hc.cycle_zero hxk hfix) (by omega)
      have hg1 : ∀ j, j ≠ x → getNode (eraseNode s x) j = getNode s j :=
        fun j hj => getNode_eraseNode_ne s hj
      have hgq₁ : getNode (eraseNode s x) q = some nq := by
        rw [hg1 q hqx]
        exact hgq
      unfold remove_child at hstr ⊢
      rw [hgq₁] at hstr ⊢
      show QInv (child.children.foldl (fun acc gc => add_child acc q gc)
        (remove_child_core (eraseNode s x) q child.stream_id))
      rw [hids]
      rw [hids] at hstr
      have hstr2 : CInv (child.children.foldl (fun acc gc => add_child acc q gc)
          (remove_child_core (eraseNode s x) q x)) := hstr
      have hgcfact : ∀ gc ∈ child.children,
          gc ≠ 0 ∧ ∃ gn, getNode s gc = some gn ∧ gn.parent = some x :=
        fun gc hm => hc.childMem (x, child) (getNode_eq_some_mem hgx) gc hm
      have hgcx : ∀ gc ∈ child.children, gc ≠ x := by
        intro gc hm hcon
        obtain ⟨-, gn, hggn, hgp⟩ := hgcfact gc hm
        rw [hcon, hgx] at hggn
        cases Option.some.inj hggn
        rw [hqp] at hgp
        exact hqx (Option.some.inj hgp)
      have hgcq : q ∉ child.children := by
        intro hm
        obtain ⟨-, gn, hggn, hgp⟩ := hgcfact q hm
        rw [hgq] at hggn
        cases Option.some.inj hggn
        have hpq : parentOf s q = some x := by rw [parentOf_eq_parent hgq, hgp]
        have hfix : parIter s 2 x = some x := by
          rw [parIter_succ_of_parent 1 hpx, parIter_succ_of_parent 0 hpq, parIter_zero]
        exact absurd (hc.cycle_zero hxk hfix) (by omega)
      have hcoreq : getNode (remove_child_core (eraseNode s x) q x) q =
          some { nq with children := nq.children.erase x,
                         child_queue :=
                           (qdrain nq.child_queue).filter fun e => e.2 ≠ x } := by
        rw [getNode_remove_child_core_pid, hgq₁]
        rfl
      have hcoreoth : ∀ j, j ≠ q → j ≠ x →
          getNode (remove_child_core (eraseNode s x) q x) j = getNode s j := by
        intro j hjq hjx
        rw [getNode_remove_child_core_other _ hjq, hg1 j hjx]
      have hgq' : getNode (child.children.foldl (fun acc gc => add_child acc q gc)
            (remove_child_core (eraseNode s x) q x)) q =
          some { nq with children := nq.children.erase x ++ child.children,
                         child_queue :=
                           ((qdrain nq.child_queue).filter fun e => e.2 ≠ x)
                             ++ (child.children.map fun gc => (nq.last_weight, gc)) } := by
        rw [getNode_foldl_add_child_pid child.children hgcq, hcoreq]
        rfl
      have hggc : ∀ gc ∈ child.children, ∀ {gn : Stream}, getNode s gc = some gn →
          getNode (child.children.foldl (fun acc gc => add_child acc q gc)
            (remove_child_core (eraseNode s x) q x)) gc =
            some { gn with parent := some q } := by
        intro gc hm gn hggn
        have hgcq' : gc ≠ q := fun hcon => hgcq (hcon ▸ hm)
        rw [getNode_foldl_add_child_mem child.children hgcq hm hgcq',
          hcoreoth gc hgcq' (hgcx gc hm), hggn]
        rfl
      have hgoth' : ∀ j, j ≠ q → j ∉ child.children → j ≠ x →
          getNode (child.children.foldl (fun acc gc => add_child acc q gc)
            (remove_child_core (eraseNode s x) q x)) j = getNode s j := by
        intro j hjq hjm hjx
        rw [getNode_foldl_add_child_other child.children hjq hjm, hcoreoth j hjq hjx]
      have hkeys' : keys (child.children.foldl (fun acc gc => add_child acc q gc)
            (remove_child_core (eraseNode s x) q x)) = (keys s).erase x := by
        rw [keys_foldl_add_child, keys_remove_child_core, keys_eraseNode]
      have hmemkeys : ∀ {p1 : Nat} {p2 : Stream},
          (p1, p2) ∈ (child.children.foldl (fun acc gc => add_child acc q gc)
            (remove_child_core (eraseNode s x) q x)) → p1 ≠ x ∧ p1 ∈ keys s := by
        intro p1 p2 hp
        have hm := getNode_mem_keys (getNode_of_mem_nodup hstr2.nodup hp)
        rw [hkeys'] at hm
        exact (hc.nodup.mem_erase_iff).mp hm
      have hqperm : (((qdrain nq.child_queue).filter fun e => e.2 ≠ x).map Prod.snd
            ++ (child.children.map fun gc => (nq.last_weight, gc)).map Prod.snd).Perm
          (nq.children.erase x ++ child.children) := by
        have h1 : (((qdrain nq.child_queue).filter fun e => e.2 ≠ x).map
            Prod.snd).Perm (nq.children.erase x) := by
          rw [map_snd_filter_ne]
          have h2 : ((qdrain nq.child_queue).map Prod.snd).Perm
              (nq.child_queue.map Prod.snd) := (qdrain_perm _).map _
          have h3 := (h2.trans (hq.queuePerm (q, nq)
            (getNode_eq_some_mem hgq))).filter (fun b => b ≠ x)
          rw [nodup_erase_eq_filter_ne _ (hc.childNodup (q, nq)
            (getNode_eq_some_mem hgq)) x]
          exact h3
        have h4 : ((child.children.map fun gc => (nq.last_weight, gc)).map
            Prod.snd) = child.children := by
          simp
        rw [h4]
        exact h1.append_right _
      refine ⟨hstr, ?_, ?_⟩ <;> intro p hp <;> obtain ⟨p1, p2⟩ := p <;>
        obtain ⟨hp1x, hp1k⟩ := hmemkeys hp
      · by_cases h1 : p1 = q
        · subst h1
          have he := mem_eq_of_getNode hstr2.nodup hp hgq'
          subst he
          simp only [List.map_append]
          exact hqperm
        · by_cases h3 : p1 ∈ child.children
          · obtain ⟨-, gn, hggn, -⟩ := hgcfact p1 h3
            have he := mem_eq_of_getNode hstr2.nodup hp (hggc p1 h3 hggn)
            subst he
            exact hq.queuePerm (p1, gn) (getNode_eq_some_mem hggn)
          · have hg' : getNode s p1 = some p2 := by
              rw [← hgoth' p1 h1 h3 hp1x]
              exact getNode_of_mem_nodup hstr2.nodup hp
            exact hq.queuePerm (p1, p2) (getNode_eq_some_mem hg')
      · by_cases h1 : p1 = q
        · subst h1
          have he := mem_eq_of_getNode hstr2.nodup hp hgq'
          subst he
          exact hq.weights (p1, nq) (getNode_eq_some_mem hgq)
        · by_cases h3 : p1 ∈ child.children
          · obtain ⟨-, gn, hggn, -⟩ := hgcfact p1 h3
            have he := mem_eq_of_getNode hstr2.nodup hp (hggc p1 h3 hggn)
            subst he
            exact hq.weights (p1, gn) (getNode_eq_some_mem hggn)
          · have hg' : getNode s p1 = some p2 := by
              rw [← hgoth' p1 h1 h3 hp1x]
              exact getNode_of_mem_nodup hstr2.nodup hp
            exact hq.weights (p1, p2) (getNode_eq_some_mem hg')

theorem QInv_relink {s : Streams} {x npid cp : Nat} {cur np : Stream}
    (hq : QInv s) (hx0 : x ≠ 0) (hgx : getNode s x = some cur)
    (hcp : cur.parent = some cp) (hgnp : getNode s npid = some np)
    (hnx : npid ≠ x) (hk : rooted s npid)
    (havoid : ∀ m v, parIter s m npid = some v → v ≠ x) :
    QInv (add_child (remove_child_core s cp x) npid x) := by
  have hc := hq.str
  have hstr : CInv (add_child (remove_child_core s cp x) npid x) :=
    CInv_relink hc hx0 hgx hcp hgnp hnx hk havoid
  obtain ⟨cp₀, ncp, hcp₀, hgcp, hxmem⟩ :=
    hc.plink (x, cur) (getNode_eq_some_mem hgx) hx0
  rw [hcp] at hcp₀
  cases Option.some.inj hcp₀
  have hxk : x ∈ keys s := getNode_mem_keys hgx
  have hpxp : parentOf s x = some cp := by rw [parentOf_eq_parent hgx, hcp]
  have hxcp : x ≠ cp := by
    intro hcon
    have hfix : parIter s 1 x = some x := by
      rw [parIter_succ_of_parent 0 hpxp, parIter_zero, hcon]
    exact absurd (hc.cycle_zero hxk hfix) (by omega)
  have hncpnd : ncp.children.Nodup := hc.childNodup (cp, ncp) (getNode_eq_some_mem hgcp)
  have hcore_cp : getNode (remove_child_core s cp x) cp =
      some { ncp with children := ncp.children.erase x,
                      child_queue := (qdrain ncp.child_queue).filter fun e => e.2 ≠ x } := by
    rw [getNode_remove_child_core_pid, hgcp]
    rfl
  have hcore_oth : ∀ j, j ≠ cp → getNode (remove_child_core s cp x) j = getNode s j :=
    fun j hj => getNode_remove_child_core_other _ hj
  have hgx' : getNode (add_child (remove_child_core s cp x) npid x) x =
      some { cur with parent := some npid } := by
    rw [getNode_add_child_cid _ (Ne.symm hnx), hcore_oth x hxcp, hgx]
    rfl
  have hfiltperm : (((qdrain ncp.child_queue).filter fun e => e.2 ≠ x).map
      Prod.snd).Perm (ncp.children.erase x) := by
    rw [map_snd_filter_ne]
    have h2 : ((qdrain ncp.child_queue).map Prod.snd).Perm
        (ncp.child_queue.map Prod.snd) := (qdrain_perm _).map _
    have h3 := (h2.trans (hq.queuePerm (cp, ncp)
      (getNode_eq_some_mem hgcp))).filter (fun b => b ≠ x)
    rw [nodup_erase_eq_filter_ne _ hncpnd x]
    exact h3
  by_cases hnpcp : npid = cp
  · subst hnpcp
    have hgnp' : getNode (add_child (remove_child_core s npid x) npid x) npid =
        some { ncp with children := ncp.children.erase x ++ [x],
                        child_queue :=
                          ((qdrain ncp.child_queue).filter fun e => e.2 ≠ x)
                            ++ [(ncp.last_weight, x)] } := by
      rw [getNode_add_child_pid _ (Ne.symm hnx), hcore_cp]
      rfl
    have hgoth' : ∀ j, j ≠ x → j ≠ npid →
        getNode (add_child (remove_child_core s npid x) npid x) j = getNode s j := by
      intro j hj1 hj2
      rw [getNode_add_child_other _ hj2 hj1, hcore_oth j hj2]
    refine ⟨hstr, ?_, ?_⟩ <;> intro p hp <;> obtain ⟨p1, p2⟩ := p
    · by_cases h1 : p1 = x
      · subst h1
        have he := mem_eq_of_getNode hstr.nodup hp hgx'
        subst he
        exact hq.queuePerm (p1, cur) (getNode_eq_some_mem hgx)
      · by_cases h2 : p1 = npid
        · subst h2
          have he := mem_eq_of_getNode hstr.nodup hp hgnp'
          subst he
          simp only [List.map_append]
          exact hfiltperm.append_right _
        · have hg' : getNode s p1 = some p2 := by
            rw [← hgoth' p1 h1 h2]
            exact getNode_of_mem_nodup hstr.nodup hp
          exact hq.queuePerm (p1, p2) (getNode_eq_some_mem hg')
    · by_cases h1 : p1 = x
      · subst h1
        have he := mem_eq_of_getNode hstr.nodup hp hgx'
        subst he
        exact hq.weights (p1, cur) (getNode_eq_some_mem hgx)
      · by_cases h2 : p1 = npid
        · subst h2
          have he := mem_eq_of_getNode hstr.nodup hp hgnp'
          subst he
          exact hq.weights (p1, ncp) (getNode_eq_some_mem hgcp)
        · have hg' : getNode s p1 = some p2 := by
            rw [← hgoth' p1 h1 h2]
            exact getNode_of_mem_nodup hstr.nodup hp
          exact hq.weights (p1, p2) (getNode_eq_some_mem hg')
  · have hcpnp : cp ≠ npid := fun hcon => hnpcp hcon.symm
    have hgcp' : getNode (add_child (remove_child_core s cp x) npid x) cp =
        some { ncp with children := ncp.children.erase x,
                        child_queue :=
                          (qdrain ncp.child_queue).filter fun e => e.2 ≠ x } := by
      rw [getNode_add_child_other _ hcpnp (Ne.symm hxcp), hcore_cp]
    have hgnp' : getNode (add_child (remove_child_core s cp x) npid x) npid =
        some { np with children := np.children ++ [x],
                       child_queue := np.child_queue ++ [(np.last_weight, x)] } := by
      rw [getNode_add_child_pid _ (Ne.symm hnx), hcore_oth npid hnpcp, hgnp]
      rfl
    have hgoth' : ∀ j, j ≠ x → j ≠ npid → j ≠ cp →
        getNode (add_child (remove_child_core s cp x) npid x) j = getNode s j := by
      intro j hj1 hj2 hj3
      rw [getNode_add_child_other _ hj2 hj1, hcore_oth j hj3]
    refine ⟨hstr, ?_, ?_⟩ <;> intro p hp <;> obtain ⟨p1, p2⟩ := p
    · by_cases h1 : p1 = x
      · subst h1
        have he := mem_eq_of_getNode hstr.nodup hp hgx'
        subst he
        exact hq.queuePerm (p1, cur) (getNode_eq_some_mem hgx)
      · by_cases h2 : p1 = npid
        · subst h2
          have he := mem_eq_of_getNode hstr.nodup hp hgnp'
          subst he
          simp only [List.map_append]
          exact (hq.queuePerm (p1, np) (getNode_eq_some_mem hgnp)).append_right _
        · by_cases h3 : p1 = cp
          · subst h3
            have he := mem_eq_of_getNode hstr.nodup hp hgcp'
            subst he
            exact hfiltperm
          · have hg' : getNode s p1 = some p2 := by
              rw [← hgoth' p1 h1 h2 h3]
              exact getNode_of_mem_nodup hstr.nodup hp
            exact hq.queuePerm (p1, p2) (getNode_eq_some_mem hg')
    · by_cases h1 : p1 = x
      · subst h1
        have he := mem_eq_of_getNode hstr.nodup hp hgx'
        subst he
        exact hq.weights (p1, cur) (getNode_eq_some_mem hgx)
      · by_cases h2 : p1 = npid
        · subst h2
          have he := mem_eq_of_getNode hstr.nodup hp hgnp'
          subst he
          exact hq.weights (p1, np) (getNode_eq_some_mem hgnp)
        · by_cases h3 : p1 = cp
          · subst h3
            have he := mem_eq_of_getNode hstr.nodup hp hgcp'
            subst he
            exact hq.weights (p1, ncp) (getNode_eq_some_mem hgcp)
          · have hg' : getNode s p1 = some p2 := by
              rw [← hgoth' p1 h1 h2 h3]
              exact getNode_of_mem_nodup hstr.nodup hp
            exact hq.weights (p1, p2) (getNode_eq_some_mem hg')

theorem QInv_relink_exclusive {s : Streams} {x npid cp : Nat} {cur np : Stream}
    (hq : QInv s) (hx0 : x ≠ 0) (hgx : getNode s x = some cur)
    (hcp : cur.parent = some cp) (hgnp : getNode s npid = some np)
    (hnx : npid ≠ x) (hk : rooted s npid)
    (havoid : ∀ m v, parIter s m npid = some v → v ≠ x) :
    QInv (add_child_exclusive (remove_child_core s cp x) npid x) := by
  have hc := hq.str
  have hstr : CInv (add_child_exclusive (remove_child_core s cp x) npid x) :=
    CInv_relink_exclusive hc hx0 hgx hcp hgnp hnx hk havoid
  obtain ⟨cp₀, ncp, hcp₀, hgcp, hxmem⟩ :=
    hc.plink (x, cur) (getNode_eq_some_mem hgx) hx0
  rw [hcp] at hcp₀
  cases Option.some.inj hcp₀
  have hxk : x ∈ keys s := getNode_mem_keys hgx
  have hpxp : parentOf s x = some cp := by rw [parentOf_eq_parent hgx, hcp]
  have hxcp : x ≠ cp := by
    intro hcon
    have hfix : parIter s 1 x = some x := by
      rw [parIter_succ_of_parent 0 hpxp, parIter_zero, hcon]
    exact absurd (hc.cycle_zero hxk hfix) (by omega)
  have hncpnd : ncp.children.Nodup := hc.childNodup (cp, ncp) (getNode_eq_some_mem hgcp)
  have hcore_cp : getNode (remove_child_core s cp x) cp =
      some { ncp with children := ncp.children.erase x,
                      child_queue := (qdrain ncp.child_queue).filter fun e => e.2 ≠ x } := by
    rw [getNode_remove_child_core_pid, hgcp]
    rfl
  have hcore_oth : ∀ j, j ≠ cp → getNode (remove_child_core s cp x) j = getNode s j :=
    fun j hj => getNode_remove_child_core_other _ hj
  have hnp' : ∃ np', getNode (remove_child_core s cp x) npid = some np' ∧
      np'.weight = np.weight ∧
      (∀ c, c ∈ np'.children ↔ c ∈ np.children ∧ c ≠ x) := by
    by_cases hnpcp : npid = cp
    · subst hnpcp
      rw [hgnp] at hgcp
      cases Option.some.inj hgcp
      refine ⟨_, hcore_cp, rfl, ?_⟩
      intro c
      constructor
      · intro hcm
        obtain ⟨hne2, hmem⟩ := (hncpnd.mem_erase_iff).mp hcm
        exact ⟨hmem, hne2⟩
      · rintro ⟨hmem, hne2⟩
        exact (List.mem_erase_of_ne hne2).mpr hmem
    · refine ⟨np, by rw [hcore_oth npid hnpcp]; exact hgnp, rfl, ?_⟩
      intro c
      constructor
      · intro hcm
        refine ⟨hcm, fun hcon => ?_⟩
        rw [hcon] at hcm
        obtain ⟨-, cn, hgc, hcpar⟩ :=
          hc.childMem (npid, np) (getNode_eq_some_mem hgnp) x hcm
        rw [hgx] at hgc
        cases Option.some.inj hgc
        rw [hcp] at hcpar
        exact hnpcp (Option.some.inj hcpar).symm
      · exact fun h => h.1
  obtain ⟨np', hgcore_np, hwnp, hiff⟩ := hnp'
  have h1 : npid ∉ np'.children := by
    intro hm
    have hmem := ((hiff npid).mp hm).1
    obtain ⟨-, cn, hgc, hcpar⟩ :=
      hc.childMem (npid, np) (getNode_eq_some_mem hgnp) npid hmem
    have hpnp : parentOf s npid = some npid := by
      rw [parentOf_eq_parent hgc, hcpar]
    have hfix : parIter s 1 npid = some npid := by
      rw [parIter_succ_of_parent 0 hpnp, parIter_zero]
    exact absurd (hc.cycle_zero (getNode_mem_keys hgnp) hfix) (by omega)
  have h2 : x ∉ np'.children := fun hm => ((hiff x).mp hm).2 rfl
  have hgnpE : getNode (add_child_exclusive (remove_child_core s cp x) npid x) npid =
      some { np' with children := [x], child_queue := [(0, x)], last_weight := 0 } :=
    getNode_add_child_exclusive_pid hgcore_np (Ne.symm hnx) h1
  have hgxE : getNode (add_child_exclusive (remove_child_core s cp x) npid x) x =
      some { cur with parent := some npid,
                      children := cur.children ++ np'.children,
                      child_queue := cur.child_queue
                        ++ (np'.children.map fun oc => (cur.last_weight, oc)) } := by
    rw [getNode_add_child_exclusive_cid hgcore_np (Ne.symm hnx) h2,
      hcore_oth x hxcp, hgx]
    rfl
  have hfiltperm : (((qdrain ncp.child_queue).filter fun e => e.2 ≠ x).map
      Prod.snd).Perm (ncp.children.erase x) := by
    rw [map_snd_filter_ne]
    have h2p : ((qdrain ncp.child_queue).map Prod.snd).Perm
        (ncp.child_queue.map Prod.snd) := (qdrain_perm _).map _
    have h3 := (h2p.trans (hq.queuePerm (cp, ncp)
      (getNode_eq_some_mem hgcp))).filter (fun b => b ≠ x)
    rw [nodup_erase_eq_filter_ne _ hncpnd x]
    exact h3
  have hnodesQ : ∀ j, j ≠ x → j ≠ npid → ∀ {p2 : Stream},
      getNode (add_child_exclusive (remove_child_core s cp x) npid x) j = some p2 →
      (p2.child_queue.map Prod.snd).Perm p2.children ∧ 1 ≤ p2.weight := by
    intro j hjx hjnp p2 hgj'
    by_cases hjcp : j = cp
    · subst hjcp
      by_cases hjm : j ∈ np'.children
      · have hgj2 : getNode (add_child_exclusive (remove_child_core s j x) npid x) j =
            some { ncp with children := ncp.children.erase x,
                            child_queue :=
                              (qdrain ncp.child_queue).filter fun e => e.2 ≠ x,
                            parent := some x } := by
          rw [getNode_add_child_exclusive_mem hgcore_np h2 hjm hjnp hjx, hcore_cp]
          rfl
        rw [hgj2] at hgj'
        cases Option.some.inj hgj'
        exact ⟨hfiltperm, hq.weights (j, ncp) (getNode_eq_some_mem hgcp)⟩
      · have hgj2 : getNode (add_child_exclusive (remove_child_core s j x) npid x) j =
            some { ncp with children := ncp.children.erase x,
                            child_queue :=
                              (qdrain ncp.child_queue).filter fun e => e.2 ≠ x } := by
          rw [getNode_add_child_exclusive_other hgcore_np hjnp hjx hjm]
          exact hcore_cp
        rw [hgj2] at hgj'
        cases Option.some.inj hgj'
        exact ⟨hfiltperm, hq.weights (j, ncp) (getNode_eq_some_mem hgcp)⟩
    · by_cases hjm : j ∈ np'.children
      · have hmem := ((hiff j).mp hjm).1
        obtain ⟨-, nj, hgj, -⟩ :=
          hc.childMem (npid, np) (getNode_eq_some_mem hgnp) j hmem
        have hgj2 : getNode (add_child_exclusive (remove_child_core s cp x) npid x) j =
            some { nj with parent := some x } := by
          rw [getNode_add_child_exclusive_mem hgcore_np h2 hjm hjnp hjx,
            hcore_oth j hjcp, hgj]
          rfl
        rw [hgj2] at hgj'
        cases Option.some.inj hgj'
        exact ⟨hq.queuePerm (j, nj) (getNode_eq_some_mem hgj),
          hq.weights (j, nj) (getNode_eq_some_mem hgj)⟩
      · have hgj2 : getNode (add_child_exclusive (remove_child_core s cp x) npid x) j =
            getNode s j := by
          rw [getNode_add_child_exclusive_other hgcore_np hjnp hjx hjm,
            hcore_oth j hjcp]
        rw [hgj2] at hgj'
        exact ⟨hq.queuePerm (j, p2) (getNode_eq_some_mem hgj'),
          hq.weights (j, p2) (getNode_eq_some_mem hgj')⟩
  refine ⟨hstr, ?_, ?_⟩ <;> intro p hp <;> obtain ⟨p1, p2⟩ := p
  · by_cases h1x : p1 = x
    · subst h1x
      have he := mem_eq_of_getNode hstr.nodup hp hgxE
      subst he
      simp only [List.map_append, List.map_map]
      have : (np'.children.map ((fun e => e.2) ∘ fun oc => (cur.last_weight, oc))) =
          np'.children := by
        simp
      rw [this]
      exact (hq.queuePerm (p1, cur) (getNode_eq_some_mem hgx)).append_right _
    · by_cases h2x : p1 = npid
      · subst h2x
        have he := mem_eq_of_getNode hstr.nodup hp hgnpE
        subst he
        simp
      · exact (hnodesQ p1 h1x h2x (getNode_of_mem_nodup hstr.nodup hp)).1
  · by_cases h1x : p1 = x
    · subst h1x
      have he := mem_eq_of_getNode hstr.nodup hp hgxE
      subst he
      exact hq.weights (p1, cur) (getNode_eq_some_mem hgx)
    · by_cases h2x : p1 = npid
      · subst h2x
        have he := mem_eq_of_getNode hstr.nodup hp hgnpE
        subst he
        show 1 ≤ np'.weight
        rw [hwnp]
        exact hq.weights (p1, np) (getNode_eq_some_mem hgnp)
      · exact (hnodesQ p1 h1x h2x (getNode_of_mem_nodup hstr.nodup hp)).2

theorem QInv_reprioFinish {s : Streams} {id npid : Nat} (ex : Bool) {np : Stream}
    (hq : QInv s) (hid0 : id ≠ 0)
    (hgnp : getNode s npid = some np) (hnx : npid ≠ id)
    (havoid : ∀ m v, parIter s m npid = some v → v ≠ id) :
    QInv (reprioFinish s id npid ex).1 := by
  have hc := hq.str
  unfold reprioFinish
  cases hgid : getNode s id with
  | none => exact hq
  | some cur =>
      obtain ⟨cp, ncp, hcp0, hgcp, hmemcp⟩ :=
        hc.plink (id, cur) (getNode_eq_some_mem hgid) hid0
      have hcp : cur.parent = some cp := hcp0
      have hids : cur.stream_id = id := hc.ids (id, cur) (getNode_eq_some_mem hgid)
      have hrc : remove_child s cp cur false = remove_child_core s cp id := by
        unfold remove_child
        rw [hgcp, hids]
        rfl
      show QInv ((match cur.parent with
        | none => (s, some PyErr.attributeError)
        | some cp =>
            let s₁ := remove_child s cp cur false
            if ex then (add_child_exclusive s₁ npid id, none)
            else (add_child s₁ npid id, none)).1)
      rw [hcp]
      cases ex with
      | true =>
          show QInv (add_child_exclusive (remove_child s cp cur false) npid id)
          rw [hrc]
          exact QInv_relink_exclusive hq hid0 hgid hcp hgnp hnx
            (hc.rooted_of_mem (getNode_mem_keys hgnp)) havoid
      | false =>
          show QInv (add_child (remove_child s cp cur false) npid id)
          rw [hrc]
          exact QInv_relink hq hid0 hgid hcp hgnp hnx
            (hc.rooted_of_mem (getNode_mem_keys hgnp)) havoid

theorem QInv_reprioritize (s : Streams) (id : Nat) (dep : Option Nat)
    (w : Nat) (ex : Bool) (hq : QInv s) (hid0 : id ≠ 0) (hw : 1 ≤ w)
    (hdep : dep ≠ some id) (hrs : repairStale s id dep = false) :
    QInv (reprioritize s id dep w ex).1 := by
  have hc := hq.str
  cases hgid : getNode s id with
  | none =>
      unfold reprioritize
      rw [hgid]
      exact hq
  | some n0 =>
      have hskel1 : ∀ i,
          (getNode (updNode s id fun n => { n with weight := w }) i).map
            (fun n => (n.stream_id, n.parent, n.children)) =
          (getNode s i).map (fun n => (n.stream_id, n.parent, n.children)) := by
        intro i
        by_cases hi : i = id
        · subst hi
          rw [getNode_updNode_self]
          cases getNode s i <;> simp
        · rw [getNode_updNode_ne _ _ hi]
      have hc1 : CInv (updNode s id fun n => { n with weight := w }) := by
        refine CInv_transfer (keys_updNode ..) hskel1 ?_ hc
        unfold activeOf
        rw [getNode_updNode_ne _ _ (Ne.symm hid0)]
      have hq1 : QInv (updNode s id fun n => { n with weight := w }) := by
        refine ⟨hc1, ?_, ?_⟩ <;> intro p hp <;> obtain ⟨p1, p2⟩ := p
        · by_cases h1 : p1 = id
          · subst h1
            have hgid1 : getNode (updNode s p1 fun n => { n with weight := w }) p1 =
                some { n0 with weight := w } := by
              rw [getNode_updNode_self, hgid]
              rfl
            have he := mem_eq_of_getNode hc1.nodup hp hgid1
            subst he
            exact hq.queuePerm (p1, n0) (getNode_eq_some_mem hgid)
          · have hg' : getNode s p1 = some p2 := by
              have hx := getNode_of_mem_nodup hc1.nodup hp
              rwa [getNode_updNode_ne _ _ h1] at hx
            exact hq.queuePerm (p1, p2) (getNode_eq_some_mem hg')
        · by_cases h1 : p1 = id
          · subst h1
            have hgid1 : getNode (updNode s p1 fun n => { n with weight := w }) p1 =
                some { n0 with weight := w } := by
              rw [getNode_updNode_self, hgid]
              rfl
            have he := mem_eq_of_getNode hc1.nodup hp hgid1
            subst he
            exact hw
          · have hg' : getNode s p1 = some p2 := by
              have hx := getNode_of_mem_nodup hc1.nodup hp
              rwa [getNode_updNode_ne _ _ h1] at hx
            exact hq.weights (p1, p2) (getNode_eq_some_mem hg')
      have hpar1 : ∀ j, parentOf (updNode s id fun n => { n with weight := w }) j =
          parentOf s j := parentOf_congr_of_skel hskel1
      have hiter1 : ∀ k i,
          parIter (updNode s id fun n => { n with weight := w }) k i =
            parIter s k i := parIter_congr hpar1
      have hfin0 : QInv (reprioFinish (updNode s id fun n => { n with weight := w })
          id 0 ex).1 := by
        obtain ⟨r, hr, hrp, hra⟩ := hc1.root0
        refine QInv_reprioFinish ex hq1 hid0 hr (fun hcon => hid0 hcon.symm) ?_
        intro m v hv
        cases m with
        | zero =>
            rw [parIter_zero] at hv
            cases hv
            exact fun hcon => hid0 hcon.symm
        | succ m =>
            rw [parIter_succ_of_none m hc1.parent0] at hv
            exact Option.noConfusion hv
      unfold reprioritize
      rw [hgid]
      cases dep with
      | none => exact hfin0
      | some d =>
          by_cases hd0 : d = 0
          · subst hd0
            simp only [if_pos rfl]
            exact hfin0
          · have hdne : d ≠ id := fun hcon => hdep (by rw [hcon])
            simp only [if_neg hd0]
            cases hgd : getNode s d with
            | none => exact hq
            | some nd =>
                have hids_d : nd.stream_id = d := hc.ids (d, nd) (getNode_eq_some_mem hgd)
                have hdk : d ∈ keys s := getNode_mem_keys hgd
                have hgd1 : getNode (updNode s id fun n => { n with weight := w }) d =
                    some nd := by
                  rw [getNode_updNode_ne _ _ hdne]
                  exact hgd
                cases hsc : stream_cycle s d id with
                | error e =>
                    simp only [hsc, Except.map]
                    exact hq
                | ok cyc =>
                    cases cyc with
                    | false =>
                        simp only [hsc, Except.map, Bool.false_eq_true, if_false]
                        have hsc' : streamCycleGo s id 100 d = Except.ok false := hsc
                        obtain ⟨kc, hkc1, hkc0, havkc⟩ := streamCycleGo_false 100 d hsc'
                        refine QInv_reprioFinish ex hq1 hid0 hgd1 hdne ?_
                        intro m v hv
                        rw [hiter1] at hv
                        cases m with
                        | zero =>
                            rw [parIter_zero] at hv
                            cases hv
                            exact hdne
                        | succ m =>
                            by_cases hmk : m + 1 ≤ kc
                            · intro hcon
                              rw [hcon] at hv
                              exact havkc (m + 1) (by omega) hmk hv
                            · rw [parIter_none_past_zero hc.parent0 hkc0 (m + 1)
                                (by omega)] at hv
                              exact Option.noConfusion hv
                    | true =>
                        have hsc' : streamCycleGo s id 100 d = Except.ok true := hsc
                        obtain ⟨kc, hkc1, hkc⟩ := streamCycleGo_true 100 d hsc'
                        have hndnil : nd.children = [] := by
                          unfold repairStale at hrs
                          rw [hgid] at hrs
                          simp only [if_neg hd0, hgd, hsc] at hrs
                          simpa using hrs
                        obtain ⟨pnp, npnp, hpnp0, hgpnp, hdmem⟩ :=
                          hc.plink (d, nd) (getNode_eq_some_mem hgd) hd0
                        have hpnp : nd.parent = some pnp := hpnp0
                        obtain ⟨cp, ncp, hcp0, hgcp, hidmem⟩ :=
                          hc.plink (id, n0) (getNode_eq_some_mem hgid) hid0
                        have hcpn : n0.parent = some cp := hcp0
                        have hpid1 : parentOf s id = some cp := by
                          rw [parentOf_eq_parent hgid, hcpn]
                        have hcpid : cp ≠ id := by
                          intro hcon
                          have hfix : parIter s 1 id = some id := by
                            rw [parIter_succ_of_parent 0 hpid1, parIter_zero, hcon]
                          exact absurd (hc.cycle_zero (getNode_mem_keys hgid) hfix)
                            (by omega)
                        have hcpd : cp ≠ d := by
                          intro hcon
                          have hfix : parIter s (1 + kc) id = some id := by
                            rw [parIter_add s 1 kc id, parIter_succ_of_parent 0 hpid1,
                              parIter_zero]
                            show parIter s kc cp = some id
                            rw [hcon]
                            exact hkc
                          exact absurd (hc.cycle_zero (getNode_mem_keys hgid) hfix)
                            (by omega)
                        have havcp_d : ∀ m v, parIter s m cp = some v → v ≠ d := by
                          intro m v hv hcon
                          rw [hcon] at hv
                          have hfix : parIter s (1 + (m + kc)) id = some id := by
                            rw [parIter_add s 1 (m + kc) id,
                              parIter_succ_of_parent 0 hpid1, parIter_zero]
                            show parIter s (m + kc) cp = some id
                            rw [parIter_add s m kc cp, hv]
                            show parIter s kc d = some id
                            exact hkc
                          exact absurd (hc.cycle_zero (getNode_mem_keys hgid) hfix)
                            (by omega)
                        have havcp_id : ∀ m v, parIter s m cp = some v → v ≠ id := by
                          intro m v hv hcon
                          rw [hcon] at hv
                          have hfix : parIter s (1 + m) id = some id := by
                            rw [parIter_add s 1 m id,
                              parIter_succ_of_parent 0 hpid1, parIter_zero]
                            exact hv
                          exact absurd (hc.cycle_zero (getNode_mem_keys hgid) hfix)
                            (by omega)
                        have hdpnp : d ≠ pnp := by
                          intro hcon
                          have hp : parentOf s d = some d := by
                            rw [parentOf_eq_parent hgd, hpnp, ← hcon]
                          have hfix : parIter s 1 d = some d := by
                            rw [parIter_succ_of_parent 0 hp, parIter_zero]
                          exact absurd (hc.cycle_zero hdk hfix) (by omega)
                        have hgpnp1 : ∃ nn,
                            getNode (updNode s id fun n => { n with weight := w })
                              pnp = some nn := by
                          by_cases hpe : pnp = id
                          · subst hpe
                            rw [getNode_updNode_self, hgid]
                            exact ⟨_, rfl⟩
                          · rw [getNode_updNode_ne _ _ hpe]
                            exact ⟨npnp, hgpnp⟩
                        obtain ⟨nn, hgpnp1⟩ := hgpnp1
                        have hrc2 : remove_child
                            (updNode s id fun n => { n with weight := w }) pnp nd true =
                            remove_child_core
                              (updNode s id fun n => { n with weight := w }) pnp d := by
                          unfold remove_child
                          rw [hgpnp1, hids_d, hndnil]
                          rfl
                        have hgcp1 : getNode (updNode s id fun n => { n with weight := w })
                            cp = some ncp := by
                          rw [getNode_updNode_ne _ _ hcpid]
                          exact hgcp
                        have hk1 : rooted (updNode s id fun n => { n with weight := w })
                            cp := by
                          obtain ⟨k, hkk⟩ := hc.rooted_of_mem (getNode_mem_keys hgcp)
                          exact ⟨k, by rw [hiter1]; exact hkk⟩
                        have hs3 : QInv (add_child (remove_child_core
                            (updNode s id fun n => { n with weight := w }) pnp d) cp d) := by
                          refine QInv_relink hq1 hd0 hgd1 hpnp hgcp1 hcpd hk1 ?_
                          intro m v hv
                          rw [hiter1] at hv
                          exact havcp_d m v hv
                        have hgd3 : getNode (add_child (remove_child_core
                            (updNode s id fun n => { n with weight := w }) pnp d) cp d) d =
                            some { nd with parent := some cp } := by
                          rw [getNode_add_child_cid _ (fun hcon => hcpd hcon.symm),
                            getNode_remove_child_core_other _ hdpnp, hgd1]
                          rfl
                        have hpd3 : parentOf (add_child (remove_child_core
                            (updNode s id fun n => { n with weight := w }) pnp d) cp d) d =
                            some cp := by
                          rw [parentOf_eq_parent hgd3]
                        have hpar3 : ∀ j, j ≠ d →
                            parentOf (add_child (remove_child_core
                              (updNode s id fun n => { n with weight := w }) pnp d) cp d) j =
                            parentOf s j := by
                          intro j hj
                          rw [parentOf_relink_ne _ hcpd j hj, hpar1 j]
                        obtain ⟨k1, hk1s⟩ := hc.rooted_of_mem (getNode_mem_keys hgcp)
                        have h0d : (0 : Nat) ≠ d := fun hcon => hd0 hcon.symm
                        have hpar03 : parentOf (add_child (remove_child_core
                            (updNode s id fun n => { n with weight := w }) pnp d) cp d) 0 =
                            none := by
                          rw [hpar3 0 h0d, hc.parent0]
                        have havoid3 : ∀ m v, parIter (add_child (remove_child_core
                            (updNode s id fun n => { n with weight := w }) pnp d) cp d)
                            m d = some v → v ≠ id := by
                          intro m v hv
                          cases m with
                          | zero =>
                              rw [parIter_zero] at hv
                              cases hv
                              exact hdne
                          | succ m =>
                              rw [parIter_succ_of_parent m hpd3] at hv
                              by_cases hmk : m ≤ k1
                              · obtain ⟨wv, hwv⟩ := parIter_some_of_le hk1s m hmk
                                have hwv3 := parIter_eq_of_avoid (fun u => u = d)
                                  (fun j hj => hpar3 j hj) m cp wv hwv
                                  (fun k0 w0 hk0 hw0 hb => havcp_d k0 w0 hw0 hb)
                                rw [hwv3] at hv
                                cases Option.some.inj hv
                                exact havcp_id m _ hwv
                              · have h03 := parIter_eq_of_avoid (fun u => u = d)
                                  (fun j hj => hpar3 j hj) k1 cp 0 hk1s
                                  (fun k0 w0 hk0 hw0 hb => havcp_d k0 w0 hw0 hb)
                                rw [parIter_none_past_zero hpar03 h03 m (by omega)] at hv
                                exact Option.noConfusion hv
                        have hgid2 : ∃ cur2, getNode (remove_child_core
                            (updNode s id fun n => { n with weight := w }) pnp d) id =
                            some cur2 ∧ cur2.parent = some cp := by
                          by_cases hip : id = pnp
                          · refine ⟨{ n0 with weight := w, children := n0.children.erase d, child_queue := (qdrain n0.child_queue).filter fun e => e.2 ≠ d }, ?_, hcpn⟩
                            rw [← hip, getNode_remove_child_core_pid,
                              getNode_updNode_self, hgid]
                            rfl
                          · refine ⟨{ n0 with weight := w }, ?_, hcpn⟩
                            rw [getNode_remove_child_core_other _ hip,
                              getNode_updNode_self, hgid]
                            rfl
                        obtain ⟨cur2, hgid2, hcur2p⟩ := hgid2
                        have hfin3 : QInv (reprioFinish (add_child (remove_child_core
                            (updNode s id fun n => { n with weight := w }) pnp d) cp d)
                            id d ex).1 :=
                          QInv_reprioFinish ex hs3 hid0 hgd3 hdne havoid3
                        simp only [hsc, Except.map, if_pos rfl, hgd1, hpnp, hrc2,
                          hgid2, hcur2p]
                        exact hfin3

/-! ### Descendants and chain lengths -/

theorem desc_compose {s : Streams} {a b j : Nat}
    (h1 : Desc s a b) (h2 : Desc s b j) : Desc s a j := by
  obtain ⟨m, hm1, hm⟩ := h1
  obtain ⟨m2, hm2, hm2e⟩ := h2
  refine ⟨m2 + m, by omega, ?_⟩
  rw [parIter_add, hm2e]
  exact hm

theorem desc_child {s : Streams} {sid c : Nat} {n : Stream}
    (hc : CInv s) (hg : getNode s sid = some n) (hm : c ∈ n.children) :
    Desc s sid c := by
  obtain ⟨-, cn, hgc, hcp⟩ := hc.childMem (sid, n) (getNode_eq_some_mem hg) c hm
  refine ⟨1, le_refl _, ?_⟩
  rw [parIter_succ_of_parent 0 (by rw [parentOf_eq_parent hgc]; exact hcp)]
  rfl

theorem desc_irrefl {s : Streams} (hc : CInv s) {sid : Nat}
    (hk : sid ∈ keys s) : ¬ Desc s sid sid := by
  rintro ⟨m, hm1, hm⟩
  have := hc.cycle_zero hk hm
  omega

theorem desc_ne {s : Streams} (hc : CInv s) {sid j : Nat}
    (hk : sid ∈ keys s) (hd : Desc s sid j) : j ≠ sid := by
  intro hcon
  subst hcon
  exact desc_irrefl hc hk hd

theorem child_ne_self {s : Streams} {sid c : Nat} {n : Stream}
    (hc : CInv s) (hg : getNode s sid = some n) (hm : c ∈ n.children) :
    c ≠ sid :=
  desc_ne hc (getNode_mem_keys hg) (desc_child hc hg hm)

theorem parIter_last_hop {s : Streams} {a j v : Nat}
    (h : parIter s (a + 1) j = some v) :
    ∃ c, parIter s a j = some c ∧ parentOf s c = some v := by
  rw [parIter_add] at h
  cases hw : parIter s a j with
  | none => rw [hw] at h; exact Option.noConfusion h
  | some c =>
      rw [hw] at h
      refine ⟨c, rfl, ?_⟩
      have h2 : parIter s 1 c = some v := h
      cases hp : parentOf s c with
      | none =>
          rw [parIter_succ_of_none 0 hp] at h2
          exact Option.noConfusion h2
      | some p =>
          rw [parIter_succ_of_parent 0 hp, parIter_zero] at h2
          cases Option.some.inj h2
          rfl

theorem desc_step {s : Streams} {sid j : Nat} {n : Stream}
    (hc : CInv s) (hg : getNode s sid = some n) (hj : Desc s sid j) :
    ∃ c ∈ n.children, j = c ∨ Desc s c j := by
  obtain ⟨m, hm1, hm⟩ := hj
  obtain ⟨a, rfl⟩ : ∃ a, m = a + 1 := ⟨m - 1, by omega⟩
  obtain ⟨c, hca, hcp⟩ := parIter_last_hop hm
  have hc0 : c ≠ 0 := by
    intro hcon
    rw [hcon, hc.parent0] at hcp
    exact Option.noConfusion hcp
  have hgcx : ∃ cn, getNode s c = some cn ∧ cn.parent = some sid := by
    unfold parentOf at hcp
    cases hgc2 : getNode s c with
    | none => rw [hgc2] at hcp; exact Option.noConfusion hcp
    | some cn => rw [hgc2] at hcp; exact ⟨cn, rfl, hcp⟩
  obtain ⟨cn, hgc, hcnp⟩ := hgcx
  obtain ⟨q, nq, hq, hgq, hmem⟩ := hc.plink (c, cn) (getNode_eq_some_mem hgc) hc0
  rw [hcnp] at hq
  cases Option.some.inj hq
  rw [hg] at hgq
  cases Option.some.inj hgq
  refine ⟨c, hmem, ?_⟩
  cases a with
  | zero =>
      rw [parIter_zero] at hca
      cases Option.some.inj hca
      exact Or.inl rfl
  | succ a2 => exact Or.inr ⟨a2 + 1, by omega, hca⟩

theorem desc_congr_of_skel {s s2 : Streams}
    (hskel : ∀ i, (getNode s2 i).map nodeSkel = (getNode s i).map nodeSkel) :
    ∀ a j, Desc s2 a j ↔ Desc s a j := by
  intro a j
  have hpar := parentOf_congr_of_skel (nodeSkel_proj hskel)
  constructor <;> rintro ⟨m, hm1, hm⟩ <;> refine ⟨m, hm1, ?_⟩
  · rw [← parIter_congr hpar m j]
    exact hm
  · rw [parIter_congr hpar m j]
    exact hm

theorem childIds_of_skel {s s2 : Streams}
    (h : ∀ i, (getNode s2 i).map nodeSkel = (getNode s i).map nodeSkel) :
    ∀ i, childIds s2 i = childIds s i := by
  intro i
  have := h i
  unfold childIds
  cases hg : getNode s i with
  | none =>
      rw [hg] at this
      cases hg2 : getNode s2 i with
      | none => rfl
      | some n2 => rw [hg2] at this; simp [nodeSkel] at this
  | some n =>
      rw [hg] at this
      cases hg2 : getNode s2 i with
      | none => rw [hg2] at this; simp [nodeSkel] at this
      | some n2 =>
          rw [hg2] at this
          simp [nodeSkel] at this
          simp [this.2.2.1]

theorem weights_of_skel {s s2 : Streams} (hnd : (keys s2).Nodup)
    (hskel : ∀ i, (getNode s2 i).map nodeSkel = (getNode s i).map nodeSkel)
    (hw : ∀ p ∈ s, 1 ≤ p.2.weight) : ∀ p ∈ s2, 1 ≤ p.2.weight := by
  intro p hp
  obtain ⟨p1, p2⟩ := p
  have hg2 : getNode s2 p1 = some p2 := getNode_of_mem_nodup hnd hp
  have := hskel p1
  rw [hg2] at this
  cases hg : getNode s p1 with
  | none => rw [hg] at this; simp [nodeSkel] at this
  | some n =>
      rw [hg] at this
      simp [nodeSkel] at this
      rw [this.2.2.2.2]
      exact hw (p1, n) (getNode_eq_some_mem hg)

theorem chain_length_lt {s : Streams} (hc : CInv s) {sid k : Nat}
    (hk : sid ∈ keys s) (h : parIter s k sid = some 0) :
    k < (keys s).length := by
  have hsome : ∀ m, m ≤ k → ∃ v, parIter s m sid = some v :=
    fun m hm => parIter_some_of_le h m hm
  have hinj : ∀ a b, a ≤ k → b ≤ k → a < b →
      ∀ v, parIter s a sid = some v → parIter s b sid = some v → False := by
    intro a b ha hb hab v hva hvb
    have hcyc : parIter s (b - a) v = some v := by
      have h2 := parIter_add s a (b - a) sid
      rw [show a + (b - a) = b by omega, hva, hvb] at h2
      exact h2.symm
    have hroot : parIter s (k - a) v = some 0 := by
      have h2 := parIter_add s a (k - a) sid
      rw [show a + (k - a) = k by omega, hva, h] at h2
      exact h2.symm
    have := parIter_cycle_eq_zero hc.parent0 hroot hcyc
    omega
  by_contra hlen
  push_neg at hlen
  have hcard : (Finset.range (k + 1)).card ≤ (keys s).toFinset.card := by
    refine Finset.card_le_card_of_injOn (fun m => (parIter s m sid).getD 0) ?_ ?_
    · intro m hm
      rw [Finset.mem_range] at hm
      obtain ⟨v, hv⟩ := hsome m (by omega)
      show (parIter s m sid).getD 0 ∈ (keys s).toFinset
      rw [hv, List.mem_toFinset]
      exact chain_in_keys hc m sid v hk hv
    · intro a ha b hb hab
      rw [Finset.mem_coe, Finset.mem_range] at ha hb
      obtain ⟨va, hva⟩ := hsome a (by omega)
      obtain ⟨vb, hvb⟩ := hsome b (by omega)
      replace hab : (parIter s a sid).getD 0 = (parIter s b sid).getD 0 := hab
      rw [hva, hvb] at hab
      simp at hab
      by_contra hne
      rcases Nat.lt_or_ge a b with hlt | hge
      · exact hinj a b (by omega) (by omega) hlt va hva (hab ▸ hvb)
      · exact hinj b a (by omega) (by omega) (by omega) vb hvb (hab ▸ hva)
  rw [Finset.card_range] at hcard
  have := List.toFinset_card_le (keys s)
  omega

/-! ### What the finally-block requeue does to the queues -/

theorem requeue_perm :
    ∀ (P : List (Nat × Nat)) (s : Streams) (sid : Nat) (node : Stream),
      getNode s sid = some node →
      (∀ e ∈ P, e.2 ≠ sid ∧ ∃ c, getNode s e.2 = some c ∧ 1 ≤ c.weight) →
      (requeue s sid P).2 = none ∧
      queueIds (requeue s sid P).1 sid = queueIds s sid ++ P.map Prod.snd ∧
      (∀ j, j ≠ sid → queueIds (requeue s sid P).1 j = queueIds s j) ∧
      (∀ j, j ≠ sid → j ∉ P.map Prod.snd →
        getNode (requeue s sid P).1 j = getNode s j) := by
  intro P
  induction P with
  | nil =>
      intro s sid node hg hP
      exact ⟨rfl, (List.append_nil _).symm, fun j hj => rfl, fun j hj hjm => rfl⟩
  | cons e rest ih =>
      intro s sid node hg hP
      obtain ⟨level, cid⟩ := e
      obtain ⟨hcid, c, hgc, hcw⟩ := hP (level, cid) (List.mem_cons_self _ _)
      have hg1 : getNode (updNode s sid fun n => { n with last_weight := level }) cid =
          some c := by
        rw [getNode_updNode_ne _ _ hcid]
        exact hgc
      have hw0 : ¬ (c.weight = 0) := by omega
      have hstep : requeue s sid ((level, cid) :: rest) =
          requeue (updNode (updNode (updNode s sid fun n =>
              { n with last_weight := level }) cid fun m =>
                { m with deficit := (256 + m.deficit) % m.weight }) sid fun n =>
                  { n with child_queue :=
                      n.child_queue ++ [(level + (256 + c.deficit) / c.weight, cid)] })
            sid rest := by
        simp only [requeue, hg1, hw0, if_false]
      have hg3 : getNode (updNode (updNode (updNode s sid fun n =>
          { n with last_weight := level }) cid fun m =>
            { m with deficit := (256 + m.deficit) % m.weight }) sid fun n =>
              { n with child_queue :=
                  n.child_queue ++ [(level + (256 + c.deficit) / c.weight, cid)] })
          sid = some { node with last_weight := level, child_queue := node.child_queue ++ [(level + (256 + c.deficit) / c.weight, cid)] } := by
        rw [getNode_updNode_self, getNode_updNode_ne _ _ (Ne.symm hcid),
          getNode_updNode_self, hg]
        rfl
      have hgoth : ∀ j, j ≠ sid → j ≠ cid →
          getNode (updNode (updNode (updNode s sid fun n =>
            { n with last_weight := level }) cid fun m =>
              { m with deficit := (256 + m.deficit) % m.weight }) sid fun n =>
                { n with child_queue :=
                    n.child_queue ++ [(level + (256 + c.deficit) / c.weight, cid)] })
            j = getNode s j := by
        intro j hj1 hj2
        rw [getNode_updNode_ne _ _ hj1, getNode_updNode_ne _ _ hj2,
          getNode_updNode_ne _ _ hj1]
      have hgcid3 : getNode (updNode (updNode (updNode s sid fun n =>
          { n with last_weight := level }) cid fun m =>
            { m with deficit := (256 + m.deficit) % m.weight }) sid fun n =>
              { n with child_queue :=
                  n.child_queue ++ [(level + (256 + c.deficit) / c.weight, cid)] })
          cid = some { c with deficit := (256 + c.deficit) % c.weight } := by
        rw [getNode_updNode_ne _ _ hcid, getNode_updNode_self, hg1]
        rfl
      have hrest : ∀ e2 ∈ rest, e2.2 ≠ sid ∧
          ∃ c2, getNode (updNode (updNode (updNode s sid fun n =>
            { n with last_weight := level }) cid fun m =>
              { m with deficit := (256 + m.deficit) % m.weight }) sid fun n =>
                { n with child_queue :=
                    n.child_queue ++ [(level + (256 + c.deficit) / c.weight, cid)] })
            e2.2 = some c2 ∧ 1 ≤ c2.weight := by
        intro e2 he2
        obtain ⟨he2s, c2, hgc2, hc2w⟩ := hP e2 (List.mem_cons_of_mem _ he2)
        refine ⟨he2s, ?_⟩
        by_cases he2c : e2.2 = cid
        · rw [he2c, hgcid3]
          rw [he2c, hgc] at hgc2
          cases Option.some.inj hgc2
          exact ⟨_, rfl, hc2w⟩
        · rw [hgoth e2.2 he2s he2c]
          exact ⟨c2, hgc2, hc2w⟩
      obtain ⟨ih1, ih2, ih3, ih4⟩ := ih _ sid _ hg3 hrest
      rw [hstep]
      refine ⟨ih1, ?_, ?_, ?_⟩
      · rw [ih2]
        have hq3 : queueIds (updNode (updNode (updNode s sid fun n =>
            { n with last_weight := level }) cid fun m =>
              { m with deficit := (256 + m.deficit) % m.weight }) sid fun n =>
                { n with child_queue :=
                    n.child_queue ++ [(level + (256 + c.deficit) / c.weight, cid)] })
            sid = queueIds s sid ++ [cid] := by
          unfold queueIds
          rw [hg3, hg]
          simp
        rw [hq3, List.append_assoc]
        rfl
      · intro j hj
        rw [ih3 j hj]
        by_cases hjc : j = cid
        · subst hjc
          unfold queueIds
          rw [hgcid3, hgc]
        · unfold queueIds
          rw [hgoth j hj hjc]
      · intro j hj hjm
        have hjc : j ≠ cid := by
          intro hcon
          exact hjm (by rw [hcon]; exact List.mem_cons_self _ _)
        have hjr : j ∉ rest.map Prod.snd := by
          intro hcon
          exact hjm (List.mem_cons_of_mem _ hcon)
        rw [ih4 j hj hjr, hgoth j hj hjc]

/-! ### Functional correctness of the scheduling loop -/

theorem schedLoop_spec (fuel : Nat) (hrec : SchedSpec fuel) :
    ∀ (lf : Nat) (s : Streams) (sid : Nat) (n : Stream),
      CInv s → (∀ p ∈ s, 1 ≤ p.2.weight) →
      getNode s sid = some n → n.child_queue.length ≤ lf →
      (∀ e ∈ n.child_queue, e.2 ∈ n.children) →
      (∀ j, Desc s sid j → (queueIds s j).Perm (childIds s j)) →
      (((schedLoop (schedule fuel) s sid lf).2.1.map Prod.snd ++
        queueIds (schedLoop (schedule fuel) s sid lf).2.2 sid).Perm
        (n.child_queue.map Prod.snd)) ∧
      (∀ j, j ≠ sid →
        (queueIds (schedLoop (schedule fuel) s sid lf).2.2 j).Perm (queueIds s j)) ∧
      (∀ j, j ≠ sid → ¬ Desc s sid j →
        getNode (schedLoop (schedule fuel) s sid lf).2.2 j = getNode s j) ∧
      (∃ q3, getNode (schedLoop (schedule fuel) s sid lf).2.2 sid =
        some { n with child_queue := q3 }) ∧
      (∀ e, (schedLoop (schedule fuel) s sid lf).1 ≠ .err e) ∧
      (∀ cid, (schedLoop (schedule fuel) s sid lf).1 = .found cid →
        Desc s sid cid ∧ activeOf s cid = true) ∧
      ((schedLoop (schedule fuel) s sid lf).1 = .empty →
        ∀ e ∈ n.child_queue, activeOf s e.2 = false ∧
          ∀ j, Desc s e.2 j → activeOf s j = false) ∧
      (∀ k, parIter s k sid = some 0 → (keys s).length ≤ fuel + 1 + k →
        (schedLoop (schedule fuel) s sid lf).1 ≠ .fuelOut) := by
  intro lf
  induction lf with
  | zero =>
      intro s sid n hc hw hg hlen hqsub hdq
      have hqnil : n.child_queue = [] := List.length_eq_zero.mp (Nat.le_zero.mp hlen)
      have hqg : qget n.child_queue = none := by rw [hqnil]; rfl
      have heq : schedLoop (schedule fuel) s sid 0 = (.empty, [], s) := by
        simp only [schedLoop, hg, hqg]
      rw [heq]
      refine ⟨?_, ?_, ?_, ⟨n.child_queue, ?_⟩, ?_, ?_, ?_, ?_⟩
      · show (queueIds s sid).Perm (n.child_queue.map Prod.snd)
        simp only [queueIds, hg]
        exact List.Perm.refl _
      · intro j hj
        exact List.Perm.refl _
      · intro j hj hdj
        rfl
      · exact hg
      · intro e h
        exact SchedResult.noConfusion h
      · intro cid h
        exact SchedResult.noConfusion h
      · intro h e he
        rw [hqnil] at he
        exact absurd he (List.not_mem_nil e)
      · intro k hk hl h
        exact SchedResult.noConfusion h
  | succ lf ih =>
      intro s sid n hc hw hg hlen hqsub hdq
      cases hqg : qget n.child_queue with
      | none =>
          have hqnil : n.child_queue = [] := qget_eq_none hqg
          have heq : schedLoop (schedule fuel) s sid (lf + 1) = (.empty, [], s) := by
            simp only [schedLoop, hg, hqg]
          rw [heq]
          refine ⟨?_, ?_, ?_, ⟨n.child_queue, ?_⟩, ?_, ?_, ?_, ?_⟩
          · show (queueIds s sid).Perm (n.child_queue.map Prod.snd)
            simp only [queueIds, hg]
            exact List.Perm.refl _
          · intro j hj
            exact List.Perm.refl _
          · intro j hj hdj
            rfl
          · exact hg
          · intro e h
            exact SchedResult.noConfusion h
          · intro cid h
            exact SchedResult.noConfusion h
          · intro h e he
            rw [hqnil] at he
            exact absurd he (List.not_mem_nil e)
          · intro k hk hl h
            exact SchedResult.noConfusion h
      | some pr =>
          obtain ⟨⟨level, cid⟩, q'⟩ := pr
          have hperm : n.child_queue.Perm ((level, cid) :: q') := qget_perm hqg
          have hcidq : (level, cid) ∈ n.child_queue :=
            hperm.mem_iff.mpr (List.mem_cons_self _ _)
          have hcidch : cid ∈ n.children := hqsub _ hcidq
          have hcids : cid ≠ sid := child_ne_self hc hg hcidch
          obtain ⟨hcid0, cn, hgcn, hcnp⟩ :=
            hc.childMem (sid, n) (getNode_eq_some_mem hg) cid hcidch
          have hdcid : Desc s sid cid := desc_child hc hg hcidch
          have hskel1 : ∀ i,
              (getNode (updNode s sid fun m => { m with child_queue := q' }) i).map nodeSkel = (getNode s i).map nodeSkel := by
            refine nodeSkel_updNode ?_
            intro m
            rfl
          have hkeys1 : keys (updNode s sid fun m => { m with child_queue := q' }) = keys s := keys_updNode ..
          have hgcid1 : getNode (updNode s sid fun m => { m with child_queue := q' }) cid = some cn := by
            rw [getNode_updNode_ne _ _ hcids]
            exact hgcn
          have hgsid1 : getNode (updNode s sid fun m => { m with child_queue := q' }) sid = some { n with child_queue := q' } := by
            rw [getNode_updNode_self, hg]
            rfl
          have hq1sid : queueIds (updNode s sid fun m => { m with child_queue := q' }) sid = q'.map Prod.snd := by
            simp only [queueIds, hgsid1]
          have hq1oth : ∀ j, j ≠ sid → getNode (updNode s sid fun m => { m with child_queue := q' }) j = getNode s j := by
            intro j hj
            rw [getNode_updNode_ne _ _ hj]
          have hq1eq : ∀ j, j ≠ sid → queueIds (updNode s sid fun m => { m with child_queue := q' }) j = queueIds s j := by
            intro j hj
            unfold queueIds
            rw [hq1oth j hj]
          cases hact : cn.active with
          | true =>
              have heq : schedLoop (schedule fuel) s sid (lf + 1) =
                  (.found cid, [(level, cid)], (updNode s sid fun m => { m with child_queue := q' })) := by
                simp only [schedLoop, hg, hqg, hgcid1, hact, if_true]
              rw [heq]
              refine ⟨?_, ?_, ?_, ⟨q', hgsid1⟩, ?_, ?_, ?_, ?_⟩
              · show (cid :: queueIds (updNode s sid fun m => { m with child_queue := q' }) sid).Perm (n.child_queue.map Prod.snd)
                rw [hq1sid]
                exact (hperm.map Prod.snd).symm
              · intro j hj
                rw [hq1eq j hj]
              · intro j hj hdj
                exact hq1oth j hj
              · intro e h
                exact SchedResult.noConfusion h
              · intro cid2 h
                replace h : SchedResult.found cid = SchedResult.found cid2 := h
                cases SchedResult.found.inj h
                refine ⟨hdcid, ?_⟩
                simp only [activeOf, hgcn]
                exact hact
              · intro h
                exact SchedResult.noConfusion h
              · intro k hk hl h
                exact SchedResult.noConfusion h
          | false =>
              have hc1 : CInv (updNode s sid fun m => { m with child_queue := q' }) :=
                CInv_transfer hkeys1 (nodeSkel_proj hskel1)
                  (activeOf_of_nodeSkel hskel1 0) hc
              have hw1 : ∀ p ∈ (updNode s sid fun m => { m with child_queue := q' }), 1 ≤ p.2.weight :=
                weights_of_skel hc1.nodup hskel1 hw
              have hdesc1 : ∀ a j, Desc (updNode s sid fun m => { m with child_queue := q' }) a j ↔ Desc s a j :=
                desc_congr_of_skel hskel1
              have hnds : ¬ Desc (updNode s sid fun m => { m with child_queue := q' }) cid sid := by
                intro hdsc
                exact desc_irrefl hc (getNode_mem_keys hg)
                  (desc_compose hdcid ((hdesc1 cid sid).mp hdsc))
              have hq1 : ∀ j, (j = cid ∨ Desc (updNode s sid fun m => { m with child_queue := q' }) cid j) →
                  (queueIds (updNode s sid fun m => { m with child_queue := q' }) j).Perm (childIds (updNode s sid fun m => { m with child_queue := q' }) j) := by
                intro j hj
                have hjd : Desc s sid j := by
                  rcases hj with rfl | hdj
                  · exact hdcid
                  · exact desc_compose hdcid ((hdesc1 cid j).mp hdj)
                have hjs : j ≠ sid := desc_ne hc (getNode_mem_keys hg) hjd
                rw [hq1eq j hjs, childIds_of_skel hskel1 j]
                exact hdq j hjd
              obtain ⟨rB, rC, rD, rE, rF, rG⟩ :=
                hrec (updNode s sid fun m => { m with child_queue := q' }) cid cn hc1 hw1 hgcid1 hact hq1
              obtain ⟨hskel2, hkeys2⟩ := schedule_nodeSkel fuel (updNode s sid fun m => { m with child_queue := q' }) cid
              cases hres : schedule fuel (updNode s sid fun m => { m with child_queue := q' }) cid with
              | mk res2 s2 =>
                  rw [hres] at rB rC rD rE rF rG hskel2 hkeys2
                  have hskel02 : ∀ i,
                      (getNode s2 i).map nodeSkel = (getNode s i).map nodeSkel :=
                    fun i => (hskel2 i).trans (hskel1 i)
                  have hkeys02 : keys s2 = keys s := hkeys2.trans hkeys1
                  have hgsid2 : getNode s2 sid = some { n with child_queue := q' } := by
                    rw [rC sid (Ne.symm hcids) hnds]
                    exact hgsid1
                  have hq2sid : queueIds s2 sid = q'.map Prod.snd := by
                    simp only [queueIds, hgsid2]
                  have hdesc2 : ∀ a j, Desc s2 a j ↔ Desc s a j :=
                    desc_congr_of_skel hskel02
                  have hact02 : ∀ i, activeOf s2 i = activeOf s i :=
                    activeOf_of_nodeSkel hskel02
                  have hq2oth : ∀ j, j ≠ sid →
                      (queueIds s2 j).Perm (queueIds s j) := by
                    intro j hj
                    have h2 := rB j
                    rw [hq1eq j hj] at h2
                    exact h2
                  have hg2oth : ∀ j, j ≠ sid → ¬ Desc s sid j →
                      getNode s2 j = getNode s j := by
                    intro j hj hdj
                    have hjc : j ≠ cid := by
                      intro hcon
                      exact hdj (hcon ▸ hdcid)
                    have hnd2 : ¬ Desc (updNode s sid fun m => { m with child_queue := q' }) cid j := by
                      intro hdsc
                      exact hdj (desc_compose hdcid ((hdesc1 cid j).mp hdsc))
                    rw [rC j hjc hnd2, hq1oth j hj]
                  cases res2 with
                  | found k0 =>
                      have heq : schedLoop (schedule fuel) s sid (lf + 1) =
                          (.found k0, [(level, cid)], s2) := by
                        simp only [schedLoop, hg, hqg, hgcid1, hact, hres,
                          Bool.false_eq_true, if_false]
                      rw [heq]
                      have hfnd := rE k0 rfl
                      refine ⟨?_, ?_, ?_, ⟨q', hgsid2⟩, ?_, ?_, ?_, ?_⟩
                      · show (cid :: queueIds s2 sid).Perm (n.child_queue.map Prod.snd)
                        rw [hq2sid]
                        exact (hperm.map Prod.snd).symm
                      · intro j hj
                        exact hq2oth j hj
                      · intro j hj hdj
                        exact hg2oth j hj hdj
                      · intro e h
                        exact SchedResult.noConfusion h
                      · intro cid2 h
                        replace h : SchedResult.found k0 = SchedResult.found cid2 := h
                        cases SchedResult.found.inj h
                        refine ⟨desc_compose hdcid ((hdesc1 cid k0).mp hfnd.1), ?_⟩
                        rw [← activeOf_of_nodeSkel hskel1 k0]
                        exact hfnd.2
                      · intro h
                        exact SchedResult.noConfusion h
                      · intro k hk hl h
                        exact SchedResult.noConfusion h
                  | err e2 =>
                      exact absurd rfl (rD e2)
                  | fuelOut =>
                      have heq : schedLoop (schedule fuel) s sid (lf + 1) =
                          (.fuelOut, [(level, cid)], s2) := by
                        simp only [schedLoop, hg, hqg, hgcid1, hact, hres,
                          Bool.false_eq_true, if_false]
                      rw [heq]
                      refine ⟨?_, ?_, ?_, ⟨q', hgsid2⟩, ?_, ?_, ?_, ?_⟩
                      · show (cid :: queueIds s2 sid).Perm (n.child_queue.map Prod.snd)
                        rw [hq2sid]
                        exact (hperm.map Prod.snd).symm
                      · intro j hj
                        exact hq2oth j hj
                      · intro j hj hdj
                        exact hg2oth j hj hdj
                      · intro e h
                        exact SchedResult.noConfusion h
                      · intro cid2 h
                        exact SchedResult.noConfusion h
                      · intro h
                        exact SchedResult.noConfusion h
                      · intro k hk hl hcon
                        have hpc : parentOf s cid = some sid := by
                          rw [parentOf_eq_parent hgcn]
                          exact hcnp
                        have hk1 : parIter (updNode s sid fun m => { m with child_queue := q' }) (k + 1) cid = some 0 := by
                          rw [parIter_congr
                              (parentOf_congr_of_skel (nodeSkel_proj hskel1)) (k + 1) cid,
                            parIter_succ_of_parent k hpc]
                          exact hk
                        have hl1 : (keys (updNode s sid fun m => { m with child_queue := q' })).length ≤ fuel + (k + 1) := by
                          rw [hkeys1]
                          omega
                        exact rG (k + 1) hk1 hl1 rfl
                  | empty =>
                      have hc2 : CInv s2 :=
                        CInv_transfer hkeys02 (nodeSkel_proj hskel02)
                          (activeOf_of_nodeSkel hskel02 0) hc
                      have hw2 : ∀ p ∈ s2, 1 ≤ p.2.weight :=
                        weights_of_skel hc2.nodup hskel02 hw
                      have hlen2 :
                          (({ n with child_queue := q' } : Stream)).child_queue.length ≤
                            lf := by
                        show q'.length ≤ lf
                        have hle := hperm.length_eq
                        simp only [List.length_cons] at hle
                        omega
                      have hqsub2 : ∀ e ∈
                          (({ n with child_queue := q' } : Stream)).child_queue,
                          e.2 ∈ (({ n with child_queue := q' } : Stream)).children := by
                        intro e he
                        exact hqsub e (hperm.mem_iff.mpr (List.mem_cons_of_mem _ he))
                      have hdq2 : ∀ j, Desc s2 sid j →
                          (queueIds s2 j).Perm (childIds s2 j) := by
                        intro j hdj
                        have hdj0 : Desc s sid j := (hdesc2 sid j).mp hdj
                        have hjs : j ≠ sid := desc_ne hc (getNode_mem_keys hg) hdj0
                        rw [childIds_of_skel hskel02 j]
                        exact (hq2oth j hjs).trans (hdq j hdj0)
                      obtain ⟨iB, iC, iD, iE, iF, iG, iH, iI⟩ :=
                        ih s2 sid { n with child_queue := q' } hc2 hw2 hgsid2 hlen2
                          hqsub2 hdq2
                      cases hloop : schedLoop (schedule fuel) s2 sid lf with
                      | mk res3 pr3 =>
                          obtain ⟨popped3, s3⟩ := pr3
                          rw [hloop] at iB iC iD iE iF iG iH iI
                          have heq : schedLoop (schedule fuel) s sid (lf + 1) =
                              (res3, (level, cid) :: popped3, s3) := by
                            simp only [schedLoop, hg, hqg, hgcid1, hact, hres, hloop,
                              Bool.false_eq_true, if_false]
                          rw [heq]
                          refine ⟨?_, ?_, ?_, ?_, ?_, ?_, ?_, ?_⟩
                          · show (cid :: (popped3.map Prod.snd ++
                              queueIds s3 sid)).Perm (n.child_queue.map Prod.snd)
                            have hiB : (popped3.map Prod.snd ++
                                queueIds s3 sid).Perm (q'.map Prod.snd) := iB
                            exact (hiB.cons cid).trans ((hperm.map Prod.snd).symm)
                          · intro j hj
                            exact (iC j hj).trans (hq2oth j hj)
                          · intro j hj hdj
                            have hdj2 : ¬ Desc s2 sid j := fun hd =>
                              hdj ((hdesc2 sid j).mp hd)
                            rw [iD j hj hdj2, hg2oth j hj hdj]
                          · obtain ⟨q3, hq3⟩ := iE
                            exact ⟨q3, hq3⟩
                          · exact iF
                          · intro cid2 h
                            have hfnd := iG cid2 h
                            refine ⟨(hdesc2 sid cid2).mp hfnd.1, ?_⟩
                            rw [← hact02 cid2]
                            exact hfnd.2
                          · intro h e he
                            rcases List.mem_cons.mp (hperm.mem_iff.mp he) with
                              heq2 | he2
                            · subst heq2
                              refine ⟨?_, ?_⟩
                              · show activeOf s cid = false
                                simp only [activeOf, hgcn]
                                exact hact
                              · intro j hdj
                                have hdj2 : Desc s cid j := hdj
                                have hin := rF rfl j ((hdesc1 cid j).mpr hdj2)
                                rw [← activeOf_of_nodeSkel hskel1 j]
                                exact hin
                            · obtain ⟨ha1, ha2⟩ := iH h e he2
                              refine ⟨?_, ?_⟩
                              · rw [← hact02 e.2]
                                exact ha1
                              · intro j hdj
                                rw [← hact02 j]
                                exact ha2 j ((hdesc2 e.2 j).mpr hdj)
                          · intro k hk hl
                            have hk2 : parIter s2 k sid = some 0 := by
                              rw [parIter_congr
                                (parentOf_congr_of_skel (nodeSkel_proj hskel02)) k sid]
                              exact hk
                            have hl2 : (keys s2).length ≤ fuel + 1 + k := by
                              rw [hkeys02]
                              exact hl
                            exact iI k hk2 hl2

/-! ### Functional correctness of `schedule` -/

theorem schedule_spec : ∀ fuel, SchedSpec fuel := by
  intro fuel
  induction fuel with
  | zero =>
      intro s sid n hc hw hg hact hsub
      refine ⟨fun j => List.Perm.refl _, fun j hj hdj => rfl, ?_, ?_, ?_, ?_⟩
      · intro e h
        exact SchedResult.noConfusion h
      · intro cid h
        exact SchedResult.noConfusion h
      · intro h
        exact SchedResult.noConfusion h
      · intro k hk hl h
        have := chain_length_lt hc (getNode_mem_keys hg) hk
        omega
  | succ fuel ihf =>
      intro s sid n hc hw hg hact hsub
      have hpermsid : (n.child_queue.map Prod.snd).Perm n.children := by
        have hp := hsub sid (Or.inl rfl)
        simp only [queueIds, childIds, hg] at hp
        exact hp
      have hqsubset : ∀ e ∈ n.child_queue, e.2 ∈ n.children := by
        intro e he
        exact hpermsid.mem_iff.mp (List.mem_map_of_mem Prod.snd he)
      have hdq : ∀ j, Desc s sid j → (queueIds s j).Perm (childIds s j) :=
        fun j hdj => hsub j (Or.inr hdj)
      obtain ⟨lB, lC, lD, lE, lF, lG, lH, lI⟩ :=
        schedLoop_spec fuel ihf n.child_queue.length s sid n hc hw hg
          (le_refl _) hqsubset hdq
      obtain ⟨lskel, lkeys⟩ :=
        schedLoop_nodeSkel (schedule fuel)
          (fun s2 sid2 => schedule_nodeSkel fuel s2 sid2) n.child_queue.length s sid
      cases hsl : schedLoop (schedule fuel) s sid n.child_queue.length with
      | mk res ps =>
          obtain ⟨popped, s1⟩ := ps
          rw [hsl] at lB lC lD lE lF lG lH lI lskel lkeys
          obtain ⟨q1, hgs1⟩ := lE
          have hc3 : CInv s1 := CInv_transfer lkeys (nodeSkel_proj lskel)
            (activeOf_of_nodeSkel lskel 0) hc
          have hw3 : ∀ p ∈ s1, 1 ≤ p.2.weight :=
            weights_of_skel hc3.nodup lskel hw
          have hpoppedids : ∀ x ∈ popped.map Prod.snd, x ∈ n.children := by
            intro x hx
            have hx2 : x ∈ popped.map Prod.snd ++ queueIds s1 sid :=
              List.mem_append_left _ hx
            have hx3 : x ∈ n.child_queue.map Prod.snd := lB.mem_iff.mp hx2
            obtain ⟨e, he, rfl⟩ := List.mem_map.mp hx3
            exact hqsubset e he
          have hP : ∀ e ∈ popped, e.2 ≠ sid ∧
              ∃ c, getNode s1 e.2 = some c ∧ 1 ≤ c.weight := by
            intro e he
            have hech : e.2 ∈ n.children :=
              hpoppedids e.2 (List.mem_map_of_mem Prod.snd he)
            refine ⟨child_ne_self hc hg hech, ?_⟩
            obtain ⟨-, cn, hgcn, -⟩ :=
              hc.childMem (sid, n) (getNode_eq_some_mem hg) e.2 hech
            have hk1 : e.2 ∈ keys s1 := by
              rw [lkeys]
              exact getNode_mem_keys hgcn
            cases hg1 : getNode s1 e.2 with
            | none =>
                have hcon := getNode_isSome_of_mem_keys hk1
                rw [hg1] at hcon
                simp at hcon
            | some c1 =>
                exact ⟨c1, rfl, hw3 (e.2, c1) (getNode_eq_some_mem hg1)⟩
          obtain ⟨rq1, rq2, rq3, rq4⟩ :=
            requeue_perm popped s1 sid { n with child_queue := q1 } hgs1 hP
          cases hrq : requeue s1 sid popped with
          | mk s4 eo =>
              rw [hrq] at rq1 rq2 rq3 rq4
              have heo : eo = none := rq1
              subst heo
              have heq : schedule (fuel + 1) s sid = (res, s4) := by
                simp only [schedule, hg, hact, hsl, hrq, Bool.false_eq_true, if_false]
              rw [heq]
              refine ⟨?_, ?_, ?_, ?_, ?_, ?_⟩
              · intro j
                by_cases hj : j = sid
                · subst hj
                  rw [rq2]
                  have hqj : queueIds s j = n.child_queue.map Prod.snd := by
                    simp only [queueIds, hg]
                  rw [hqj]
                  exact List.perm_append_comm.trans lB
                · rw [rq3 j hj]
                  exact lC j hj
              · intro j hj hdj
                have hjp : j ∉ popped.map Prod.snd := by
                  intro hcon
                  exact hdj (desc_child hc hg (hpoppedids j hcon))
                rw [rq4 j hj hjp, lD j hj hdj]
              · intro e h
                exact lF e h
              · intro cid h
                exact lG cid h
              · intro h j hdj
                obtain ⟨c, hcch, hcj⟩ := desc_step hc hg hdj
                have hcq : c ∈ n.child_queue.map Prod.snd := hpermsid.mem_iff.mpr hcch
                obtain ⟨e, he, heq2⟩ := List.mem_map.mp hcq
                have hF := lH h e he
                rcases hcj with rfl | hdcj
                · exact heq2 ▸ hF.1
                · exact hF.2 j (heq2.symm ▸ hdcj)
              · intro k hk hl h
                exact lI k hk hl h

/-! ### The scheduling invariant survives a call to `next` -/

theorem QInv_pnext (fuel : Nat) (s : Streams) (hq : QInv s) :
    QInv (pnext fuel s).2 := by
  obtain ⟨r, hr, hrp, hra⟩ := hq.str.root0
  have hsub : ∀ j, (j = 0 ∨ Desc s 0 j) → (queueIds s j).Perm (childIds s j) := by
    intro j hj
    cases hgj : getNode s j with
    | none =>
        simp only [queueIds, childIds, hgj]
        exact List.Perm.refl _
    | some nj =>
        have hp := hq.queuePerm (j, nj) (getNode_eq_some_mem hgj)
        simp only [queueIds, childIds, hgj]
        exact hp
  obtain ⟨sB, sC, sD, sE, sF, sG⟩ :=
    schedule_spec fuel s 0 r hq.str hq.weights hr hra hsub
  obtain ⟨hskel, hkeys⟩ := schedule_nodeSkel fuel s 0
  have hq2 : QInv (schedule fuel s 0).2 :=
    QInv_transfer_skel hkeys hskel sB hq
  unfold pnext
  cases hs : schedule fuel s 0 with
  | mk r2 s2 =>
      rw [hs] at hq2
      cases r2 <;> exact hq2

theorem QInv_initTree : QInv initTree := by
  refine ⟨CInv_initTree, ?_, ?_⟩ <;> decide

theorem QInv_reach {s : Streams} (h : ReachQ s) : QInv s := by
  induction h with
  | init => exact QInv_initTree
  | insert s id dep w ex hr hw ih => exact QInv_insert s id dep w ex ih hw
  | reprio s id dep w ex hr hid hdep hw hrs ih =>
      exact QInv_reprioritize s id dep w ex ih hid hw hdep hrs
  | remove s id hr hid ih => exact QInv_remove s id hid ih
  | block s id hr ih => exact QInv_block s id ih
  | unblock s id hr hid ih => exact QInv_unblock s id hid ih
  | next s fuel hr ih => exact QInv_pnext fuel s ih

/-! ### C2: what `next()` returns on reachable trees -/

/-- C2 (amended): on every tree reachable by the guarded public operations
with spec-legal weights (the `ReachQ` states), and with fuel covering the
tree size, `next()` either returns the id of an active non-root stream or
raises `DeadlockError`, and it raises `DeadlockError` exactly when no stream
other than the root is active.  Unguarded the claim fails: after
`unblock(0)` the root itself is active, no other stream is, and `next()`
raises `AssertionError` instead of deadlock — see the counterexample. -/
theorem c2_next_dichotomy (s : Streams) (fuel : Nat) (h : ReachQ s)
    (hfuel : (keys s).length ≤ fuel) :
    (∀ cid, (pnext fuel s).1 = .found cid →
      cid ≠ 0 ∧ activeOf s cid = true) ∧
    ((pnext fuel s).1 = .err .deadlock ↔ noNonRootActive s) ∧
    ((pnext fuel s).1 = .err .deadlock ∨
      ∃ cid, (pnext fuel s).1 = .found cid) := by
  have hq := QInv_reach h
  have hc := hq.str
  obtain ⟨r, hr, hrp, hra⟩ := hc.root0
  have hsub : ∀ j, (j = 0 ∨ Desc s 0 j) → (queueIds s j).Perm (childIds s j) := by
    intro j hj
    cases hgj : getNode s j with
    | none =>
        simp only [queueIds, childIds, hgj]
        exact List.Perm.refl _
    | some nj =>
        have hp := hq.queuePerm (j, nj) (getNode_eq_some_mem hgj)
        simp only [queueIds, childIds, hgj]
        exact hp
  obtain ⟨sB, sC, sD, sE, sF, sG⟩ :=
    schedule_spec fuel s 0 r hc hq.weights hr hra hsub
  have hfound : ∀ cid, (schedule fuel s 0).1 = .found cid →
      cid ≠ 0 ∧ activeOf s cid = true := by
    intro cid hcid
    obtain ⟨hdsc, hact⟩ := sE cid hcid
    refine ⟨?_, hact⟩
    intro hcon
    subst hcon
    exact desc_irrefl hc hc.mem_keys_zero hdsc
  have hdesc0 : ∀ p ∈ s, p.1 ≠ 0 → Desc s 0 p.1 := by
    intro p hp hp0
    obtain ⟨k, hk⟩ := hc.rootedAll p hp
    refine ⟨k, ?_, hk⟩
    cases k with
    | zero =>
        rw [parIter_zero] at hk
        exact absurd (Option.some.inj hk) hp0
    | succ k2 => omega
  have hempty : (schedule fuel s 0).1 = .empty → noNonRootActive s := by
    intro h2 p hp hp0
    have ha := sF h2 p.1 (hdesc0 p hp hp0)
    have hgp : getNode s p.1 = some p.2 := getNode_of_mem_nodup hc.nodup (by
      cases p
      exact hp)
    simp only [activeOf, hgp] at ha
    exact ha
  have hnotfuel : (schedule fuel s 0).1 ≠ .fuelOut := by
    refine sG 0 (parIter_zero s 0) ?_
    omega
  have hnotfound : noNonRootActive s → ∀ cid,
      (schedule fuel s 0).1 ≠ .found cid := by
    intro hno cid hcid
    obtain ⟨hcid0, hact⟩ := hfound cid hcid
    cases hgc : getNode s cid with
    | none =>
        simp only [activeOf, hgc] at hact
        exact Bool.noConfusion hact
    | some c =>
        have hfa := hno (cid, c) (getNode_eq_some_mem hgc) hcid0
        simp only [activeOf, hgc] at hact
        rw [hfa] at hact
        exact Bool.noConfusion hact
  unfold pnext
  cases hs : schedule fuel s 0 with
  | mk r2 s2 =>
      rw [hs] at hfound hempty hnotfuel hnotfound sD
      cases r2 with
      | found cid =>
          refine ⟨?_, ?_, Or.inr ⟨cid, rfl⟩⟩
          · intro cid2 h2
            replace h2 : SchedResult.found cid = SchedResult.found cid2 := h2
            cases SchedResult.found.inj h2
            exact hfound cid rfl
          · constructor
            · intro h2
              replace h2 : SchedResult.found cid = SchedResult.err PyErr.deadlock := h2
              exact SchedResult.noConfusion h2
            · intro hno
              exact absurd rfl (hnotfound hno cid)
      | empty =>
          refine ⟨?_, ?_, Or.inl rfl⟩
          · intro cid2 h2
            replace h2 : SchedResult.err PyErr.deadlock = SchedResult.found cid2 := h2
            exact SchedResult.noConfusion h2
          · exact ⟨fun h2 => hempty rfl, fun h2 => rfl⟩
      | err e =>
          exact absurd rfl (sD e)
      | fuelOut =>
          exact absurd rfl hnotfuel

/-- C2, witness: the two-stream tree reached by inserting stream 1 under the
root is a `ReachQ` state with two keys, so fuel 2 covers it, and there
`next()` does not report deadlock (stream 1 is active). -/
theorem c2_witness :
    (keys treeOne).length ≤ 2 ∧
    ((pnext 2 treeOne).1 = .err .deadlock ↔ noNonRootActive treeOne) :=
  ⟨by decide,
   (c2_next_dichotomy treeOne 2
      (ReachQ.insert initTree 1 none 16 false ReachQ.init (by decide))
      (by decide)).2.1⟩

end Priority
